import Mathlib

/-!
# Greedy NMS and hashed NMS

A shallow embedding of `maskrcnn_benchmark/csrc/cpu/nms_cpu.cpp`.

Modelling conventions.

* A floating-point value is an `FVal`: a rational (every finite float is one), `+inf`,
  `-inf` or `NaN`; zeros carry no sign. Comparisons follow IEEE 754 (`flt`, `fle`, `feq`,
  `fge`: every comparison with `NaN` is false).
* `nms_cpu_kernel` is the greedy kernel in exact arithmetic: box coordinates, scores and
  the threshold are rationals, and only the division `inter / (iarea + areas[j] - inter)`
  leaves them, with the IEEE results of dividing by zero.
* `nms_cpu_kernel_ieee` is the same kernel with every operation of `scalar_t` rounded to a
  binary format (`binary32` for `float`, `binary64` for `double`): round to nearest, ties to
  even, overflow to an infinity, `inf - inf`, `0 * inf`, `0 / 0` and `inf / inf` giving
  `NaN`. The claims that rounding, overflow or `NaN` decide are settled on it.
* The scores of the hashed variant are only compared, never computed with: they are `FVal`s,
  so `NaN` and infinite scores are inputs of `get_best_score_each_code`.
* A tensor of `N` rows is a list of length `N`; raw-pointer reads `p[k]` are `l[k]?`, and a
  function returns `none` when the C++ execution would read or write outside a buffer.
* `long` is `Int`; 64-bit signed arithmetic is made explicit with `wrap64`.
-/

namespace HNMS

/-! ## Data model -/

/-- One row of `dets` for the greedy kernel: `(x1, y1, x2, y2)`. -/
structure Box where
  x1 : ℚ
  y1 : ℚ
  x2 : ℚ
  y2 : ℚ
deriving DecidableEq

/-- A floating-point value: a finite number, an infinity or `NaN`. -/
inductive FVal where
  | val (q : ℚ)
  | pinf
  | ninf
  | nan
deriving DecidableEq

/-- The quotient `a / b` of two finite numbers (IEEE: `x/0` is `±inf`, `0/0` is `NaN`). -/
def fdiv (a b : ℚ) : FVal :=
  if b = 0 then
    if a = 0 then FVal.nan else if 0 < a then FVal.pinf else FVal.ninf
  else FVal.val (a / b)

/-- The comparison `r >= t` against a finite `t` (false for `NaN`). -/
def fge (r : FVal) (t : ℚ) : Bool :=
  match r with
  | FVal.val q => decide (t ≤ q)
  | FVal.pinf => true
  | FVal.ninf => false
  | FVal.nan => false

/-- Numeric literals denote finite values. -/
instance (n : Nat) : OfNat FVal n := ⟨FVal.val n⟩

/-- The comparison `a < b` of two floating-point values. -/
def flt (a b : FVal) : Bool :=
  match a, b with
  | FVal.val x, FVal.val y => decide (x < y)
  | FVal.val _, FVal.pinf => true
  | FVal.ninf, FVal.val _ => true
  | FVal.ninf, FVal.pinf => true
  | _, _ => false

/-- The comparison `a == b` of two floating-point values. -/
def feq (a b : FVal) : Bool :=
  match a, b with
  | FVal.val x, FVal.val y => decide (x = y)
  | FVal.pinf, FVal.pinf => true
  | FVal.ninf, FVal.ninf => true
  | _, _ => false

/-- The comparison `a <= b` of two floating-point values. -/
def fle (a b : FVal) : Bool := flt a b || feq a b

/-! ## `nms_cpu_kernel` -/

/-- One entry of `areas_t = (x2_t - x1_t + 1) * (y2_t - y1_t + 1)` (line 30). -/
def Box.area (b : Box) : ℚ := (b.x2 - b.x1 + 1) * (b.y2 - b.y1 + 1)

/-- Lines 59-66: `inter = w * h` for the boxes `i` and `j`. -/
def inter (bi bj : Box) : ℚ :=
  let xx1 := max bi.x1 bj.x1
  let yy1 := max bi.y1 bj.y1
  let xx2 := min bi.x2 bj.x2
  let yy2 := min bi.y2 bj.y2
  let w := max 0 (xx2 - xx1 + 1)
  let h := max 0 (yy2 - yy1 + 1)
  w * h

/-- Line 67: `ovr = inter / (iarea + areas[j] - inter)`. -/
def ovr (bi : Box) (iarea : ℚ) (bj : Box) (jarea : ℚ) : FVal :=
  fdiv (inter bi bj) (iarea + jarea - inter bi bj)

/-- Modelled from the spec: the index half of the external tensor sort
`scores.sort(0, /* descending=*/true)` (line 32): the positions of `scores` in descending
score order, equal scores keeping their original relative order (a stable sort). -/
def sort_descending (scores : List ℚ) : List Nat :=
  (scores.enum.insertionSort (fun p q => q.2 ≤ p.2)).map Prod.fst

/-- The inner loop, lines 55-70: `n` iterations starting at rank `_j`. -/
def nms_inner (dets : List Box) (areas : List ℚ) (order : List Nat) (threshold : ℚ)
    (bi : Box) (iarea : ℚ) : Nat → Nat → List Bool → Option (List Bool)
  | 0, _, suppressed => some suppressed
  | n + 1, _j, suppressed =>
    match order[_j]? with
    | none => none
    | some j =>
      match suppressed[j]? with
      | none => none
      | some true => nms_inner dets areas order threshold bi iarea n (_j + 1) suppressed
      | some false =>
        match dets[j]?, areas[j]? with
        | some bj, some jarea =>
          if fge (ovr bi iarea bj jarea) threshold then
            nms_inner dets areas order threshold bi iarea n (_j + 1) (suppressed.set j true)
          else
            nms_inner dets areas order threshold bi iarea n (_j + 1) suppressed
        | _, _ => none

/-- The outer loop, lines 45-71: `n` iterations starting at rank `_i`. -/
def nms_outer (dets : List Box) (areas : List ℚ) (order : List Nat) (threshold : ℚ)
    (ndets : Nat) : Nat → Nat → List Bool → Option (List Bool)
  | 0, _, suppressed => some suppressed
  | n + 1, _i, suppressed =>
    match order[_i]? with
    | none => none
    | some i =>
      match suppressed[i]? with
      | none => none
      | some true => nms_outer dets areas order threshold ndets n (_i + 1) suppressed
      | some false =>
        match dets[i]?, areas[i]? with
        | some bi, some iarea =>
          match nms_inner dets areas order threshold bi iarea (ndets - (_i + 1)) (_i + 1)
              suppressed with
          | none => none
          | some suppressed' =>
            nms_outer dets areas order threshold ndets n (_i + 1) suppressed'
        | _, _ => none

/-- Line 72, `at::nonzero(suppressed_t == 0).squeeze(1)`: the positions whose flag is 0,
in ascending order. -/
def nonzero_eq_zero (suppressed : List Bool) : List Nat :=
  (List.range suppressed.length).filter (fun k => suppressed[k]? == some false)

/-- The greedy loop of `nms_cpu_kernel` (lines 30-71): the final `suppressed` flags. -/
def nms_flags (dets : List Box) (scores : List ℚ) (threshold : ℚ) : Option (List Bool) :=
  let areas_t := dets.map Box.area
  let order_t := sort_descending scores
  let ndets := dets.length
  let suppressed_t := List.replicate ndets false
  nms_outer dets areas_t order_t threshold ndets ndets 0 suppressed_t

/-- `nms_cpu_kernel(dets, scores, threshold)`, lines 14-73. -/
def nms_cpu_kernel (dets : List Box) (scores : List ℚ) (threshold : ℚ) : Option (List Nat) :=
  if dets.length = 0 then some []
  else
    match nms_flags dets scores threshold with
    | none => none
    | some suppressed => some (nonzero_eq_zero suppressed)

/-! ## The greedy loop as a list recursion -/

/-- The test `ovr >= threshold` of line 68 for the boxes at positions `i` and `j` of `dets`. -/
def suppresses (dets : List Box) (threshold : ℚ) (i j : Nat) : Bool :=
  match dets[i]?, dets[j]? with
  | some bi, some bj => fge (ovr bi bi.area bj bj.area) threshold
  | _, _ => false

/-- Greedy selection over a rank-ordered list of indices: `kept` holds the indices kept so
far; the next index is kept unless an index kept before it passes the test `g` against it. -/
def greedy_keep (g : Nat → Nat → Bool) : List Nat → List Nat → List Nat
  | kept, [] => kept
  | kept, o :: rest =>
    if kept.any (fun i => g i o) then greedy_keep g kept rest
    else greedy_keep g (kept ++ [o]) rest

/-! ## `hash_rects` -/

/-- The floating-point operations that `hash_rects` takes from `tgmath.h` and from the tensor
library, over the element type `F` of the box tensor. They are parameters of the model. -/
structure FloatOps (F : Type) where
  log : F → F
  pow : F → F → F
  round : F → F
  add : F → F → F
  sub : F → F → F
  mul : F → F → F
  div : F → F → F
  one : F
  cast_Long : F → Int

/-- One row of `dets` for the hashed variant: `(x, y, w, h)`. -/
structure Rect (F : Type) where
  x : F
  y : F
  w : F
  h : F

/-- One row of the `codes` tensor: the four `long`s `p_code[0..3]` = `(qx, qy, i, j)`. -/
structure Code where
  qx : Int
  qy : Int
  i : Int
  j : Int
deriving DecidableEq

/-- `hash_rects(dets, w0, h0, alpha, bx, by)`, lines 85-115, row by row. -/
def hash_rects {F : Type} (ops : FloatOps F) (dets : List (Rect F))
    (w0 h0 alpha bx by_ : F) : List Code :=
  let log_w0 := ops.log w0
  let log_h0 := ops.log h0
  let log_alpha := ops.log alpha
  let alpha_ratio := ops.div (ops.sub ops.one alpha) (ops.add ops.one alpha)
  let w0_alpha := ops.mul w0 alpha_ratio
  let h0_alpha := ops.mul h0 alpha_ratio
  dets.map (fun d =>
    let i := ops.round (ops.div (ops.sub log_w0 (ops.log d.w)) log_alpha)
    let j := ops.round (ops.div (ops.sub log_h0 (ops.log d.h)) log_alpha)
    let di := ops.div w0_alpha (ops.pow alpha i)
    let dj := ops.div h0_alpha (ops.pow alpha j)
    let qx := ops.round (ops.sub (ops.div d.x di) bx)
    let qy := ops.round (ops.sub (ops.div d.y dj) by_)
    { qx := ops.cast_Long qx, qy := ops.cast_Long qy,
      i := ops.cast_Long i, j := ops.cast_Long j })

/-! ## `get_code` and `get_best_score_each_code` -/

/-- The value of a 64-bit two's-complement `long` after an arithmetic result `z` wraps. -/
def wrap64 (z : Int) : Int := (z + 2 ^ 63) % 2 ^ 64 - 2 ^ 63

/-- `get_code(p_code)`, lines 122-126, in `long` arithmetic. -/
def get_code (p_code : Code) : Int :=
  wrap64 (p_code.qx + p_code.qy * 10000 + p_code.i * 100000000 + p_code.j * 1000000000000)

/-- The contents of a `std::map<TCode, long>`: its entries in ascending key order. -/
abbrev CodeMap := List (Int × Nat)

/-- `code_to_idx[code] = idx`: insert the key at its place in the order, or overwrite. -/
def CodeMap.assign : CodeMap → Int → Nat → CodeMap
  | [], code, idx => [(code, idx)]
  | (c, v) :: m, code, idx =>
    if code < c then (code, idx) :: (c, v) :: m
    else if code = c then (code, idx) :: m
    else (c, v) :: CodeMap.assign m code idx

/-- The loop of lines 137-148 over the rows that remain, `i` being the row index (an `int`
in the source; fewer than `2^31` rows are assumed). -/
def best_loop (scores : List FVal) : List Code → Nat → CodeMap → Option CodeMap
  | [], _, code_to_idx => some code_to_idx
  | p_code :: rest, i, code_to_idx =>
    let code := get_code p_code
    match code_to_idx.lookup code with
    | none => best_loop scores rest (i + 1) (code_to_idx.assign code i)
    | some pre_idx =>
      match scores[pre_idx]?, scores[i]? with
      | some s_pre, some s_i =>
        if flt s_pre s_i then best_loop scores rest (i + 1) (code_to_idx.assign code i)
        else best_loop scores rest (i + 1) code_to_idx
      | _, _ => none

/-- `get_best_score_each_code(codes, scores)`, lines 128-159: the map's values in the
order the map enumerates them. -/
def get_best_score_each_code (codes : List Code) (scores : List FVal) : Option (List Nat) :=
  match best_loop scores codes 0 [] with
  | none => none
  | some code_to_idx => some (code_to_idx.map Prod.snd)

/-- `hnms_cpu(dets, scores, w0, h0, alpha, bx, by)`, lines 161-180. -/
def hnms_cpu {F : Type} (ops : FloatOps F) (dets : List (Rect F)) (scores : List FVal)
    (w0 h0 alpha bx by_ : F) : Option (List Nat) :=
  if dets.length = 0 then some []
  else
    let codes := hash_rects ops dets w0 h0 alpha bx by_
    get_best_score_each_code codes scores

/-- The entries of a map are in strictly ascending key order. -/
def CodeMap.Sorted (m : CodeMap) : Prop := m.Pairwise (fun a b => a.1 < b.1)

/-- What the map holds once the rows below `i` have been scanned, `K n` being the key and
`S n` the score of row `n`: ascending keys; each entry `(c, v)` names a scanned row `v`
with key `c` such that `S v < S n` is false for every scanned row `n` with that key, and
which is the first row among those equal to it; and every scanned key is present. -/
def BestInv (K : Nat → Int) (S : Nat → FVal) (i : Nat) (m : CodeMap) : Prop :=
  m.Sorted ∧
  (∀ c v, (c, v) ∈ m → v < i ∧ K v = c ∧
    ∀ n, n < i → K n = c → flt (S v) (S n) = false ∧ (feq (S n) (S v) = true → v ≤ n)) ∧
  (∀ n, n < i → ∃ v, (K n, v) ∈ m)

/-- The key of row `n` of `codes` (0 outside the tensor). -/
def key_at (codes : List Code) (n : Nat) : Int := ((codes[n]?).map get_code).getD 0

/-- The score of row `n` (0 outside the tensor). -/
def score_at (scores : List ℚ) (n : Nat) : ℚ := (scores[n]?).getD 0

/-- The floating-point score of row `n` (`NaN` outside the tensor). -/
def fscore_at (scores : List FVal) (n : Nat) : FVal := (scores[n]?).getD FVal.nan

/-- The keys of the rows named by `res`, in the order of `res`. -/
def keys_of (codes : List Code) (res : List Nat) : List Int :=
  res.filterMap (fun k => (codes[k]?).map get_code)

/-- One returned index per distinct key of `codes`, in strictly ascending key order. -/
def OnePerKey (codes : List Code) (res : List Nat) : Prop :=
  (∀ k ∈ res, k < codes.length) ∧
  res.length = ((codes.map get_code).dedup).length ∧
  (∀ (m : Nat) (pm : Code), codes[m]? = some pm →
    ∃ k ∈ res, ∃ pk, codes[k]? = some pk ∧ get_code pk = get_code pm) ∧
  (keys_of codes res).Pairwise (fun a b => a < b)

/-! ## Permuted inputs -/

/-- The tensor `l` with its rows rearranged: position `k` of the result holds row `p[k]`. -/
def permute {α : Type} (p : List Nat) (l : List α) : List α :=
  p.filterMap (fun k => l[k]?)

/-! ## Exact arithmetic for `hash_rects` -/

/-- The operations of `hash_rects` in exact arithmetic over a field `F`: the four functions
that are not field operations (`log`, `pow`, `round` and the cast to `long`) stay
parameters. -/
def exact_ops {F : Type} [Field F] (log : F → F) (pow : F → F → F) (round : F → F)
    (cast_Long : F → Int) : FloatOps F :=
  { log := log, pow := pow, round := round,
    add := fun a b => a + b, sub := fun a b => a - b,
    mul := fun a b => a * b, div := fun a b => a / b,
    one := 1, cast_Long := cast_Long }

/-! ## IEEE 754 arithmetic

The greedy kernel once more, with every arithmetic operation rounded to a binary
floating-point format (round to nearest, ties to even; overflow to an infinity): each of
`-`, `+`, `*`, `/` of lines 30 and 63-67 is one correctly rounded operation of `scalar_t`,
and `std::max`, `std::min` and `>=` are the comparisons of the language. -/

/-- A binary floating-point format: the number of significand bits and the largest
exponent. -/
structure Format where
  prec : Nat
  emax : Int

/-- The format of `float`. -/
def binary32 : Format := { prec := 24, emax := 127 }

/-- The format of `double`. -/
def binary64 : Format := { prec := 53, emax := 1023 }

/-- The exponent of the smallest positive value of the format (a subnormal). -/
def Format.elow (f : Format) : Int := 2 - f.emax - f.prec

/-- The largest finite value of the format. -/
def Format.maxval (f : Format) : ℚ := (2 ^ f.prec - 1) * 2 ^ (f.emax - f.prec + 1)

/-- The integer nearest to `y`, the even one of the two when `y` is half-way. -/
def rhe (y : ℚ) : Int :=
  if y - ⌊y⌋ < 1 / 2 then ⌊y⌋
  else if 1 / 2 < y - ⌊y⌋ then ⌊y⌋ + 1
  else if ⌊y⌋ % 2 = 0 then ⌊y⌋ else ⌊y⌋ + 1

/-- The exponent of the unit in the last place for a magnitude `x`. -/
def Format.quantum (f : Format) (x : ℚ) : Int := max (Int.log 2 x - (f.prec - 1)) f.elow

/-- The magnitude `x >= 0` rounded to `prec` significant bits, exponent unbounded above. -/
def Format.rnabs (f : Format) (x : ℚ) : ℚ := rhe (x / 2 ^ f.quantum x) * 2 ^ f.quantum x

/-- The exact result `x` of an operation, rounded to the format. -/
def Format.round (f : Format) (x : ℚ) : FVal :=
  if 0 ≤ x then
    if f.maxval < f.rnabs x then FVal.pinf else FVal.val (f.rnabs x)
  else
    if f.maxval < f.rnabs (-x) then FVal.ninf else FVal.val (-f.rnabs (-x))

/-- Floating-point `a + b`. -/
def Format.add (f : Format) (a b : FVal) : FVal :=
  match a, b with
  | FVal.val x, FVal.val y => f.round (x + y)
  | FVal.nan, _ => FVal.nan
  | _, FVal.nan => FVal.nan
  | FVal.pinf, FVal.ninf => FVal.nan
  | FVal.ninf, FVal.pinf => FVal.nan
  | FVal.pinf, _ => FVal.pinf
  | FVal.ninf, _ => FVal.ninf
  | FVal.val _, FVal.pinf => FVal.pinf
  | FVal.val _, FVal.ninf => FVal.ninf

/-- Floating-point `a - b`. -/
def Format.sub (f : Format) (a b : FVal) : FVal :=
  match a, b with
  | FVal.val x, FVal.val y => f.round (x - y)
  | FVal.nan, _ => FVal.nan
  | _, FVal.nan => FVal.nan
  | FVal.pinf, FVal.pinf => FVal.nan
  | FVal.ninf, FVal.ninf => FVal.nan
  | FVal.pinf, _ => FVal.pinf
  | FVal.ninf, _ => FVal.ninf
  | FVal.val _, FVal.pinf => FVal.ninf
  | FVal.val _, FVal.ninf => FVal.pinf

/-- Floating-point `a * b`. -/
def Format.mul (f : Format) (a b : FVal) : FVal :=
  match a, b with
  | FVal.val x, FVal.val y => f.round (x * y)
  | FVal.nan, _ => FVal.nan
  | _, FVal.nan => FVal.nan
  | FVal.pinf, FVal.pinf => FVal.pinf
  | FVal.pinf, FVal.ninf => FVal.ninf
  | FVal.ninf, FVal.pinf => FVal.ninf
  | FVal.ninf, FVal.ninf => FVal.pinf
  | FVal.pinf, FVal.val y => if y = 0 then FVal.nan else if 0 < y then FVal.pinf else FVal.ninf
  | FVal.ninf, FVal.val y => if y = 0 then FVal.nan else if 0 < y then FVal.ninf else FVal.pinf
  | FVal.val x, FVal.pinf => if x = 0 then FVal.nan else if 0 < x then FVal.pinf else FVal.ninf
  | FVal.val x, FVal.ninf => if x = 0 then FVal.nan else if 0 < x then FVal.ninf else FVal.pinf

/-- Floating-point `a / b` (a zero divisor counts as `+0`). -/
def Format.div (f : Format) (a b : FVal) : FVal :=
  match a, b with
  | FVal.val x, FVal.val y =>
    if y = 0 then
      if x = 0 then FVal.nan else if 0 < x then FVal.pinf else FVal.ninf
    else f.round (x / y)
  | FVal.nan, _ => FVal.nan
  | _, FVal.nan => FVal.nan
  | FVal.val _, FVal.pinf => FVal.val 0
  | FVal.val _, FVal.ninf => FVal.val 0
  | FVal.pinf, FVal.val y => if 0 ≤ y then FVal.pinf else FVal.ninf
  | FVal.ninf, FVal.val y => if 0 ≤ y then FVal.ninf else FVal.pinf
  | FVal.pinf, FVal.pinf => FVal.nan
  | FVal.pinf, FVal.ninf => FVal.nan
  | FVal.ninf, FVal.pinf => FVal.nan
  | FVal.ninf, FVal.ninf => FVal.nan

/-- `std::max(a, b)`: `b` if `a < b`, else `a`. -/
def fmax (a b : FVal) : FVal := if flt a b then b else a

/-- `std::min(a, b)`: `b` if `b < a`, else `a`. -/
def fmin (a b : FVal) : FVal := if flt b a then b else a

/-- One entry of `areas_t` (line 30) in the format `f`. -/
def area_ieee (f : Format) (b : Box) : FVal :=
  f.mul (f.add (f.sub (FVal.val b.x2) (FVal.val b.x1)) (FVal.val 1))
    (f.add (f.sub (FVal.val b.y2) (FVal.val b.y1)) (FVal.val 1))

/-- Lines 59-66 in the format `f`: `inter = w * h`. -/
def inter_ieee (f : Format) (bi bj : Box) : FVal :=
  let xx1 := fmax (FVal.val bi.x1) (FVal.val bj.x1)
  let yy1 := fmax (FVal.val bi.y1) (FVal.val bj.y1)
  let xx2 := fmin (FVal.val bi.x2) (FVal.val bj.x2)
  let yy2 := fmin (FVal.val bi.y2) (FVal.val bj.y2)
  let w := fmax (FVal.val 0) (f.add (f.sub xx2 xx1) (FVal.val 1))
  let h := fmax (FVal.val 0) (f.add (f.sub yy2 yy1) (FVal.val 1))
  f.mul w h

/-- Line 67 in the format `f`: `ovr = inter / (iarea + areas[j] - inter)`. -/
def ovr_ieee (f : Format) (bi : Box) (iarea : FVal) (bj : Box) (jarea : FVal) : FVal :=
  f.div (inter_ieee f bi bj) (f.sub (f.add iarea jarea) (inter_ieee f bi bj))

/-- The values `n * 2^e` with fewer than `prec` significant bits at an exponent the format
has: the finite values of the format are those of them within `±maxval`. -/
def Format.Grid (f : Format) (r : ℚ) : Prop :=
  ∃ (n e : ℤ), f.elow ≤ e ∧ |n| < 2 ^ f.prec ∧ r = n * 2 ^ e

/-- The formats considered have at least one significand bit and a largest exponent of at
least 1, as `binary32` and `binary64` do. -/
def Format.Valid (f : Format) : Prop := 1 ≤ f.prec ∧ 1 ≤ f.emax

/-- The inner loop, lines 55-70, in the format `f`: `n` iterations starting at rank `_j`. -/
def nms_inner_ieee (f : Format) (dets : List Box) (areas : List FVal) (order : List Nat)
    (threshold : ℚ) (bi : Box) (iarea : FVal) : Nat → Nat → List Bool → Option (List Bool)
  | 0, _, suppressed => some suppressed
  | n + 1, _j, suppressed =>
    match order[_j]? with
    | none => none
    | some j =>
      match suppressed[j]? with
      | none => none
      | some true => nms_inner_ieee f dets areas order threshold bi iarea n (_j + 1) suppressed
      | some false =>
        match dets[j]?, areas[j]? with
        | some bj, some jarea =>
          if fge (ovr_ieee f bi iarea bj jarea) threshold then
            nms_inner_ieee f dets areas order threshold bi iarea n (_j + 1)
              (suppressed.set j true)
          else
            nms_inner_ieee f dets areas order threshold bi iarea n (_j + 1) suppressed
        | _, _ => none

/-- The outer loop, lines 45-71, in the format `f`: `n` iterations starting at rank `_i`. -/
def nms_outer_ieee (f : Format) (dets : List Box) (areas : List FVal) (order : List Nat)
    (threshold : ℚ) (ndets : Nat) : Nat → Nat → List Bool → Option (List Bool)
  | 0, _, suppressed => some suppressed
  | n + 1, _i, suppressed =>
    match order[_i]? with
    | none => none
    | some i =>
      match suppressed[i]? with
      | none => none
      | some true => nms_outer_ieee f dets areas order threshold ndets n (_i + 1) suppressed
      | some false =>
        match dets[i]?, areas[i]? with
        | some bi, some iarea =>
          match nms_inner_ieee f dets areas order threshold bi iarea (ndets - (_i + 1))
              (_i + 1) suppressed with
          | none => none
          | some suppressed' =>
            nms_outer_ieee f dets areas order threshold ndets n (_i + 1) suppressed'
        | _, _ => none

/-- The greedy loop of `nms_cpu_kernel` (lines 30-71) in the format `f`: the final
`suppressed` flags. -/
def nms_flags_ieee (f : Format) (dets : List Box) (scores : List ℚ) (threshold : ℚ) :
    Option (List Bool) :=
  let areas_t := dets.map (area_ieee f)
  let order_t := sort_descending scores
  let ndets := dets.length
  let suppressed_t := List.replicate ndets false
  nms_outer_ieee f dets areas_t order_t threshold ndets ndets 0 suppressed_t

/-- `nms_cpu_kernel<scalar_t>(dets, scores, threshold)`, lines 14-73, with the arithmetic of
the format `f` of `scalar_t`; the coordinates, scores and threshold are finite values. -/
def nms_cpu_kernel_ieee (f : Format) (dets : List Box) (scores : List ℚ) (threshold : ℚ) :
    Option (List Nat) :=
  if dets.length = 0 then some []
  else
    match nms_flags_ieee f dets scores threshold with
    | none => none
    | some suppressed => some (nonzero_eq_zero suppressed)

/-- The test `ovr >= threshold` of line 68 in the format `f`, for the boxes at positions
`i` and `j` of `dets`. -/
def suppresses_ieee (f : Format) (dets : List Box) (threshold : ℚ) (i j : Nat) : Bool :=
  match dets[i]?, dets[j]? with
  | some bi, some bj => fge (ovr_ieee f bi (area_ieee f bi) bj (area_ieee f bj)) threshold
  | _, _ => false

/-- The value is `+inf` or a number that is at least 1. -/
def FVal.GeOne (v : FVal) : Prop := v = FVal.pinf ∨ ∃ r, v = FVal.val r ∧ 1 ≤ r

/-- The value is `+inf` or a nonnegative number. -/
def FVal.Nonneg (v : FVal) : Prop := v = FVal.pinf ∨ ∃ r, v = FVal.val r ∧ 0 ≤ r

/-! ## The loops of `nms_cpu_kernel` -/

theorem areas_getElem? (dets : List Box) (j : Nat) (bj : Box) (h : dets[j]? = some bj) :
    (dets.map Box.area)[j]? = some bj.area := by
  simp [List.getElem?_map, h]

/-- The inner loop stays inside its buffers and raises exactly the flags of the later-ranked
indices that pass the overlap test against box `i`. -/
theorem nms_inner_spec (dets : List Box) (order : List Nat) (threshold : ℚ) (i : Nat) (bi : Box)
    (hi : dets[i]? = some bi) (hord : ∀ o ∈ order, o < dets.length) :
    ∀ (n _j : Nat) (s : List Bool), _j + n = order.length → s.length = dets.length →
      ∃ s', nms_inner dets (dets.map Box.area) order threshold bi bi.area n _j s = some s' ∧
        s'.length = dets.length ∧
        ∀ k, s'[k]? = some true ↔
          (s[k]? = some true ∨ (k ∈ order.drop _j ∧ suppresses dets threshold i k = true)) := by
  intro n
  induction n with
  | zero =>
    intro _j s hj hs
    refine ⟨s, rfl, hs, fun k => ?_⟩
    have : order.drop _j = [] := List.drop_eq_nil_of_le (by omega)
    simp [this]
  | succ n ih =>
    intro _j s hj hs
    have hlt : _j < order.length := by omega
    have hdrop := List.drop_eq_getElem_cons hlt
    have hjN : order[_j] < dets.length := hord _ (List.getElem_mem hlt)
    have hjs : order[_j] < s.length := by omega
    obtain ⟨bj, hbj⟩ : ∃ bj, dets[order[_j]]? = some bj := ⟨_, List.getElem?_eq_getElem hjN⟩
    have hsupp : suppresses dets threshold i order[_j] = fge (ovr bi bi.area bj bj.area) threshold := by
      simp [suppresses, hi, hbj]
    rw [nms_inner, List.getElem?_eq_getElem hlt]
    simp only []
    rw [List.getElem?_eq_getElem hjs]
    cases hb : s[order[_j]] with
    | true =>
      simp only []
      obtain ⟨s', h1, h2, h3⟩ := ih (_j + 1) s (by omega) hs
      refine ⟨s', h1, h2, fun k => ?_⟩
      rw [h3 k, hdrop, List.mem_cons]
      constructor
      · rintro (h | ⟨h, h'⟩)
        · exact Or.inl h
        · exact Or.inr ⟨Or.inr h, h'⟩
      · rintro (h | ⟨h | h, h'⟩)
        · exact Or.inl h
        · left; rw [h, List.getElem?_eq_getElem hjs, hb]
        · exact Or.inr ⟨h, h'⟩
    | false =>
      simp only [hbj, areas_getElem? dets _ bj hbj]
      by_cases hg : fge (ovr bi bi.area bj bj.area) threshold = true
      · rw [if_pos hg]
        obtain ⟨s', h1, h2, h3⟩ := ih (_j + 1) (s.set order[_j] true) (by omega) (by simpa using hs)
        refine ⟨s', h1, h2, fun k => ?_⟩
        rw [h3 k, hdrop, List.mem_cons, List.getElem?_set]
        by_cases hk : order[_j] = k
        · subst hk
          simp [hjs, hsupp, hg]
        · simp [hk, Ne.symm hk]
      · rw [if_neg hg]
        obtain ⟨s', h1, h2, h3⟩ := ih (_j + 1) s (by omega) hs
        refine ⟨s', h1, h2, fun k => ?_⟩
        rw [h3 k, hdrop, List.mem_cons]
        by_cases hk : k = order[_j]
        · subst hk
          simp [hsupp, hg]
        · simp [hk]

theorem order_split (order : List Nat) (_i : Nat) (hlt : _i < order.length) (hnd : order.Nodup) :
    order.drop _i = order[_i] :: order.drop (_i + 1) ∧
    (∀ k, k ∈ order.take (_i + 1) ↔ (k ∈ order.take _i ∨ k = order[_i])) ∧
    order[_i] ∉ order.take _i ∧ order[_i] ∉ order.drop (_i + 1) ∧
    (∀ k ∈ order.take _i, k ∉ order.drop (_i + 1)) := by
  have hdrop := List.drop_eq_getElem_cons hlt
  have hsplit : order.take _i ++ order[_i] :: order.drop (_i + 1) = order := by
    rw [← hdrop, List.take_append_drop]
  have htake : order.take (_i + 1) = order.take _i ++ [order[_i]] := by
    rw [List.take_succ, List.getElem?_eq_getElem hlt]; rfl
  rw [← hsplit] at hnd
  rw [List.nodup_append] at hnd
  obtain ⟨-, h2, h3⟩ := hnd
  rw [List.nodup_cons] at h2
  refine ⟨hdrop, fun k => by rw [htake, List.mem_append, List.mem_singleton], ?_, h2.1, ?_⟩
  · intro h
    exact h3 h (List.mem_cons_self _ _)
  · intro k hk hk'
    exact h3 hk (List.mem_cons_of_mem _ hk')

/-- The outer loop stays inside its buffers; with `kept` the indices kept among the ranks
already visited, the final flags are raised exactly off the greedy selection. -/
theorem nms_outer_spec (dets : List Box) (order : List Nat) (threshold : ℚ)
    (hord : ∀ o ∈ order, o < dets.length) (hnd : order.Nodup)
    (hlen : order.length = dets.length) :
    ∀ (n _i : Nat) (s : List Bool) (kept : List Nat), _i + n = order.length →
      s.length = dets.length →
      (∀ k ∈ kept, k ∈ order.take _i) →
      (∀ k ∈ order.take _i, (s[k]? = some true ↔ k ∉ kept)) →
      (∀ k ∈ order.drop _i,
        (s[k]? = some true ↔ ∃ i ∈ kept, suppresses dets threshold i k = true)) →
      ∃ s', nms_outer dets (dets.map Box.area) order threshold dets.length n _i s = some s' ∧
        s'.length = dets.length ∧
        ∀ k ∈ order, (s'[k]? = some true ↔
          k ∉ greedy_keep (suppresses dets threshold) kept (order.drop _i)) := by
  intro n
  induction n with
  | zero =>
    intro _i s kept hi hs hk ht _
    have h1 : order.drop _i = [] := List.drop_eq_nil_of_le (by omega)
    have h2 : order.take _i = order := List.take_of_length_le (by omega)
    rw [h2] at ht
    refine ⟨s, rfl, hs, fun k hk => ?_⟩
    rw [h1]
    exact ht k hk
  | succ n ih =>
    intro _i s kept hi hs hk ht hd
    have hlt : _i < order.length := by omega
    obtain ⟨hdrop, htake, ho1, ho2, hdisj⟩ := order_split order _i hlt hnd
    have hoN : order[_i] < dets.length := hord _ (List.getElem_mem hlt)
    have hos : order[_i] < s.length := by omega
    obtain ⟨bi, hbi⟩ : ∃ bi, dets[order[_i]]? = some bi := ⟨_, List.getElem?_eq_getElem hoN⟩
    have hokept : order[_i] ∉ kept := fun h => ho1 (hk _ h)
    have hdo := hd order[_i] (by rw [hdrop]; exact List.mem_cons_self _ _)
    rw [nms_outer, List.getElem?_eq_getElem hlt]
    simp only []
    rw [List.getElem?_eq_getElem hos] at hdo ⊢
    cases hb : s[order[_i]] with
    | true =>
      simp only []
      rw [hb] at hdo
      have hany : kept.any (fun i => suppresses dets threshold i order[_i]) = true := by
        rw [List.any_eq_true]; exact hdo.1 rfl
      obtain ⟨s', h1, h2, h3⟩ := ih (_i + 1) s kept (by omega) hs
        (fun k h => (htake k).2 (Or.inl (hk k h)))
        (fun k h => by
          rcases (htake k).1 h with h | h
          · exact ht k h
          · subst h
            rw [List.getElem?_eq_getElem hos, hb]
            simp [hokept])
        (fun k h => hd k (by rw [hdrop]; exact List.mem_cons_of_mem _ h))
      refine ⟨s', h1, h2, fun k hk' => ?_⟩
      rw [h3 k hk', hdrop, greedy_keep, if_pos hany]
    | false =>
      rw [hb] at hdo
      have hany : ¬ kept.any (fun i => suppresses dets threshold i order[_i]) = true := by
        rw [List.any_eq_true]; intro h; simpa using hdo.2 h
      simp only [hbi, areas_getElem? dets _ bi hbi]
      obtain ⟨s1, e1, l1, p1⟩ := nms_inner_spec dets order threshold order[_i] bi hbi hord
        (dets.length - (_i + 1)) (_i + 1) s (by omega) hs
      rw [e1]
      simp only []
      obtain ⟨s', h1, h2, h3⟩ := ih (_i + 1) s1 (kept ++ [order[_i]]) (by omega) l1
        (fun k h => by
          rw [List.mem_append, List.mem_singleton] at h
          exact (htake k).2 (h.imp (hk k) id))
        (fun k h => by
          rw [p1 k, List.mem_append, List.mem_singleton]
          rcases (htake k).1 h with h | h
          · have := hdisj k h
            have hne : k ≠ order[_i] := fun e => ho1 (e ▸ h)
            simp [this, ht k h, hne]
          · subst h
            rw [List.getElem?_eq_getElem hos, hb]
            simp [ho2])
        (fun k h => by
          rw [p1 k, hd k (by rw [hdrop]; exact List.mem_cons_of_mem _ h)]
          simp [h, or_and_right, exists_or])
      refine ⟨s', h1, h2, fun k hk' => ?_⟩
      rw [h3 k hk', hdrop, greedy_keep, if_neg hany]

/-! ## The rank order -/

theorem sort_descending_perm (scores : List ℚ) :
    (sort_descending scores).Perm (List.range scores.length) := by
  unfold sort_descending
  have h := (List.perm_insertionSort (fun p q : ℕ × ℚ => q.2 ≤ p.2) scores.enum).map Prod.fst
  rwa [List.enum_map_fst] at h

theorem sort_descending_length (scores : List ℚ) :
    (sort_descending scores).length = scores.length := by
  simpa using (sort_descending_perm scores).length_eq

theorem sort_descending_nodup (scores : List ℚ) : (sort_descending scores).Nodup :=
  (sort_descending_perm scores).nodup_iff.2 (List.nodup_range _)

theorem mem_sort_descending (scores : List ℚ) (k : Nat) :
    k ∈ sort_descending scores ↔ k < scores.length := by
  rw [(sort_descending_perm scores).mem_iff, List.mem_range]

/-! ## The kernel as a greedy selection -/

/-- With as many scores as boxes the greedy loop terminates inside its buffers, and the flag
of an index is raised exactly when the greedy selection over the rank order drops it. -/
theorem nms_flags_spec (dets : List Box) (scores : List ℚ) (threshold : ℚ)
    (hlen : dets.length = scores.length) :
    ∃ s, nms_flags dets scores threshold = some s ∧ s.length = dets.length ∧
      ∀ k, k < dets.length → (s[k]? = some true ↔
        k ∉ greedy_keep (suppresses dets threshold) [] (sort_descending scores)) := by
  have hmem := mem_sort_descending scores
  obtain ⟨s, h1, h2, h3⟩ := nms_outer_spec dets (sort_descending scores) threshold
    (fun o ho => by rw [hlen]; exact (hmem o).1 ho) (sort_descending_nodup scores)
    (by rw [sort_descending_length, hlen]) dets.length 0 (List.replicate dets.length false) []
    (by rw [sort_descending_length, hlen]; simp) (by simp) (by simp) (by simp)
    (fun k _ => by simp [List.getElem?_replicate])
  refine ⟨s, h1, h2, fun k hk => ?_⟩
  have := h3 k ((hmem k).2 (hlen ▸ hk))
  simpa using this

theorem nonzero_eq_zero_eq (s : List Bool) (p : Nat → Bool)
    (h : ∀ k, k < s.length → (s[k]? = some true ↔ p k = false)) :
    nonzero_eq_zero s = (List.range s.length).filter p := by
  unfold nonzero_eq_zero
  apply List.filter_congr
  intro k hk
  rw [List.mem_range] at hk
  have h' := h k hk
  rw [List.getElem?_eq_getElem hk] at h' ⊢
  cases hb : s[k] <;> cases hp : p k <;> simp_all

/-- With as many scores as boxes, `nms_cpu_kernel` returns, in ascending order, the indices
that the greedy selection over the rank order keeps. -/
theorem nms_cpu_kernel_eq (dets : List Box) (scores : List ℚ) (threshold : ℚ)
    (hlen : dets.length = scores.length) :
    nms_cpu_kernel dets scores threshold =
      some ((List.range dets.length).filter (fun k =>
        decide (k ∈ greedy_keep (suppresses dets threshold) [] (sort_descending scores)))) := by
  unfold nms_cpu_kernel
  split
  · next h0 => simp [h0]
  · obtain ⟨s, h1, h2, h3⟩ := nms_flags_spec dets scores threshold hlen
    rw [h1]
    simp only []
    rw [nonzero_eq_zero_eq s (fun k =>
      decide (k ∈ greedy_keep (suppresses dets threshold) [] (sort_descending scores)))
      (fun k hk => by rw [h3 k (h2 ▸ hk), decide_eq_false_iff_not]), h2]

/-! ## Claims on `nms_cpu_kernel` -/

/-- C1: with N boxes and N scores, `nms_cpu_kernel` returns exactly the indices whose
`suppressed` flag is still false after the greedy loop, in strictly ascending order; every
returned index lies in `[0, N)`, none is repeated, and the result has at most N entries. -/
theorem nms_cpu_kernel_unsuppressed_ascending (dets : List Box) (scores : List ℚ)
    (threshold : ℚ) (hlen : dets.length = scores.length) :
    ∃ suppressed res, nms_flags dets scores threshold = some suppressed ∧
      suppressed.length = dets.length ∧
      nms_cpu_kernel dets scores threshold = some res ∧
      (∀ k, k ∈ res ↔ (k < dets.length ∧ suppressed[k]? = some false)) ∧
      res.Pairwise (fun a b => a < b) ∧
      (∀ k ∈ res, k < dets.length) ∧ res.Nodup ∧ res.length ≤ dets.length := by
  obtain ⟨s, h1, h2, -⟩ := nms_flags_spec dets scores threshold hlen
  have hres : nms_cpu_kernel dets scores threshold = some (nonzero_eq_zero s) := by
    unfold nms_cpu_kernel
    split
    · next h0 =>
      have : s = [] := List.eq_nil_of_length_eq_zero (h2.trans h0)
      simp [this, nonzero_eq_zero]
    · rw [h1]
  have hmem : ∀ k, k ∈ nonzero_eq_zero s ↔ (k < dets.length ∧ s[k]? = some false) := by
    intro k
    unfold nonzero_eq_zero
    rw [List.mem_filter, List.mem_range, h2]
    simp
  have hpw : (nonzero_eq_zero s).Pairwise (fun a b => a < b) :=
    (List.pairwise_lt_range _).filter _
  refine ⟨s, nonzero_eq_zero s, h1, h2, hres, hmem, hpw, fun k hk => ((hmem k).1 hk).1,
    hpw.imp (fun h => Nat.ne_of_lt h), ?_⟩
  unfold nonzero_eq_zero
  calc (List.filter _ (List.range s.length)).length
      ≤ (List.range s.length).length := List.length_filter_le _ _
    _ = dets.length := by rw [List.length_range, h2]

theorem nms_cpu_kernel_unsuppressed_ascending_witness :
    ([(⟨0, 0, 10, 10⟩ : Box), ⟨0, 0, 10, 10⟩, ⟨100, 100, 110, 110⟩].length
        = [(1 : ℚ), 2, 3].length) ∧
    ∃ suppressed res,
      nms_flags [(⟨0, 0, 10, 10⟩ : Box), ⟨0, 0, 10, 10⟩, ⟨100, 100, 110, 110⟩] [1, 2, 3] (1 / 2)
        = some suppressed ∧
      suppressed.length
        = [(⟨0, 0, 10, 10⟩ : Box), ⟨0, 0, 10, 10⟩, ⟨100, 100, 110, 110⟩].length ∧
      nms_cpu_kernel [(⟨0, 0, 10, 10⟩ : Box), ⟨0, 0, 10, 10⟩, ⟨100, 100, 110, 110⟩] [1, 2, 3]
        (1 / 2) = some res ∧
      (∀ k, k ∈ res ↔
        (k < [(⟨0, 0, 10, 10⟩ : Box), ⟨0, 0, 10, 10⟩, ⟨100, 100, 110, 110⟩].length ∧
          suppressed[k]? = some false)) ∧
      res.Pairwise (fun a b => a < b) ∧
      (∀ k ∈ res, k < [(⟨0, 0, 10, 10⟩ : Box), ⟨0, 0, 10, 10⟩, ⟨100, 100, 110, 110⟩].length) ∧
      res.Nodup ∧
      res.length ≤ [(⟨0, 0, 10, 10⟩ : Box), ⟨0, 0, 10, 10⟩, ⟨100, 100, 110, 110⟩].length :=
  ⟨rfl, nms_cpu_kernel_unsuppressed_ascending _ _ _ rfl⟩

/-- C2: on an empty detection set both `nms_cpu_kernel` (any threshold) and `hnms_cpu` (any
`w0`, `h0`, `alpha`, `bx`, `by`, over any floating-point operations) return the empty index
list and do not fail. -/
theorem empty_input_returns_empty {F : Type} (ops : FloatOps F) (threshold : ℚ)
    (w0 h0 alpha bx by_ : F) :
    nms_cpu_kernel [] [] threshold = some [] ∧
      hnms_cpu ops [] [] w0 h0 alpha bx by_ = some [] := by
  constructor <;> rfl

theorem sort_descending_two (s0 s1 : ℚ) :
    sort_descending [s0, s1] = if s1 ≤ s0 then [0, 1] else [1, 0] := by
  unfold sort_descending
  simp only [List.enum, List.enumFrom, List.insertionSort, List.orderedInsert]
  split <;> rfl

/-- The kernel on two boxes: the second-ranked box is dropped exactly when the overlap test
of the first-ranked box against it succeeds. -/
theorem nms_cpu_kernel_two (b0 b1 : Box) (s0 s1 threshold : ℚ) :
    nms_cpu_kernel [b0, b1] [s0, s1] threshold =
      some (if s1 ≤ s0 then
          (if fge (ovr b0 b0.area b1 b1.area) threshold then [0] else [0, 1])
        else (if fge (ovr b1 b1.area b0 b0.area) threshold then [1] else [0, 1])) := by
  rw [nms_cpu_kernel_eq _ _ _ rfl, sort_descending_two]
  by_cases h : s1 ≤ s0
  · rw [if_pos h, if_pos h]
    by_cases g : fge (ovr b0 b0.area b1 b1.area) threshold = true
    · simp [greedy_keep, suppresses, g, List.range, List.range.loop]
    · simp [greedy_keep, suppresses, g, List.range, List.range.loop]
  · rw [if_neg h, if_neg h]
    by_cases g : fge (ovr b1 b1.area b0 b0.area) threshold = true
    · simp [greedy_keep, suppresses, g, List.range, List.range.loop]
    · simp [greedy_keep, suppresses, g, List.range, List.range.loop]

theorem inter_comm (a b : Box) : inter a b = inter b a := by
  simp only [inter, max_comm a.x1, max_comm a.y1, min_comm a.x2, min_comm a.y2]

theorem ovr_comm (a b : Box) : ovr a a.area b b.area = ovr b b.area a a.area := by
  simp only [ovr, inter_comm a b, add_comm a.area]

/-- C10: on a single box `nms_cpu_kernel` returns exactly `[0]`, whatever the threshold. -/
theorem nms_cpu_kernel_single (b : Box) (s threshold : ℚ) :
    nms_cpu_kernel [b] [s] threshold = some [0] := by
  rw [nms_cpu_kernel_eq _ _ _ rfl]
  simp [sort_descending, List.enum, List.enumFrom, greedy_keep, List.range, List.range.loop]

theorem fge_ovr_of_inter_zero (a b : Box) (threshold : ℚ) (h : inter a b = 0)
    (ht : 0 < threshold) : fge (ovr a a.area b b.area) threshold = false := by
  unfold ovr fdiv
  rw [h]
  by_cases hd : a.area + b.area - 0 = 0
  · simp [hd, fge]
  · simp only [if_neg hd, zero_div, fge]
    simpa using ht

/-- C4, as the claim states it, fails at threshold 0: the disjoint boxes `(0,0,10,10)` and
`(100,100,110,110)` have `inter = 0`, the threshold `0` is below 1, and the kernel keeps
index 0 only, because `0 / (area_0 + area_1) >= 0` holds. -/
theorem nms_cpu_kernel_disjoint_threshold_zero :
    inter ⟨0, 0, 10, 10⟩ ⟨100, 100, 110, 110⟩ = 0 ∧ (0 : ℚ) < 1 ∧
    nms_cpu_kernel [⟨0, 0, 10, 10⟩, ⟨100, 100, 110, 110⟩] [9 / 10, 1 / 2] 0 = some [0] := by
  refine ⟨by norm_num [inter], by norm_num, ?_⟩
  rw [nms_cpu_kernel_two]
  norm_num [ovr, inter, fdiv, fge, Box.area]

/-- C4 (amended): for two boxes whose intersection `w * h` computed by the kernel is 0, any
two scores and any threshold `> 0`, `nms_cpu_kernel` keeps both indices. -/
theorem nms_cpu_kernel_disjoint (b0 b1 : Box) (s0 s1 threshold : ℚ)
    (h : inter b0 b1 = 0) (ht : 0 < threshold) :
    nms_cpu_kernel [b0, b1] [s0, s1] threshold = some [0, 1] := by
  rw [nms_cpu_kernel_two, fge_ovr_of_inter_zero b0 b1 threshold h ht,
    fge_ovr_of_inter_zero b1 b0 threshold (by rw [inter_comm]; exact h) ht]
  simp

theorem nms_cpu_kernel_disjoint_witness :
    (inter ⟨0, 0, 10, 10⟩ ⟨100, 100, 110, 110⟩ = 0 ∧ (0 : ℚ) < 1 / 2) ∧
    nms_cpu_kernel [⟨0, 0, 10, 10⟩, ⟨100, 100, 110, 110⟩] [1 / 2, 9 / 10] (1 / 2)
      = some [0, 1] :=
  ⟨⟨by norm_num [inter], by norm_num⟩,
    nms_cpu_kernel_disjoint ⟨0, 0, 10, 10⟩ ⟨100, 100, 110, 110⟩ (1 / 2) (9 / 10) (1 / 2)
      (by norm_num [inter]) (by norm_num)⟩

theorem wrap64_eq (z : Int) (h1 : -2 ^ 63 ≤ z) (h2 : z < 2 ^ 63) : wrap64 z = z := by
  unfold wrap64
  omega

/-- C9, as the claim states it, fails: inside the range `|qx|, |qy|, |i| < 10000` the two
different tuples `(-1, 1, 0, 0)` and `(9999, 0, 0, 0)` have the same key 9999; and with
"any `j`" the product `j * 10^12` leaves the 64-bit range, `j = 2^52` giving the key of
`j = 0`. -/
theorem get_code_collision :
    (|(-1 : Int)| < 10000 ∧ |(1 : Int)| < 10000 ∧ |(0 : Int)| < 10000 ∧
      |(9999 : Int)| < 10000) ∧
    get_code ⟨-1, 1, 0, 0⟩ = 9999 ∧ get_code ⟨9999, 0, 0, 0⟩ = 9999 ∧
    (⟨-1, 1, 0, 0⟩ : Code) ≠ ⟨9999, 0, 0, 0⟩ ∧
    get_code ⟨0, 0, 0, 2 ^ 52⟩ = 0 ∧ get_code ⟨0, 0, 0, 0⟩ = 0 ∧
    (⟨0, 0, 0, 2 ^ 52⟩ : Code) ≠ ⟨0, 0, 0, 0⟩ := by
  refine ⟨by decide, by decide, by decide, by decide, by decide, by decide, by decide⟩

/-- C9 (amended): when the sum `qx + qy*10^4 + i*10^8 + j*10^12` fits a 64-bit `long`,
`get_code` returns it; and two tuples with `0 <= qx, qy, i < 10000` whose sums fit and whose
keys are equal are equal tuples. -/
theorem get_code_packs_injective (p q : Code)
    (hp : -2 ^ 63 ≤ p.qx + p.qy * 10000 + p.i * 100000000 + p.j * 1000000000000 ∧
      p.qx + p.qy * 10000 + p.i * 100000000 + p.j * 1000000000000 < 2 ^ 63)
    (hq : -2 ^ 63 ≤ q.qx + q.qy * 10000 + q.i * 100000000 + q.j * 1000000000000 ∧
      q.qx + q.qy * 10000 + q.i * 100000000 + q.j * 1000000000000 < 2 ^ 63) :
    get_code p = p.qx + p.qy * 10000 + p.i * 100000000 + p.j * 1000000000000 ∧
    get_code q = q.qx + q.qy * 10000 + q.i * 100000000 + q.j * 1000000000000 ∧
    ((0 ≤ p.qx ∧ p.qx < 10000 ∧ 0 ≤ p.qy ∧ p.qy < 10000 ∧ 0 ≤ p.i ∧ p.i < 10000) →
      (0 ≤ q.qx ∧ q.qx < 10000 ∧ 0 ≤ q.qy ∧ q.qy < 10000 ∧ 0 ≤ q.i ∧ q.i < 10000) →
      get_code p = get_code q → p = q) := by
  have ep := wrap64_eq _ hp.1 hp.2
  have eq := wrap64_eq _ hq.1 hq.2
  refine ⟨ep, eq, fun rp rq h => ?_⟩
  unfold get_code at h
  rw [ep, eq] at h
  obtain ⟨a, b, c, d⟩ := p
  obtain ⟨a', b', c', d'⟩ := q
  simp only at h rp rq
  have h1 : a = a' := by omega
  have h2 : b = b' := by omega
  have h3 : c = c' := by omega
  have h4 : d = d' := by omega
  subst h1 h2 h3 h4
  rfl

theorem get_code_packs_injective_witness :
    ((-2 ^ 63 ≤ (1 : Int) + 2 * 10000 + 3 * 100000000 + 4 * 1000000000000 ∧
      (1 : Int) + 2 * 10000 + 3 * 100000000 + 4 * 1000000000000 < 2 ^ 63) ∧
     (-2 ^ 63 ≤ (5 : Int) + 2 * 10000 + 3 * 100000000 + (-4) * 1000000000000 ∧
      (5 : Int) + 2 * 10000 + 3 * 100000000 + (-4) * 1000000000000 < 2 ^ 63)) ∧
    get_code ⟨1, 2, 3, 4⟩ = 4000300020001 ∧
    get_code ⟨5, 2, 3, -4⟩ = -3999699979995 ∧
    (get_code ⟨1, 2, 3, 4⟩ = get_code ⟨5, 2, 3, -4⟩ → (⟨1, 2, 3, 4⟩ : Code) = ⟨5, 2, 3, -4⟩) :=
  ⟨by decide,
    (get_code_packs_injective ⟨1, 2, 3, 4⟩ ⟨5, 2, 3, -4⟩ (by decide) (by decide)).1,
    (get_code_packs_injective ⟨1, 2, 3, 4⟩ ⟨5, 2, 3, -4⟩ (by decide) (by decide)).2.1,
    (get_code_packs_injective ⟨1, 2, 3, 4⟩ ⟨5, 2, 3, -4⟩ (by decide) (by decide)).2.2
      (by decide) (by decide)⟩

/-! ## The map of `get_best_score_each_code` -/

theorem lookup_eq_none_iff (m : CodeMap) (c : Int) :
    m.lookup c = none ↔ ∀ v, (c, v) ∉ m := by
  induction m with
  | nil => simp [List.lookup]
  | cons e t ih =>
    obtain ⟨c0, v0⟩ := e
    by_cases h : c = c0
    · subst h
      simp only [List.lookup, beq_self_eq_true]
      constructor
      · intro h; cases h
      · intro h; exact absurd (List.mem_cons_self _ _) (h v0)
    · have hb : (c == c0) = false := by simpa using h
      simp only [List.lookup, hb, ih, List.mem_cons, Prod.mk.injEq, not_or]
      constructor
      · intro h' v
        exact ⟨fun e => h e.1, h' v⟩
      · intro h' v
        exact (h' v).2

theorem mem_of_lookup_eq_some (m : CodeMap) (c : Int) (v : Nat) (h : m.lookup c = some v) :
    (c, v) ∈ m := by
  induction m with
  | nil => simp [List.lookup] at h
  | cons e t ih =>
    obtain ⟨c0, v0⟩ := e
    by_cases hc : c = c0
    · subst hc
      simp only [List.lookup, beq_self_eq_true, Option.some.injEq] at h
      subst h
      exact List.mem_cons_self _ _
    · have hb : (c == c0) = false := by simpa using hc
      simp only [List.lookup, hb] at h
      exact List.mem_cons_of_mem _ (ih h)

theorem mem_assign (m : CodeMap) (hm : m.Sorted) (c : Int) (v : Nat) (c' : Int) (v' : Nat) :
    (c', v') ∈ m.assign c v ↔ ((c' = c ∧ v' = v) ∨ (c' ≠ c ∧ (c', v') ∈ m)) := by
  induction m with
  | nil => simp [CodeMap.assign]
  | cons e t ih =>
    obtain ⟨c0, v0⟩ := e
    unfold CodeMap.Sorted at hm
    rw [List.pairwise_cons] at hm
    obtain ⟨h0, ht⟩ := hm
    have hgt : (c', v') ∈ t → c0 < c' := fun h => h0 _ h
    unfold CodeMap.assign
    by_cases h1 : c < c0
    · rw [if_pos h1]
      simp only [List.mem_cons, Prod.mk.injEq]
      constructor
      · rintro (h | ⟨h, h'⟩ | h)
        · exact Or.inl h
        · exact Or.inr ⟨by omega, Or.inl ⟨h, h'⟩⟩
        · exact Or.inr ⟨by have := hgt h; omega, Or.inr h⟩
      · rintro (h | ⟨-, h | h⟩)
        · exact Or.inl h
        · exact Or.inr (Or.inl h)
        · exact Or.inr (Or.inr h)
    · rw [if_neg h1]
      by_cases h2 : c = c0
      · rw [if_pos h2]
        subst h2
        simp only [List.mem_cons, Prod.mk.injEq]
        constructor
        · rintro (h | h)
          · exact Or.inl h
          · exact Or.inr ⟨by have := hgt h; omega, Or.inr h⟩
        · rintro (h | ⟨h, h' | h'⟩)
          · exact Or.inl h
          · exact absurd h'.1 h
          · exact Or.inr h'
      · rw [if_neg h2]
        simp only [List.mem_cons, Prod.mk.injEq, ih ht]
        constructor
        · rintro (⟨h, h'⟩ | h | ⟨h, h'⟩)
          · exact Or.inr ⟨by omega, Or.inl ⟨h, h'⟩⟩
          · exact Or.inl h
          · exact Or.inr ⟨h, Or.inr h'⟩
        · rintro (h | ⟨h, h' | h'⟩)
          · exact Or.inr (Or.inl h)
          · exact Or.inl h'
          · exact Or.inr (Or.inr ⟨h, h'⟩)

theorem sorted_assign (m : CodeMap) (hm : m.Sorted) (c : Int) (v : Nat) :
    (m.assign c v).Sorted := by
  induction m with
  | nil => simp [CodeMap.assign, CodeMap.Sorted]
  | cons e t ih =>
    obtain ⟨c0, v0⟩ := e
    have hm' := hm
    unfold CodeMap.Sorted at hm'
    rw [List.pairwise_cons] at hm'
    obtain ⟨h0, ht⟩ := hm'
    unfold CodeMap.assign
    by_cases h1 : c < c0
    · rw [if_pos h1]
      unfold CodeMap.Sorted
      rw [List.pairwise_cons]
      refine ⟨fun e he => ?_, hm⟩
      rcases List.mem_cons.1 he with h | h
      · rw [h]; exact h1
      · exact lt_trans h1 (h0 _ h)
    · rw [if_neg h1]
      by_cases h2 : c = c0
      · rw [if_pos h2]
        subst h2
        unfold CodeMap.Sorted
        rw [List.pairwise_cons]
        exact ⟨fun e he => h0 e he, ht⟩
      · rw [if_neg h2]
        unfold CodeMap.Sorted
        rw [List.pairwise_cons]
        refine ⟨fun e he => ?_, ih ht⟩
        obtain ⟨c', v'⟩ := e
        rcases (mem_assign t ht c v c' v').1 he with h | h
        · show c0 < c'
          omega
        · exact h0 _ h.2

theorem sorted_unique (m : CodeMap) (hm : m.Sorted) (c : Int) (v v' : Nat)
    (h : (c, v) ∈ m) (h' : (c, v') ∈ m) : v = v' := by
  induction m with
  | nil => cases h
  | cons e t ih =>
    unfold CodeMap.Sorted at hm
    rw [List.pairwise_cons] at hm
    obtain ⟨h0, ht⟩ := hm
    rcases List.mem_cons.1 h with h1 | h1 <;> rcases List.mem_cons.1 h' with h2 | h2
    · rw [← h1] at h2
      exact (Prod.mk.inj h2).2.symm
    · subst h1
      exact absurd (h0 _ h2) (lt_irrefl _)
    · subst h2
      exact absurd (h0 _ h1) (lt_irrefl _)
    · exact ih ht h1 h2

theorem flt_irrefl (a : FVal) : flt a a = false := by
  cases a <;> simp [flt]

theorem feq_refl_of_ne_nan (a : FVal) (h : a ≠ FVal.nan) : feq a a = true := by
  cases a <;> simp [feq] at h ⊢

/-- If `p < i` holds and `p < n` does not, then neither `i < n` nor `n == i` holds. -/
theorem flt_of_flt_not_flt (p i n : FVal) (h1 : flt p i = true) (h2 : flt p n = false) :
    flt i n = false ∧ feq n i = false := by
  cases p <;> cases i <;> cases n <;> simp [flt, feq] at h1 h2 ⊢
  constructor
  · exact le_trans h2 h1.le
  · intro e
    rw [e] at h2
    exact absurd h1 (not_lt.2 h2)

/-- The scan of `get_best_score_each_code` never reads outside `scores` when there is a
score for every row, and it maintains `BestInv`. -/
theorem best_loop_spec (scores : List FVal) (K : Nat → Int) (S : Nat → FVal) :
    ∀ (rest : List Code) (i : Nat) (m : CodeMap),
      (∀ n p, rest[n]? = some p → get_code p = K (i + n)) →
      (∀ n, n < i + rest.length → scores[n]? = some (S n)) →
      BestInv K S i m →
      ∃ m', best_loop scores rest i m = some m' ∧ BestInv K S (i + rest.length) m' := by
  intro rest
  induction rest with
  | nil =>
    intro i m _ _ hinv
    exact ⟨m, rfl, by simpa using hinv⟩
  | cons p rest ih =>
    intro i m hK hS hinv
    obtain ⟨hsort, hval, hcov⟩ := hinv
    have hKi : get_code p = K i := by simpa using hK 0 p (by simp)
    have hK' : ∀ n q, rest[n]? = some q → get_code q = K (i + 1 + n) := by
      intro n q hq
      have := hK (n + 1) q (by simpa using hq)
      rwa [show i + (n + 1) = i + 1 + n by omega] at this
    have hS' : ∀ n, n < i + 1 + rest.length → scores[n]? = some (S n) := by
      intro n hn
      exact hS n (by simp only [List.length_cons]; omega)
    have hlen : i + (p :: rest).length = i + 1 + rest.length := by
      simp only [List.length_cons]; omega
    rw [hlen]
    -- the invariant after `code_to_idx[code] = i`, when no scanned row with the key of
    -- row `i` beats or equals it
    have hassign : (∀ n, n < i → K n = K i → flt (S i) (S n) = false ∧ feq (S n) (S i) = false) →
        BestInv K S (i + 1) (m.assign (K i) i) := by
      intro hbest
      refine ⟨sorted_assign m hsort _ _, ?_, ?_⟩
      · intro c v hcv
        rcases (mem_assign m hsort (K i) i c v).1 hcv with ⟨hc, hv⟩ | ⟨hc, hmem⟩
        · subst hv
          refine ⟨by omega, hc.symm, fun n hn hkn => ?_⟩
          by_cases hni : n = v
          · subst hni
            exact ⟨flt_irrefl _, fun _ => le_refl _⟩
          · have := hbest n (by omega) (hkn.trans hc)
            refine ⟨this.1, fun e => ?_⟩
            rw [this.2] at e
            cases e
        · obtain ⟨h1, h2, h3⟩ := hval c v hmem
          refine ⟨by omega, h2, fun n hn hkn => ?_⟩
          by_cases hni : n = i
          · subst hni
            exact absurd hkn.symm hc
          · exact h3 n (by omega) hkn
      · intro n hn
        by_cases hkn : K n = K i
        · exact ⟨i, (mem_assign m hsort (K i) i _ _).2 (Or.inl ⟨hkn, rfl⟩)⟩
        · have hni : n < i := by
            rcases Nat.lt_succ_iff_lt_or_eq.1 hn with h | h
            · exact h
            · subst h; exact absurd rfl hkn
          obtain ⟨v, hv⟩ := hcov n hni
          exact ⟨v, (mem_assign m hsort (K i) i _ _).2 (Or.inr ⟨hkn, hv⟩)⟩
    rw [best_loop]
    simp only [hKi]
    cases hl : m.lookup (K i) with
    | none =>
      simp only []
      rw [lookup_eq_none_iff] at hl
      exact ih (i + 1) _ hK' hS' (hassign (fun n hn hkn => by
        obtain ⟨v, hv⟩ := hcov n hn
        rw [hkn] at hv
        exact absurd hv (hl v)))
    | some pre_idx =>
      have hmem := mem_of_lookup_eq_some m _ _ hl
      obtain ⟨h1, h2, h3⟩ := hval _ _ hmem
      have e1 : scores[pre_idx]? = some (S pre_idx) :=
        hS _ (by simp only [List.length_cons]; omega)
      have e2 : scores[i]? = some (S i) := hS _ (by simp only [List.length_cons]; omega)
      simp only [e1, e2]
      by_cases hlt : flt (S pre_idx) (S i) = true
      · rw [if_pos hlt]
        exact ih (i + 1) _ hK' hS' (hassign (fun n hn hkn =>
          flt_of_flt_not_flt _ _ _ hlt (h3 n hn hkn).1))
      · rw [if_neg hlt]
        refine ih (i + 1) _ hK' hS' ⟨hsort, ?_, ?_⟩
        · intro c v hcv
          obtain ⟨g1, g2, g3⟩ := hval c v hcv
          refine ⟨by omega, g2, fun n hn hkn => ?_⟩
          by_cases hni : n = i
          · subst hni
            subst hkn
            have : v = pre_idx := sorted_unique m hsort _ _ _ hcv hmem
            subst this
            exact ⟨by simpa using hlt, fun _ => by omega⟩
          · exact g3 n (by omega) hkn
        · intro n hn
          by_cases hni : n = i
          · subst hni
            exact ⟨pre_idx, hmem⟩
          · exact hcov n (by omega)

theorem bestInv_nil (K : Nat → Int) (S : Nat → FVal) : BestInv K S 0 [] := by
  refine ⟨List.Pairwise.nil, ?_, ?_⟩
  · intro c v h
    cases h
  · intro n h
    omega

theorem key_at_eq (codes : List Code) (n : Nat) (p : Code) (h : codes[n]? = some p) :
    key_at codes n = get_code p := by
  simp [key_at, h]

theorem score_at_eq (scores : List ℚ) (n : Nat) (s : ℚ) (h : scores[n]? = some s) :
    score_at scores n = s := by
  simp [score_at, h]

theorem fscore_at_eq (scores : List FVal) (n : Nat) (s : FVal) (h : scores[n]? = some s) :
    fscore_at scores n = s := by
  simp [fscore_at, h]

/-- With a score for every row, the scan returns a map satisfying `BestInv` for the keys
and scores of the input. -/
theorem best_loop_total (codes : List Code) (scores : List FVal)
    (hlen : codes.length = scores.length) :
    ∃ m, best_loop scores codes 0 [] = some m ∧
      BestInv (key_at codes) (fscore_at scores) codes.length m := by
  have h := best_loop_spec scores (key_at codes) (fscore_at scores) codes 0 []
    (fun n p hp => by rw [Nat.zero_add, key_at_eq codes n p hp])
    (fun n hn => by
      have : n < scores.length := by omega
      rw [List.getElem?_eq_getElem this,
        fscore_at_eq scores n _ (List.getElem?_eq_getElem this)])
    (bestInv_nil _ _)
  simpa using h

theorem keys_of_map_snd (codes : List Code) (m : CodeMap)
    (h : ∀ c v, (c, v) ∈ m → (codes[v]?).map get_code = some c) :
    keys_of codes (m.map Prod.snd) = m.map Prod.fst := by
  unfold keys_of
  induction m with
  | nil => rfl
  | cons e t ih =>
    obtain ⟨c, v⟩ := e
    have hc := h c v (List.mem_cons_self _ _)
    rw [List.map_cons, List.map_cons, List.filterMap_cons]
    simp only [hc]
    rw [ih (fun c' v' h' => h c' v' (List.mem_cons_of_mem _ h'))]

theorem one_per_key_of_inv (codes : List Code) (scores : List FVal) (m : CodeMap)
    (h : BestInv (key_at codes) (fscore_at scores) codes.length m) :
    OnePerKey codes (m.map Prod.snd) := by
  obtain ⟨hsort, hval, hcov⟩ := h
  have hkey : ∀ c v, (c, v) ∈ m → (codes[v]?).map get_code = some c := by
    intro c v hmem
    obtain ⟨h1, h2, -⟩ := hval c v hmem
    rw [key_at_eq codes v _ (List.getElem?_eq_getElem h1)] at h2
    rw [List.getElem?_eq_getElem h1, Option.map_some', h2]
  have hfst : (m.map Prod.fst).Pairwise (fun a b => a < b) := by
    rw [List.pairwise_map]; exact hsort
  refine ⟨?_, ?_, ?_, ?_⟩
  · intro k hk
    obtain ⟨⟨c, v⟩, hmem, rfl⟩ := List.mem_map.1 hk
    exact (hval c v hmem).1
  · have hnd : (m.map Prod.fst).Nodup := hfst.imp (fun h => ne_of_lt h)
    have hperm : (m.map Prod.fst).Perm ((codes.map get_code).dedup) := by
      rw [List.perm_ext_iff_of_nodup hnd (List.nodup_dedup _)]
      intro c
      rw [List.mem_dedup, List.mem_map, List.mem_map]
      constructor
      · rintro ⟨⟨c', v⟩, hmem, rfl⟩
        obtain ⟨h1, h2, -⟩ := hval c' v hmem
        rw [key_at_eq codes v _ (List.getElem?_eq_getElem h1)] at h2
        exact ⟨codes[v], List.getElem_mem h1, h2⟩
      · rintro ⟨p, hp, rfl⟩
        obtain ⟨n, hn, rfl⟩ := List.getElem_of_mem hp
        obtain ⟨v, hv⟩ := hcov n hn
        rw [key_at_eq codes n _ (List.getElem?_eq_getElem hn)] at hv
        exact ⟨_, hv, rfl⟩
    have := hperm.length_eq
    simpa using this
  · intro n pn en
    have hn : n < codes.length := (List.getElem?_eq_some.1 en).1
    obtain ⟨v, hv⟩ := hcov n hn
    obtain ⟨h1, h2, -⟩ := hval _ v hv
    rw [key_at_eq codes v _ (List.getElem?_eq_getElem h1), key_at_eq codes n pn en] at h2
    exact ⟨v, List.mem_map.2 ⟨_, hv, rfl⟩, codes[v], List.getElem?_eq_getElem h1, h2⟩
  · rw [keys_of_map_snd codes m hkey]
    exact hfst

theorem hash_rects_length {F : Type} (ops : FloatOps F) (dets : List (Rect F))
    (w0 h0 alpha bx by_ : F) : (hash_rects ops dets w0 h0 alpha bx by_).length = dets.length := by
  simp [hash_rects]

theorem hnms_cpu_eq {F : Type} (ops : FloatOps F) (dets : List (Rect F)) (scores : List FVal)
    (w0 h0 alpha bx by_ : F) (hlen : dets.length = scores.length) :
    hnms_cpu ops dets scores w0 h0 alpha bx by_ =
      get_best_score_each_code (hash_rects ops dets w0 h0 alpha bx by_) scores := by
  unfold hnms_cpu
  split
  · next h0 =>
    have hd : dets = [] := List.eq_nil_of_length_eq_zero h0
    have hs : scores = [] := List.eq_nil_of_length_eq_zero (hlen ▸ h0)
    subst hd hs
    rfl
  · rfl

/-! ## Claims on `get_best_score_each_code` -/

/-- C7: `get_best_score_each_code` returns one index per distinct key of the input (as many
indices as distinct keys, every row's key being the key of a returned index), enumerated in
strictly ascending order of their keys; the order of the indices themselves is not
ascending in general, as for the two rows with keys 1 and 0, which give `[1, 0]`. -/
theorem get_best_score_each_code_one_per_key (codes : List Code) (scores : List FVal)
    (hlen : codes.length = scores.length) :
    (∃ res, get_best_score_each_code codes scores = some res ∧ OnePerKey codes res) ∧
    get_best_score_each_code [⟨1, 0, 0, 0⟩, ⟨0, 0, 0, 0⟩] [1, 1] = some [1, 0] := by
  obtain ⟨m, h1, h2⟩ := best_loop_total codes scores hlen
  refine ⟨⟨m.map Prod.snd, ?_, one_per_key_of_inv codes scores m h2⟩, by decide⟩
  unfold get_best_score_each_code
  rw [h1]

theorem get_best_score_each_code_one_per_key_witness :
    ([(⟨7, 0, 0, 0⟩ : Code), ⟨3, 0, 0, 0⟩, ⟨7, 0, 0, 0⟩, ⟨7, 0, 0, 0⟩].length
      = [(1 : FVal), 5, 2, 2].length) ∧
    (∃ res, get_best_score_each_code
        [⟨7, 0, 0, 0⟩, ⟨3, 0, 0, 0⟩, ⟨7, 0, 0, 0⟩, ⟨7, 0, 0, 0⟩] [1, 5, 2, 2] = some res ∧
      OnePerKey [⟨7, 0, 0, 0⟩, ⟨3, 0, 0, 0⟩, ⟨7, 0, 0, 0⟩, ⟨7, 0, 0, 0⟩] res) ∧
    get_best_score_each_code [⟨1, 0, 0, 0⟩, ⟨0, 0, 0, 0⟩] [1, 1] = some [1, 0] :=
  ⟨rfl, get_best_score_each_code_one_per_key _ _ rfl⟩

/-! ## Permuting the input of `nms_cpu_kernel` -/

theorem permute_getElem? {α : Type} (l : List α) :
    ∀ (p : List Nat), (∀ o ∈ p, o < l.length) →
      ∀ k : Nat, (permute p l)[k]? = (p[k]?).bind (fun o : Nat => l[o]?) := by
  intro p
  induction p with
  | nil => intro _ k; simp [permute]
  | cons o t ih =>
    intro hp k
    have ho : o < l.length := hp o (List.mem_cons_self _ _)
    have ht : ∀ o' ∈ t, o' < l.length := fun o' h => hp o' (List.mem_cons_of_mem _ h)
    have hcons : permute (o :: t) l = l[o] :: permute t l := by
      unfold permute
      rw [List.filterMap_cons]
      simp only [List.getElem?_eq_getElem ho]
    rw [hcons]
    cases k with
    | zero => simp [List.getElem?_eq_getElem ho]
    | succ k => simpa using ih ht k

theorem permute_length {α : Type} (l : List α) :
    ∀ (p : List Nat), (∀ o ∈ p, o < l.length) → (permute p l).length = p.length := by
  intro p
  induction p with
  | nil => intro _; rfl
  | cons o t ih =>
    intro hp
    have ho : o < l.length := hp o (List.mem_cons_self _ _)
    have ht : ∀ o' ∈ t, o' < l.length := fun o' h => hp o' (List.mem_cons_of_mem _ h)
    have hcons : permute (o :: t) l = l[o] :: permute t l := by
      unfold permute
      rw [List.filterMap_cons]
      simp only [List.getElem?_eq_getElem ho]
    rw [hcons, List.length_cons, List.length_cons, ih ht]

theorem greedy_keep_subset (g : Nat → Nat → Bool) :
    ∀ (rest kept : List Nat) (x : Nat), x ∈ greedy_keep g kept rest → x ∈ kept ∨ x ∈ rest := by
  intro rest
  induction rest with
  | nil => intro kept x h; exact Or.inl h
  | cons o rest ih =>
    intro kept x h
    unfold greedy_keep at h
    split at h
    · rcases ih kept x h with h' | h'
      · exact Or.inl h'
      · exact Or.inr (List.mem_cons_of_mem _ h')
    · rcases ih _ x h with h' | h'
      · rcases List.mem_append.1 h' with h'' | h''
        · exact Or.inl h''
        · rw [List.mem_singleton] at h''
          subst h''
          exact Or.inr (List.mem_cons_self _ _)
      · exact Or.inr (List.mem_cons_of_mem _ h')

/-- Renaming the indices by `f` commutes with the greedy selection when the tests agree. -/
theorem greedy_keep_map (g g' : Nat → Nat → Bool) (f : Nat → Nat) :
    ∀ (rest kept : List Nat),
      (∀ a, a ∈ kept ∨ a ∈ rest → ∀ b, b ∈ kept ∨ b ∈ rest → g' a b = g (f a) (f b)) →
      (greedy_keep g' kept rest).map f = greedy_keep g (kept.map f) (rest.map f) := by
  intro rest
  induction rest with
  | nil => intro kept _; rfl
  | cons o rest ih =>
    intro kept h
    have hany : kept.any (fun i => g' i o) = (kept.map f).any (fun i => g i (f o)) := by
      rw [Bool.eq_iff_iff, List.any_eq_true, List.any_eq_true]
      constructor
      · rintro ⟨a, ha, hg⟩
        exact ⟨f a, List.mem_map_of_mem f ha,
          by rw [← h a (Or.inl ha) o (Or.inr (List.mem_cons_self _ _))]; exact hg⟩
      · rintro ⟨b, hb, hg⟩
        obtain ⟨a, ha, rfl⟩ := List.mem_map.1 hb
        exact ⟨a, ha, by rw [h a (Or.inl ha) o (Or.inr (List.mem_cons_self _ _))]; exact hg⟩
    rw [List.map_cons, greedy_keep, greedy_keep, ← hany]
    split
    · exact ih kept (fun a ha b hb =>
        h a (ha.imp id (List.mem_cons_of_mem _)) b (hb.imp id (List.mem_cons_of_mem _)))
    · have := ih (kept ++ [o]) (fun a ha b hb => h a
        (by
          rcases ha with ha | ha
          · rcases List.mem_append.1 ha with ha | ha
            · exact Or.inl ha
            · rw [List.mem_singleton] at ha; subst ha; exact Or.inr (List.mem_cons_self _ _)
          · exact Or.inr (List.mem_cons_of_mem _ ha)) b
        (by
          rcases hb with hb | hb
          · rcases List.mem_append.1 hb with hb | hb
            · exact Or.inl hb
            · rw [List.mem_singleton] at hb; subst hb; exact Or.inr (List.mem_cons_self _ _)
          · exact Or.inr (List.mem_cons_of_mem _ hb)))
      rw [this, List.map_append, List.map_singleton]

theorem mem_perm_range (p : List Nat) (n : Nat) (hp : p.Perm (List.range n)) :
    p.length = n ∧ p.Nodup ∧ ∀ o, o ∈ p ↔ o < n :=
  ⟨by simpa using hp.length_eq, hp.nodup_iff.2 (List.nodup_range n),
    fun o => by rw [hp.mem_iff, List.mem_range]⟩

theorem enum_eq_map_range (scores : List ℚ) :
    scores.enum = (List.range scores.length).map (fun o => (o, score_at scores o)) := by
  apply List.ext_getElem?
  intro k
  rw [List.getElem?_enum, List.getElem?_map]
  by_cases hk : k < scores.length
  · rw [List.getElem?_range hk, List.getElem?_eq_getElem hk]
    simp only [Option.map_some', score_at_eq scores k _ (List.getElem?_eq_getElem hk)]
  · have h1 : scores[k]? = none := List.getElem?_eq_none (by omega)
    have h2 : (List.range scores.length)[k]? = none :=
      List.getElem?_eq_none (by rw [List.length_range]; omega)
    rw [h1, h2]
    rfl

theorem enum_permute_map (scores : List ℚ) (p : List Nat)
    (hp : ∀ o ∈ p, o < scores.length) :
    ((permute p scores).enum).map (fun e => (p.getD e.1 0, e.2)) =
      p.map (fun o => (o, score_at scores o)) := by
  apply List.ext_getElem?
  intro k
  rw [List.getElem?_map, List.getElem?_enum, permute_getElem? scores p hp, List.getElem?_map]
  by_cases hk : k < p.length
  · have ho : p[k] < scores.length := hp _ (List.getElem_mem hk)
    rw [List.getElem?_eq_getElem hk]
    simp only [Option.some_bind, Option.map_some']
    rw [List.getElem?_eq_getElem ho, score_at_eq scores _ _ (List.getElem?_eq_getElem ho)]
    simp only [Option.map_some', List.getD_eq_getElem p 0 hk]
  · have h1 : p[k]? = none := List.getElem?_eq_none (by omega)
    rw [h1]
    rfl

theorem insertionSort_strict (l : List (ℕ × ℚ)) (hnd : (l.map Prod.snd).Nodup) :
    (l.insertionSort (fun a b => b.2 ≤ a.2)).Pairwise (fun a b => b.2 < a.2) := by
  haveI : IsTotal (ℕ × ℚ) (fun a b => b.2 ≤ a.2) := ⟨fun a b => le_total b.2 a.2⟩
  haveI : IsTrans (ℕ × ℚ) (fun a b => b.2 ≤ a.2) := ⟨fun a b c h1 h2 => le_trans h2 h1⟩
  have hs : (l.insertionSort (fun a b => b.2 ≤ a.2)).Pairwise (fun a b => b.2 ≤ a.2) :=
    List.sorted_insertionSort (fun a b : ℕ × ℚ => b.2 ≤ a.2) l
  have hperm := (List.perm_insertionSort (fun a b : ℕ × ℚ => b.2 ≤ a.2) l).map Prod.snd
  have hnd' : ((l.insertionSort (fun a b => b.2 ≤ a.2)).map Prod.snd).Nodup :=
    hperm.nodup_iff.2 hnd
  have hne : (l.insertionSort (fun a b => b.2 ≤ a.2)).Pairwise (fun a b => a.2 ≠ b.2) :=
    List.pairwise_map.1 hnd'
  exact (hs.and hne).imp (fun h => lt_of_le_of_ne h.1 (Ne.symm h.2))

/-- With pairwise different scores the rank order follows a permutation of the input:
renaming the ranks of the permuted scores by `p` gives the ranks of the original scores. -/
theorem sort_descending_permute (scores : List ℚ) (p : List Nat)
    (hp : p.Perm (List.range scores.length)) (hnd : scores.Nodup) :
    (sort_descending (permute p scores)).map (fun k => p.getD k 0) = sort_descending scores := by
  obtain ⟨-, -, hmem⟩ := mem_perm_range p _ hp
  have hlt : ∀ o ∈ p, o < scores.length := fun o ho => (hmem o).1 ho
  have hE : (((permute p scores).enum).map (fun e => (p.getD e.1 0, e.2))).Perm scores.enum := by
    rw [enum_permute_map scores p hlt, enum_eq_map_range]
    exact hp.map _
  have hnd1 : (scores.enum.map Prod.snd).Nodup := by rw [List.enum_map_snd]; exact hnd
  have hnd2 : (((permute p scores).enum).map Prod.snd).Nodup := by
    have h := hE.map Prod.snd
    rw [List.map_map] at h
    exact h.nodup_iff.2 hnd1
  have hs1 := insertionSort_strict scores.enum hnd1
  have hs2 := insertionSort_strict (permute p scores).enum hnd2
  have hs2' : (((permute p scores).enum.insertionSort (fun a b => b.2 ≤ a.2)).map
      (fun e => (p.getD e.1 0, e.2))).Pairwise (fun a b => b.2 < a.2) :=
    List.pairwise_map.2 hs2
  have hperm : (((permute p scores).enum.insertionSort (fun a b => b.2 ≤ a.2)).map
      (fun e => (p.getD e.1 0, e.2))).Perm (scores.enum.insertionSort (fun a b => b.2 ≤ a.2)) :=
    (((List.perm_insertionSort _ _).map _).trans hE).trans (List.perm_insertionSort _ _).symm
  haveI : IsAntisymm (ℕ × ℚ) (fun a b => b.2 < a.2) :=
    ⟨fun a b h1 h2 => absurd (lt_trans h1 h2) (lt_irrefl _)⟩
  have heq := List.eq_of_perm_of_sorted hperm hs2' hs1
  unfold sort_descending
  rw [← heq, List.map_map, List.map_map]
  rfl

theorem suppresses_permute (dets : List Box) (threshold : ℚ) (p : List Nat)
    (hp : ∀ o ∈ p, o < dets.length) (a b : Nat) (ha : a < p.length) (hb : b < p.length) :
    suppresses (permute p dets) threshold a b =
      suppresses dets threshold (p.getD a 0) (p.getD b 0) := by
  unfold suppresses
  rw [permute_getElem? dets p hp a, permute_getElem? dets p hp b,
    List.getElem?_eq_getElem ha, List.getElem?_eq_getElem hb,
    List.getD_eq_getElem p 0 ha, List.getD_eq_getElem p 0 hb]
  rfl

/-- C8, as the claim states it, fails when two scores are equal: for two identical boxes
with equal scores the kernel keeps index 0 for the input and for the swapped input alike,
although the swap puts original index 1 at position 0. -/
theorem nms_cpu_kernel_permute_tie :
    [1, 0].Perm (List.range 2) ∧
    nms_cpu_kernel [⟨0, 0, 10, 10⟩, ⟨0, 0, 10, 10⟩] [1, 1] (1 / 2) = some [0] ∧
    nms_cpu_kernel (permute [1, 0] [⟨0, 0, 10, 10⟩, ⟨0, 0, 10, 10⟩]) (permute [1, 0] [1, 1])
      (1 / 2) = some [0] ∧
    ¬ (∀ res res', nms_cpu_kernel [⟨0, 0, 10, 10⟩, ⟨0, 0, 10, 10⟩] [1, 1] (1 / 2) = some res →
      nms_cpu_kernel (permute [1, 0] [⟨0, 0, 10, 10⟩, ⟨0, 0, 10, 10⟩]) (permute [1, 0] [1, 1])
        (1 / 2) = some res' →
      ∀ k o, ([1, 0] : List Nat)[k]? = some o → (k ∈ res' ↔ o ∈ res)) := by
  have h1 : permute [1, 0] [(⟨0, 0, 10, 10⟩ : Box), ⟨0, 0, 10, 10⟩]
      = [⟨0, 0, 10, 10⟩, ⟨0, 0, 10, 10⟩] := rfl
  have h2 : permute [1, 0] [(1 : ℚ), 1] = [1, 1] := rfl
  have h3 : nms_cpu_kernel [⟨0, 0, 10, 10⟩, ⟨0, 0, 10, 10⟩] [1, 1] (1 / 2) = some [0] := by
    rw [nms_cpu_kernel_two]
    norm_num [ovr, inter, fdiv, fge, Box.area]
  rw [h1, h2]
  refine ⟨by decide, h3, h3, fun h => ?_⟩
  have := (h [0] [0] h3 h3 0 1 rfl).1 (List.mem_singleton.2 rfl)
  simp at this

/-- C8 (amended): when the scores are pairwise different, running `nms_cpu_kernel` on the
boxes and scores rearranged by a permutation `p` keeps the same boxes: position `k` is in
the result for the rearranged input exactly when the original index `p[k]` it holds is in
the result for the original input. -/
theorem nms_cpu_kernel_permute (dets : List Box) (scores : List ℚ) (threshold : ℚ)
    (p : List Nat) (hlen : dets.length = scores.length)
    (hp : p.Perm (List.range dets.length)) (hnd : scores.Nodup) :
    ∃ res res', nms_cpu_kernel dets scores threshold = some res ∧
      nms_cpu_kernel (permute p dets) (permute p scores) threshold = some res' ∧
      ∀ k o, p[k]? = some o → (k ∈ res' ↔ o ∈ res) := by
  obtain ⟨hpl, hpnd, hpm⟩ := mem_perm_range p _ hp
  have hpd : ∀ o ∈ p, o < dets.length := fun o ho => (hpm o).1 ho
  have hps : ∀ o ∈ p, o < scores.length := fun o ho => hlen ▸ hpd o ho
  have hld : (permute p dets).length = dets.length := by rw [permute_length dets p hpd, hpl]
  have hls : (permute p scores).length = dets.length := by
    rw [permute_length scores p hps, hpl]
  have hord := sort_descending_permute scores p (hlen ▸ hp) hnd
  have hG := greedy_keep_map (suppresses dets threshold) (suppresses (permute p dets) threshold)
    (fun k => p.getD k 0) (sort_descending (permute p scores)) []
    (fun a ha b hb => by
      have ha' : a < p.length := by
        rcases ha with ha | ha
        · cases ha
        · rw [mem_sort_descending, hls, ← hpl] at ha; exact ha
      have hb' : b < p.length := by
        rcases hb with hb | hb
        · cases hb
        · rw [mem_sort_descending, hls, ← hpl] at hb; exact hb
      exact suppresses_permute dets threshold p hpd a b ha' hb')
  rw [hord, List.map_nil] at hG
  refine ⟨_, _, nms_cpu_kernel_eq dets scores threshold hlen,
    nms_cpu_kernel_eq (permute p dets) (permute p scores) threshold (hld.trans hls.symm), ?_⟩
  intro k o hko
  obtain ⟨hk, rfl⟩ := List.getElem?_eq_some.1 hko
  have ho : p[k] < dets.length := hpd _ (List.getElem_mem hk)
  rw [List.mem_filter, List.mem_filter, List.mem_range, List.mem_range, hld,
    decide_eq_true_iff, decide_eq_true_iff, ← hG, List.mem_map]
  constructor
  · rintro ⟨-, hmem⟩
    exact ⟨ho, k, hmem, List.getD_eq_getElem p 0 hk⟩
  · rintro ⟨-, k', hmem, he⟩
    refine ⟨by omega, ?_⟩
    have hk' : k' < p.length := by
      rcases greedy_keep_subset _ _ _ _ hmem with h | h
      · cases h
      · rw [mem_sort_descending, hls, ← hpl] at h; exact h
    rw [List.getD_eq_getElem p 0 hk'] at he
    have : k' = k := (hpnd.getElem_inj_iff).1 he
    rw [← this]
    exact hmem

theorem nms_cpu_kernel_permute_witness :
    ([(⟨0, 0, 10, 10⟩ : Box), ⟨1, 1, 10, 10⟩, ⟨100, 100, 110, 110⟩].length
        = [(1 : ℚ), 3, 2].length ∧
      [2, 0, 1].Perm
        (List.range [(⟨0, 0, 10, 10⟩ : Box), ⟨1, 1, 10, 10⟩, ⟨100, 100, 110, 110⟩].length) ∧
      [(1 : ℚ), 3, 2].Nodup) ∧
    ∃ res res',
      nms_cpu_kernel [⟨0, 0, 10, 10⟩, ⟨1, 1, 10, 10⟩, ⟨100, 100, 110, 110⟩] [1, 3, 2] (1 / 2)
        = some res ∧
      nms_cpu_kernel
        (permute [2, 0, 1] [⟨0, 0, 10, 10⟩, ⟨1, 1, 10, 10⟩, ⟨100, 100, 110, 110⟩])
        (permute [2, 0, 1] [1, 3, 2]) (1 / 2) = some res' ∧
      ∀ k o, ([2, 0, 1] : List Nat)[k]? = some o → (k ∈ res' ↔ o ∈ res) :=
  ⟨⟨rfl, by decide, by norm_num⟩,
    nms_cpu_kernel_permute _ _ _ _ rfl (by decide) (by norm_num)⟩

/-! ## Claims on missing validation -/

/-- C11, as the claim states it, fails: for the single box `(5, 5, 1, 1)` with score 1 and
`w0 = h0 = alpha = 1` the call returns the index list `[0]` instead of failing. (The
operations given here only fix an instance; the result is the same for all of them.) -/
theorem hnms_cpu_alpha_one_returns :
    (exact_ops (fun _ => 0) (fun a _ => a) (fun x => x) (fun x => Rat.floor x)).one = (1 : ℚ) ∧
    hnms_cpu (exact_ops (fun _ => 0) (fun a _ => a) (fun x => x) (fun x => Rat.floor x))
      [⟨5, 5, 1, 1⟩] [1] 1 1 1 0 0 = some [0] := by
  constructor <;> rfl

/-- C11 (amended): `hnms_cpu` does not validate `alpha`: for N boxes with N scores and any
`w0`, `h0`, `alpha` (the value 1 included), `bx`, `by` it returns an index list, the one
`get_best_score_each_code` computes from the codes of `hash_rects`, and that list is not
empty when N is not 0. -/
theorem hnms_cpu_no_alpha_check {F : Type} (ops : FloatOps F) (dets : List (Rect F))
    (scores : List FVal) (w0 h0 alpha bx by_ : F) (hlen : dets.length = scores.length) :
    ∃ res, hnms_cpu ops dets scores w0 h0 alpha bx by_ = some res ∧
      get_best_score_each_code (hash_rects ops dets w0 h0 alpha bx by_) scores = some res ∧
      (dets ≠ [] → res ≠ []) := by
  have hc : (hash_rects ops dets w0 h0 alpha bx by_).length = scores.length := by
    rw [hash_rects_length, hlen]
  obtain ⟨m, h1, h2⟩ := best_loop_total _ scores hc
  have hres : get_best_score_each_code (hash_rects ops dets w0 h0 alpha bx by_) scores
      = some (m.map Prod.snd) := by
    unfold get_best_score_each_code
    rw [h1]
  refine ⟨_, by rw [hnms_cpu_eq ops dets scores w0 h0 alpha bx by_ hlen, hres], hres, ?_⟩
  intro hne hnil
  have hpos : 0 < (hash_rects ops dets w0 h0 alpha bx by_).length := by
    rw [hash_rects_length]
    exact List.length_pos.2 hne
  obtain ⟨v, hv⟩ := h2.2.2 0 hpos
  have : v ∈ m.map Prod.snd := List.mem_map.2 ⟨_, hv, rfl⟩
  rw [hnil] at this
  cases this

theorem hnms_cpu_no_alpha_check_witness :
    ([(⟨5, 5, 1, 1⟩ : Rect ℚ)].length = [(1 : FVal)].length) ∧
    ∃ res, hnms_cpu (exact_ops (fun _ => 0) (fun a _ => a) (fun x => x) (fun x => Rat.floor x))
        [⟨5, 5, 1, 1⟩] [1] 1 1 1 0 0 = some res ∧
      get_best_score_each_code
        (hash_rects (exact_ops (fun _ => 0) (fun a _ => a) (fun x => x) (fun x => Rat.floor x))
          [⟨5, 5, 1, 1⟩] 1 1 1 0 0) [1] = some res ∧
      ([(⟨5, 5, 1, 1⟩ : Rect ℚ)] ≠ [] → res ≠ []) :=
  ⟨rfl, hnms_cpu_no_alpha_check _ _ _ _ _ _ _ _ rfl⟩

theorem nms_cpu_kernel_one_box_two_scores (b : Box) (s0 s1 threshold : ℚ) (h : s1 ≤ s0) :
    nms_cpu_kernel [b] [s0, s1] threshold = some [0] := by
  have h' : sort_descending [s0, s1] = [0, 1] := by
    rw [sort_descending_two, if_pos h]
  simp [nms_cpu_kernel, nms_flags, h', nms_outer, nms_inner, nonzero_eq_zero, List.range,
    List.range.loop]

/-- C12, as the claim states it, fails: with no box and one score, and with one box and
two scores, the counts differ and `nms_cpu_kernel` returns an index list. -/
theorem nms_cpu_kernel_count_mismatch_returns :
    ([] : List Box).length ≠ [(1 : ℚ)].length ∧
    nms_cpu_kernel [] [1] (1 / 2) = some [] ∧
    [(⟨0, 0, 10, 10⟩ : Box)].length ≠ [(9 / 10 : ℚ), 1 / 10].length ∧
    nms_cpu_kernel [⟨0, 0, 10, 10⟩] [9 / 10, 1 / 10] (1 / 2) = some [0] := by
  exact ⟨by decide, rfl, by decide,
    nms_cpu_kernel_one_box_two_scores _ _ _ _ (by norm_num)⟩

/-- C12 (amended): `nms_cpu_kernel` does not compare the number of boxes with the number of
scores. With no box it returns the empty index list for any scores; with one box and two
scores of which the first is not the lower, it returns `[0]`. -/
theorem nms_cpu_kernel_no_count_check (scores : List ℚ) (threshold : ℚ) (b : Box)
    (s0 s1 : ℚ) (h : s1 ≤ s0) :
    nms_cpu_kernel [] scores threshold = some [] ∧
    nms_cpu_kernel [b] [s0, s1] threshold = some [0] := by
  exact ⟨rfl, nms_cpu_kernel_one_box_two_scores b s0 s1 threshold h⟩

theorem nms_cpu_kernel_no_count_check_witness :
    ((1 / 10 : ℚ) ≤ 9 / 10) ∧
    nms_cpu_kernel [] [1, 2, 3] (1 / 2) = some [] ∧
    nms_cpu_kernel [⟨0, 0, 10, 10⟩] [9 / 10, 1 / 10] (1 / 2) = some [0] :=
  ⟨by norm_num, nms_cpu_kernel_no_count_check [1, 2, 3] (1 / 2) ⟨0, 0, 10, 10⟩ (9 / 10) (1 / 10)
    (by norm_num)⟩

/-! ## Geometry of the overlap ratio -/

/-- No selected index beats a selected index that comes after it. -/
theorem greedy_keep_pairwise (g : Nat → Nat → Bool) :
    ∀ (rest kept : List Nat), kept.Pairwise (fun a b => g a b = false) →
      (greedy_keep g kept rest).Pairwise (fun a b => g a b = false) := by
  intro rest
  induction rest with
  | nil => intro kept h; exact h
  | cons o rest ih =>
    intro kept h
    unfold greedy_keep
    split
    · exact ih kept h
    · next hany =>
      apply ih
      rw [List.pairwise_append]
      refine ⟨h, List.pairwise_singleton _ _, fun a ha b hb => ?_⟩
      rw [List.mem_singleton] at hb
      subst hb
      cases hg : g a b with
      | false => rfl
      | true => exact absurd (List.any_eq_true.2 ⟨a, ha, hg⟩) hany

/-- When no test between different indices succeeds, the selection keeps every index. -/
theorem greedy_keep_all (g : Nat → Nat → Bool) :
    ∀ (rest kept : List Nat), (kept ++ rest).Nodup →
      (∀ a, a ∈ kept ∨ a ∈ rest → ∀ b, b ∈ rest → a ≠ b → g a b = false) →
      greedy_keep g kept rest = kept ++ rest := by
  intro rest
  induction rest with
  | nil => intro kept _ _; simp [greedy_keep]
  | cons o rest ih =>
    intro kept hnd h
    have hany : ¬ kept.any (fun i => g i o) = true := by
      intro hany
      obtain ⟨i, hi, hg⟩ := List.any_eq_true.1 hany
      have hne : i ≠ o := by
        intro e
        subst e
        exact (List.nodup_append.1 hnd).2.2 hi (List.mem_cons_self _ _)
      rw [h i (Or.inl hi) o (List.mem_cons_self _ _) hne] at hg
      cases hg
    unfold greedy_keep
    rw [if_neg hany]
    have e : kept ++ o :: rest = (kept ++ [o]) ++ rest := by simp
    rw [e] at hnd ⊢
    apply ih _ hnd
    intro a ha b hb hne
    refine h a ?_ b (List.mem_cons_of_mem _ hb) hne
    rcases ha with ha | ha
    · rcases List.mem_append.1 ha with ha | ha
      · exact Or.inl ha
      · rw [List.mem_singleton] at ha; subst ha; exact Or.inr (List.mem_cons_self _ _)
    · exact Or.inr (List.mem_cons_of_mem _ ha)

theorem suppresses_comm (dets : List Box) (threshold : ℚ) (i j : Nat) :
    suppresses dets threshold i j = suppresses dets threshold j i := by
  unfold suppresses
  cases hi : dets[i]? <;> cases hj : dets[j]? <;> simp only []
  rw [ovr_comm]

/-- Membership in the result of the kernel, for as many scores as boxes. -/
theorem nms_cpu_kernel_mem (dets : List Box) (scores : List ℚ) (threshold : ℚ)
    (hlen : dets.length = scores.length) :
    ∃ res, nms_cpu_kernel dets scores threshold = some res ∧
      ∀ k, k ∈ res ↔ (k < dets.length ∧
        k ∈ greedy_keep (suppresses dets threshold) [] (sort_descending scores)) := by
  refine ⟨_, nms_cpu_kernel_eq dets scores threshold hlen, fun k => ?_⟩
  rw [List.mem_filter, List.mem_range, decide_eq_true_iff]

/-- Two different indices that the greedy selection keeps do not pass the overlap test. -/
theorem kept_pair_not_suppressed (dets : List Box) (scores : List ℚ) (threshold : ℚ)
    (i j : Nat)
    (hi : i ∈ greedy_keep (suppresses dets threshold) [] (sort_descending scores))
    (hj : j ∈ greedy_keep (suppresses dets threshold) [] (sort_descending scores))
    (hne : i ≠ j) : suppresses dets threshold i j = false := by
  have hp := greedy_keep_pairwise (suppresses dets threshold) (sort_descending scores) []
    List.Pairwise.nil
  have hsymm : Symmetric (fun a b => suppresses dets threshold a b = false) := by
    intro a b h
    rw [suppresses_comm]
    exact h
  exact hp.forall hsymm hi hj hne

/-- When no test between different valid indices succeeds, the kernel returns every index. -/
theorem nms_cpu_kernel_all_kept (dets : List Box) (scores : List ℚ) (threshold : ℚ)
    (hlen : dets.length = scores.length)
    (h : ∀ a b, a < dets.length → b < dets.length → a ≠ b →
      suppresses dets threshold a b = false) :
    nms_cpu_kernel dets scores threshold = some (List.range dets.length) := by
  have hall := greedy_keep_all (suppresses dets threshold) (sort_descending scores) []
    (by rw [List.nil_append]; exact sort_descending_nodup scores)
    (fun a ha b hb hne => by
      have ha' : a < dets.length := by
        rcases ha with ha | ha
        · cases ha
        · rw [mem_sort_descending] at ha; omega
      have hb' : b < dets.length := by
        rw [mem_sort_descending] at hb; omega
      exact h a b ha' hb' hne)
  rw [nms_cpu_kernel_eq dets scores threshold hlen, hall, List.nil_append]
  congr 1
  rw [List.filter_eq_self]
  intro k hk
  rw [List.mem_range] at hk
  rw [decide_eq_true_iff, mem_sort_descending]
  omega

/-- C19: `nms_cpu_kernel` is idempotent on its survivors: if it returns `K`, then on the
boxes and scores selected by `K`, in the order of `K`, it suppresses nothing and returns
`[0, 1, ..., |K|-1]`. -/
theorem nms_cpu_kernel_idempotent (dets : List Box) (scores : List ℚ) (threshold : ℚ)
    (hlen : dets.length = scores.length) :
    ∃ K, nms_cpu_kernel dets scores threshold = some K ∧
      nms_cpu_kernel (permute K dets) (permute K scores) threshold
        = some (List.range K.length) := by
  obtain ⟨K, hK, hmem⟩ := nms_cpu_kernel_mem dets scores threshold hlen
  have hKd : ∀ o ∈ K, o < dets.length := fun o ho => ((hmem o).1 ho).1
  have hKs : ∀ o ∈ K, o < scores.length := fun o ho => hlen ▸ hKd o ho
  have hnd : K.Nodup := by
    have e := nms_cpu_kernel_eq dets scores threshold hlen
    rw [hK] at e
    cases e
    exact (List.nodup_range _).filter _
  have hld : (permute K dets).length = K.length := permute_length dets K hKd
  have hls : (permute K scores).length = K.length := permute_length scores K hKs
  refine ⟨K, hK, ?_⟩
  rw [← hld]
  apply nms_cpu_kernel_all_kept _ _ threshold (hld.trans hls.symm)
  intro a b ha hb hne
  rw [hld] at ha hb
  rw [suppresses_permute dets threshold K hKd a b ha hb,
    List.getD_eq_getElem K 0 ha, List.getD_eq_getElem K 0 hb]
  have hne' : K[a] ≠ K[b] := fun e => hne ((hnd.getElem_inj_iff).1 e)
  exact kept_pair_not_suppressed dets scores threshold K[a] K[b]
    ((hmem _).1 (List.getElem_mem ha)).2 ((hmem _).1 (List.getElem_mem hb)).2 hne'

theorem nms_cpu_kernel_idempotent_witness :
    ([(⟨0, 0, 10, 10⟩ : Box), ⟨1, 1, 10, 10⟩, ⟨100, 100, 110, 110⟩].length
      = [(1 : ℚ), 3, 2].length) ∧
    ∃ K,
      nms_cpu_kernel [⟨0, 0, 10, 10⟩, ⟨1, 1, 10, 10⟩, ⟨100, 100, 110, 110⟩] [1, 3, 2] (1 / 2)
        = some K ∧
      nms_cpu_kernel
        (permute K [⟨0, 0, 10, 10⟩, ⟨1, 1, 10, 10⟩, ⟨100, 100, 110, 110⟩])
        (permute K [1, 3, 2]) (1 / 2) = some (List.range K.length) :=
  ⟨rfl, nms_cpu_kernel_idempotent _ _ _ rfl⟩

/-- C20: for a tuple with `0 <= qx, qy, i < 10000` whose sum
`qx + qy*10^4 + i*10^8 + j*10^12` fits a 64-bit `long`, the key `k = get_code` decodes
back to its fields: `qx = k mod 10^4`, `qy = (k div 10^4) mod 10^4`,
`i = (k div 10^8) mod 10^4`, `j = k div 10^12` (floor division); so two such tuples with
the same key are equal. -/
theorem get_code_decodes (p q : Code)
    (hp : 0 ≤ p.qx ∧ p.qx < 10000 ∧ 0 ≤ p.qy ∧ p.qy < 10000 ∧ 0 ≤ p.i ∧ p.i < 10000)
    (hpo : -2 ^ 63 ≤ p.qx + p.qy * 10000 + p.i * 100000000 + p.j * 1000000000000 ∧
      p.qx + p.qy * 10000 + p.i * 100000000 + p.j * 1000000000000 < 2 ^ 63)
    (hq : 0 ≤ q.qx ∧ q.qx < 10000 ∧ 0 ≤ q.qy ∧ q.qy < 10000 ∧ 0 ≤ q.i ∧ q.i < 10000)
    (hqo : -2 ^ 63 ≤ q.qx + q.qy * 10000 + q.i * 100000000 + q.j * 1000000000000 ∧
      q.qx + q.qy * 10000 + q.i * 100000000 + q.j * 1000000000000 < 2 ^ 63) :
    (p.qx = (get_code p).fmod 10000 ∧
      p.qy = ((get_code p).fdiv 10000).fmod 10000 ∧
      p.i = ((get_code p).fdiv 100000000).fmod 10000 ∧
      p.j = (get_code p).fdiv 1000000000000) ∧
    (get_code p = get_code q → p = q) := by
  have ep : get_code p = p.qx + p.qy * 10000 + p.i * 100000000 + p.j * 1000000000000 :=
    wrap64_eq _ hpo.1 hpo.2
  have eq : get_code q = q.qx + q.qy * 10000 + q.i * 100000000 + q.j * 1000000000000 :=
    wrap64_eq _ hqo.1 hqo.2
  have dec : ∀ c : Code,
      (0 ≤ c.qx ∧ c.qx < 10000 ∧ 0 ≤ c.qy ∧ c.qy < 10000 ∧ 0 ≤ c.i ∧ c.i < 10000) →
      ∀ k : Int, k = c.qx + c.qy * 10000 + c.i * 100000000 + c.j * 1000000000000 →
      c.qx = k.fmod 10000 ∧ c.qy = (k.fdiv 10000).fmod 10000 ∧
        c.i = (k.fdiv 100000000).fmod 10000 ∧ c.j = k.fdiv 1000000000000 := by
    intro c hc k hk
    rw [Int.fmod_eq_emod k (by norm_num), Int.fdiv_eq_ediv k (by norm_num),
      Int.fdiv_eq_ediv k (by norm_num), Int.fdiv_eq_ediv k (by norm_num),
      Int.fmod_eq_emod _ (by norm_num), Int.fmod_eq_emod _ (by norm_num)]
    subst hk
    refine ⟨by omega, by omega, by omega, by omega⟩
  have dp := dec p hp _ ep
  refine ⟨dp, fun h => ?_⟩
  have dq := dec q hq _ eq
  rw [← h] at dq
  obtain ⟨a, b, c, d⟩ := p
  obtain ⟨a', b', c', d'⟩ := q
  simp only at dp dq
  obtain ⟨p1, p2, p3, p4⟩ := dp
  obtain ⟨q1, q2, q3, q4⟩ := dq
  rw [Code.mk.injEq]
  exact ⟨p1.trans q1.symm, p2.trans q2.symm, p3.trans q3.symm, p4.trans q4.symm⟩

theorem get_code_decodes_witness :
    (((0 : Int) ≤ 1 ∧ (1 : Int) < 10000 ∧ (0 : Int) ≤ 2 ∧ (2 : Int) < 10000 ∧
        (0 : Int) ≤ 3 ∧ (3 : Int) < 10000) ∧
      (-2 ^ 63 ≤ (1 : Int) + 2 * 10000 + 3 * 100000000 + (-4) * 1000000000000 ∧
        (1 : Int) + 2 * 10000 + 3 * 100000000 + (-4) * 1000000000000 < 2 ^ 63)) ∧
    ((1 : Int) = (get_code ⟨1, 2, 3, -4⟩).fmod 10000 ∧
      (2 : Int) = ((get_code ⟨1, 2, 3, -4⟩).fdiv 10000).fmod 10000 ∧
      (3 : Int) = ((get_code ⟨1, 2, 3, -4⟩).fdiv 100000000).fmod 10000 ∧
      (-4 : Int) = (get_code ⟨1, 2, 3, -4⟩).fdiv 1000000000000) ∧
    (get_code ⟨1, 2, 3, -4⟩ = get_code ⟨1, 2, 3, -4⟩ →
      (⟨1, 2, 3, -4⟩ : Code) = ⟨1, 2, 3, -4⟩) :=
  ⟨by decide, get_code_decodes ⟨1, 2, 3, -4⟩ ⟨1, 2, 3, -4⟩ (by decide) (by decide)
    (by decide) (by decide)⟩

/-! ## Rounding to nearest, ties to even -/

theorem rhe_bounds (y : ℚ) : ⌊y⌋ ≤ rhe y ∧ rhe y ≤ ⌊y⌋ + 1 := by
  unfold rhe
  split_ifs <;> constructor <;> omega

theorem rhe_eq_floor_or (y : ℚ) :
    (rhe y = ⌊y⌋ ∧ y - ⌊y⌋ ≤ 1 / 2) ∨ (rhe y = ⌊y⌋ + 1 ∧ 1 / 2 ≤ y - ⌊y⌋) := by
  unfold rhe
  split_ifs with h1 h2 h3
  · exact Or.inl ⟨rfl, h1.le⟩
  · exact Or.inr ⟨rfl, h2.le⟩
  · exact Or.inl ⟨rfl, not_lt.1 h2⟩
  · exact Or.inr ⟨rfl, not_lt.1 h1⟩

theorem rhe_intCast (n : ℤ) : rhe (n : ℚ) = n := by
  unfold rhe
  rw [Int.floor_intCast]
  simp

theorem rhe_mono {y1 y2 : ℚ} (h : y1 ≤ y2) : rhe y1 ≤ rhe y2 := by
  have hf : ⌊y1⌋ ≤ ⌊y2⌋ := Int.floor_mono h
  rcases hf.lt_or_eq with hlt | heq
  · have := (rhe_bounds y1).2
    have := (rhe_bounds y2).1
    omega
  · rcases rhe_eq_floor_or y1 with ⟨e1, d1⟩ | ⟨e1, d1⟩
    · have := (rhe_bounds y2).1
      omega
    · rcases rhe_eq_floor_or y2 with ⟨e2, d2⟩ | ⟨e2, d2⟩
      · have hy : y1 = y2 := by
          rw [heq] at d1
          linarith
        rw [hy]
      · omega

theorem rhe_nonneg {y : ℚ} (h : 0 ≤ y) : 0 ≤ rhe y := by
  have := rhe_mono h
  rwa [show (0 : ℚ) = ((0 : ℤ) : ℚ) by simp, rhe_intCast] at this

theorem two_zpow_pos (k : ℤ) : (0 : ℚ) < 2 ^ k := zpow_pos (by norm_num) k

/-- The bounds on `x > 0` that the logarithm gives, with base `2 : ℚ`. -/
theorem log_bounds {x : ℚ} (hx : 0 < x) :
    (2 : ℚ) ^ Int.log 2 x ≤ x ∧ x < (2 : ℚ) ^ (Int.log 2 x + 1) := by
  have h1 := Int.zpow_log_le_self (b := 2) (r := x) (by norm_num) hx
  have h2 := Int.lt_zpow_succ_log_self (b := 2) (by norm_num) x
  simp only [Nat.cast_ofNat] at h1 h2
  exact ⟨h1, h2⟩

theorem log_lt_of_lt_zpow {x : ℚ} (hx : 0 < x) (k : ℤ) (h : x < (2 : ℚ) ^ k) :
    Int.log 2 x < k := by
  have := (Int.lt_zpow_iff_log_lt (b := 2) (by norm_num) (x := k) hx).1
    (by simpa only [Nat.cast_ofNat] using h)
  exact this

theorem rhe_two_pow (n : ℕ) : rhe ((2 : ℚ) ^ n) = 2 ^ n := by
  have : ((2 : ℚ) ^ n) = (((2 : ℤ) ^ n : ℤ) : ℚ) := by push_cast; rfl
  rw [this, rhe_intCast]

theorem quantum_ge_elow (f : Format) (x : ℚ) : f.elow ≤ f.quantum x := le_max_right _ _

theorem quantum_ge_log (f : Format) (x : ℚ) : Int.log 2 x - (f.prec - 1) ≤ f.quantum x :=
  le_max_left _ _

theorem quantum_mono (f : Format) {x y : ℚ} (hx : 0 < x) (h : x ≤ y) :
    f.quantum x ≤ f.quantum y := by
  unfold Format.quantum
  have := Int.log_mono_right (b := 2) hx h
  exact max_le_max (by omega) le_rfl

theorem rnabs_zero (f : Format) : f.rnabs 0 = 0 := by
  unfold Format.rnabs
  rw [zero_div, show (0 : ℚ) = ((0 : ℤ) : ℚ) by simp, rhe_intCast]
  simp

theorem rnabs_nonneg (f : Format) {x : ℚ} (hx : 0 ≤ x) : 0 ≤ f.rnabs x := by
  unfold Format.rnabs
  have h1 : (0 : ℚ) ≤ x / 2 ^ f.quantum x := div_nonneg hx (two_zpow_pos _).le
  have h2 : (0 : ℚ) ≤ (rhe (x / 2 ^ f.quantum x) : ℚ) := by exact_mod_cast rhe_nonneg h1
  exact mul_nonneg h2 (two_zpow_pos _).le

/-- The rounded magnitude stays below the next power of two. -/
theorem rnabs_le_zpow (f : Format) {x : ℚ} (hx : 0 < x) :
    f.rnabs x ≤ (2 : ℚ) ^ ((f.prec : ℤ) + f.quantum x) := by
  unfold Format.rnabs
  have hq := quantum_ge_log f x
  have hlt : x / 2 ^ f.quantum x ≤ (2 : ℚ) ^ f.prec := by
    rw [div_le_iff₀ (two_zpow_pos _)]
    have h1 := (log_bounds hx).2
    have h2 : (2 : ℚ) ^ (Int.log 2 x + 1) ≤ (2 : ℚ) ^ ((f.prec : ℤ) + f.quantum x) :=
      zpow_le_zpow_right₀ (by norm_num) (by omega)
    have e : (2 : ℚ) ^ ((f.prec : ℤ) + f.quantum x) = 2 ^ f.prec * 2 ^ f.quantum x := by
      rw [zpow_add₀ (by norm_num), zpow_natCast]
    rw [e] at h2
    linarith
  have h3 := rhe_mono hlt
  rw [rhe_two_pow] at h3
  have h4 : (rhe (x / 2 ^ f.quantum x) : ℚ) ≤ (2 : ℚ) ^ f.prec := by exact_mod_cast h3
  rw [zpow_add₀ (by norm_num), zpow_natCast]
  exact mul_le_mul_of_nonneg_right h4 (two_zpow_pos _).le

/-- Above the subnormal range the rounded magnitude is at least the power of two below. -/
theorem zpow_le_rnabs (f : Format) (hp : 1 ≤ f.prec) {y : ℚ} (hy : 0 < y)
    (hq : f.quantum y = Int.log 2 y - (f.prec - 1)) :
    (2 : ℚ) ^ ((f.prec : ℤ) - 1 + f.quantum y) ≤ f.rnabs y := by
  unfold Format.rnabs
  have hge : (2 : ℚ) ^ (f.prec - 1) ≤ y / 2 ^ f.quantum y := by
    rw [le_div_iff₀ (two_zpow_pos _)]
    have h1 := (log_bounds hy).1
    have h2 : (2 : ℚ) ^ (f.prec - 1) * 2 ^ f.quantum y = (2 : ℚ) ^ Int.log 2 y := by
      rw [← zpow_natCast, ← zpow_add₀ (by norm_num)]
      congr 1
      rw [hq, Nat.cast_sub hp]
      push_cast
      ring
    rw [h2]
    exact h1
  have h3 := rhe_mono hge
  rw [rhe_two_pow] at h3
  have h4 : (2 : ℚ) ^ (f.prec - 1) ≤ (rhe (y / 2 ^ f.quantum y) : ℚ) := by exact_mod_cast h3
  have h5 : (2 : ℚ) ^ ((f.prec : ℤ) - 1 + f.quantum y)
      = (2 : ℚ) ^ (f.prec - 1) * 2 ^ f.quantum y := by
    rw [← zpow_natCast, ← zpow_add₀ (by norm_num)]
    congr 1
    rw [Nat.cast_sub hp]
    push_cast
    ring
  rw [h5]
  exact mul_le_mul_of_nonneg_right h4 (two_zpow_pos _).le

theorem rnabs_mono (f : Format) (hp : 1 ≤ f.prec) {x y : ℚ} (hx : 0 ≤ x) (h : x ≤ y) :
    f.rnabs x ≤ f.rnabs y := by
  rcases hx.eq_or_lt with e | hx'
  · rw [← e, rnabs_zero]
    exact rnabs_nonneg f (hx.trans h)
  have hy : 0 < y := lt_of_lt_of_le hx' h
  rcases (quantum_mono f hx' h).eq_or_lt with he | hlt
  · unfold Format.rnabs
    rw [he]
    have h1 : x / 2 ^ f.quantum y ≤ y / 2 ^ f.quantum y :=
      div_le_div_of_nonneg_right h (two_zpow_pos _).le
    have h2 : (rhe (x / 2 ^ f.quantum y) : ℚ) ≤ (rhe (y / 2 ^ f.quantum y) : ℚ) := by
      exact_mod_cast rhe_mono h1
    exact mul_le_mul_of_nonneg_right h2 (two_zpow_pos _).le
  · have hq : f.quantum y = Int.log 2 y - (f.prec - 1) := by
      have h1 := quantum_ge_elow f x
      unfold Format.quantum at hlt ⊢
      rcases max_cases (Int.log 2 y - ((f.prec : ℤ) - 1)) f.elow with ⟨e, _⟩ | ⟨e, _⟩
      · exact e
      · rw [e] at hlt
        unfold Format.quantum at h1
        omega
    have h1 := rnabs_le_zpow f hx'
    have h2 := zpow_le_rnabs f hp hy hq
    have h3 : (2 : ℚ) ^ ((f.prec : ℤ) + f.quantum x)
        ≤ (2 : ℚ) ^ ((f.prec : ℤ) - 1 + f.quantum y) :=
      zpow_le_zpow_right₀ (by norm_num) (by omega)
    linarith

theorem rhe_quantum_le (f : Format) {x : ℚ} (hx : 0 < x) :
    rhe (x / 2 ^ f.quantum x) ≤ 2 ^ f.prec := by
  have hq := quantum_ge_log f x
  have hlt : x / 2 ^ f.quantum x ≤ (2 : ℚ) ^ f.prec := by
    rw [div_le_iff₀ (two_zpow_pos _)]
    have h1 := (log_bounds hx).2
    have h2 : (2 : ℚ) ^ (Int.log 2 x + 1) ≤ (2 : ℚ) ^ ((f.prec : ℤ) + f.quantum x) :=
      zpow_le_zpow_right₀ (by norm_num) (by omega)
    have e : (2 : ℚ) ^ ((f.prec : ℤ) + f.quantum x) = 2 ^ f.prec * 2 ^ f.quantum x := by
      rw [zpow_add₀ (by norm_num), zpow_natCast]
    rw [e] at h2
    linarith
  have h3 := rhe_mono hlt
  rwa [rhe_two_pow] at h3

theorem grid_zero (f : Format) : f.Grid 0 :=
  ⟨0, f.elow, le_rfl, by simp, by simp⟩

theorem grid_neg (f : Format) {r : ℚ} (h : f.Grid r) : f.Grid (-r) := by
  obtain ⟨n, e, h1, h2, h3⟩ := h
  exact ⟨-n, e, h1, by rwa [abs_neg], by rw [h3]; push_cast; ring⟩

theorem grid_double (f : Format) {r : ℚ} (h : f.Grid r) : f.Grid (2 * r) := by
  obtain ⟨n, e, h1, h2, h3⟩ := h
  refine ⟨n, e + 1, by omega, h2, ?_⟩
  rw [h3, zpow_add₀ (by norm_num), zpow_one]
  ring

theorem grid_intCast (f : Format) (hf : f.Valid) (n : ℤ) (h : |n| < 2 ^ f.prec) :
    f.Grid (n : ℚ) := by
  refine ⟨n, 0, ?_, h, by simp⟩
  unfold Format.elow
  have := hf.1
  have := hf.2
  omega

/-- Rounding a magnitude gives a value of the grid. -/
theorem grid_rnabs (f : Format) (hp : 1 ≤ f.prec) {x : ℚ} (hx : 0 ≤ x) : f.Grid (f.rnabs x) := by
  rcases hx.eq_or_lt with e | hx'
  · rw [← e, rnabs_zero]
    exact grid_zero f
  have h0 : 0 ≤ rhe (x / 2 ^ f.quantum x) :=
    rhe_nonneg (div_nonneg hx (two_zpow_pos _).le)
  rcases (rhe_quantum_le f hx').lt_or_eq with hlt | heq
  · exact ⟨_, _, quantum_ge_elow f x, by rwa [abs_of_nonneg h0], rfl⟩
  · refine ⟨2 ^ (f.prec - 1), f.quantum x + 1, by have := quantum_ge_elow f x; omega, ?_, ?_⟩
    · rw [abs_of_nonneg (by positivity)]
      exact pow_lt_pow_right₀ (by norm_num) (by omega)
    · unfold Format.rnabs
      rw [heq, zpow_add₀ (by norm_num), zpow_one]
      push_cast
      have : (2 : ℚ) ^ f.prec = 2 ^ (f.prec - 1) * 2 := by
        rw [← pow_succ]
        congr 1
        omega
      rw [this]
      ring

/-- A nonnegative value of the grid is its own rounding. -/
theorem rnabs_of_grid (f : Format) {r : ℚ} (hr : 0 ≤ r) (h : f.Grid r) : f.rnabs r = r := by
  obtain ⟨n, e, h1, h2, h3⟩ := h
  have hn : 0 ≤ n := by
    by_contra hneg
    have : (n : ℚ) < 0 := by exact_mod_cast (not_le.1 hneg)
    have := mul_neg_of_neg_of_pos this (two_zpow_pos e)
    linarith
  rcases hn.eq_or_lt with e0 | hpos
  · rw [h3, ← e0]
    simp [rnabs_zero]
  rw [abs_of_nonneg hn] at h2
  have hrpos : 0 < r := by
    rw [h3]
    exact mul_pos (by exact_mod_cast hpos) (two_zpow_pos e)
  have hlt : r < (2 : ℚ) ^ ((f.prec : ℤ) + e) := by
    rw [h3, zpow_add₀ (by norm_num), zpow_natCast]
    have : (n : ℚ) < 2 ^ f.prec := by exact_mod_cast h2
    exact mul_lt_mul_of_pos_right this (two_zpow_pos e)
  have hlog := log_lt_of_lt_zpow hrpos _ hlt
  have hq : f.quantum r ≤ e := by
    unfold Format.quantum
    exact max_le (by omega) h1
  unfold Format.rnabs
  generalize f.quantum r = q at hq ⊢
  obtain ⟨k, hk⟩ : ∃ k : ℕ, e = q + k :=
    ⟨(e - q).toNat, by rw [Int.toNat_of_nonneg (by omega)]; ring⟩
  have hdiv : r / 2 ^ q = ((n * 2 ^ k : ℤ) : ℚ) := by
    rw [div_eq_iff (two_zpow_pos _).ne', h3, hk, zpow_add₀ (by norm_num), zpow_natCast]
    push_cast
    ring
  rw [hdiv, rhe_intCast, h3, hk, zpow_add₀ (by norm_num : (2 : ℚ) ≠ 0), zpow_natCast]
  push_cast
  ring

/-! ## Laws of the rounded operations -/

theorem fle_val_val (a b : ℚ) : fle (FVal.val a) (FVal.val b) = true ↔ a ≤ b := by
  simp [fle, flt, feq, le_iff_lt_or_eq]

theorem round_ne_nan (f : Format) (x : ℚ) : f.round x ≠ FVal.nan := by
  unfold Format.round
  split_ifs <;> simp

theorem round_of_nonneg (f : Format) {x : ℚ} (hx : 0 ≤ x) :
    f.round x = if f.maxval < f.rnabs x then FVal.pinf else FVal.val (f.rnabs x) := by
  unfold Format.round
  rw [if_pos hx]

theorem round_of_neg (f : Format) {x : ℚ} (hx : x < 0) :
    f.round x = if f.maxval < f.rnabs (-x) then FVal.ninf else FVal.val (-f.rnabs (-x)) := by
  unfold Format.round
  rw [if_neg (not_le.2 hx)]

/-- Rounding is monotone. -/
theorem round_mono (f : Format) (hp : 1 ≤ f.prec) {x y : ℚ} (h : x ≤ y) :
    fle (f.round x) (f.round y) = true := by
  by_cases hx : 0 ≤ x
  · have hy : 0 ≤ y := hx.trans h
    have hm := rnabs_mono f hp hx h
    rw [round_of_nonneg f hx, round_of_nonneg f hy]
    split_ifs with h1 h2 h2
    · rfl
    · exact absurd (lt_of_lt_of_le h1 hm) h2
    · rfl
    · exact (fle_val_val _ _).2 hm
  · have hx' : x < 0 := not_le.1 hx
    have hrx := rnabs_nonneg f (neg_nonneg.2 hx'.le)
    rw [round_of_neg f hx']
    by_cases hy : 0 ≤ y
    · have hry := rnabs_nonneg f hy
      rw [round_of_nonneg f hy]
      split_ifs
      · rfl
      · rfl
      · rfl
      · exact (fle_val_val _ _).2 (by linarith)
    · have hy' : y < 0 := not_le.1 hy
      have hm := rnabs_mono f hp (neg_nonneg.2 hy'.le) (neg_le_neg h)
      rw [round_of_neg f hy']
      split_ifs with h1 h2 h2
      · rfl
      · rfl
      · exact absurd (lt_of_lt_of_le h2 hm) h1
      · exact (fle_val_val _ _).2 (by linarith)

theorem maxval_ge_two (f : Format) (hf : f.Valid) : 2 ≤ f.maxval := by
  obtain ⟨hp, he⟩ := hf
  unfold Format.maxval
  have h1 : (2 : ℚ) ^ (f.prec - 1) ≤ 2 ^ f.prec - 1 := by
    have : (2 : ℚ) ^ f.prec = 2 ^ (f.prec - 1) * 2 := by
      rw [← pow_succ]
      congr 1
      omega
    have h1' : (1 : ℚ) ≤ 2 ^ (f.prec - 1) := one_le_pow₀ (by norm_num)
    rw [this]
    linarith
  have h2 : (2 : ℚ) ^ (f.prec - 1) * 2 ^ (f.emax - f.prec + 1) = 2 ^ f.emax := by
    rw [← zpow_natCast, ← zpow_add₀ (by norm_num)]
    congr 1
    rw [Nat.cast_sub hp]
    push_cast
    ring
  have h3 : (2 : ℚ) ^ (1 : ℤ) ≤ 2 ^ f.emax := zpow_le_zpow_right₀ (by norm_num) he
  rw [zpow_one] at h3
  calc (2 : ℚ) ≤ 2 ^ f.emax := h3
    _ = 2 ^ (f.prec - 1) * 2 ^ (f.emax - f.prec + 1) := h2.symm
    _ ≤ (2 ^ f.prec - 1) * 2 ^ (f.emax - f.prec + 1) :=
      mul_le_mul_of_nonneg_right h1 (two_zpow_pos _).le

/-- A value of the grid within the finite range is rounded to itself. -/
theorem round_of_grid (f : Format) {r : ℚ} (h : f.Grid r) (hb : |r| ≤ f.maxval) :
    f.round r = FVal.val r := by
  by_cases hr : 0 ≤ r
  · rw [round_of_nonneg f hr, rnabs_of_grid f hr h, if_neg (not_lt.2 ((le_abs_self r).trans hb))]
  · have hr' : r < 0 := not_le.1 hr
    rw [round_of_neg f hr', rnabs_of_grid f (neg_nonneg.2 hr'.le) (grid_neg f h),
      if_neg (not_lt.2 ((neg_le_abs r).trans hb)), neg_neg]

/-- A finite result of rounding is a value of the grid within the finite range. -/
theorem round_eq_val (f : Format) (hp : 1 ≤ f.prec) {x r : ℚ} (h : f.round x = FVal.val r) :
    f.Grid r ∧ |r| ≤ f.maxval := by
  by_cases hx : 0 ≤ x
  · rw [round_of_nonneg f hx] at h
    split_ifs at h with h1
    cases h
    exact ⟨grid_rnabs f hp hx, by rw [abs_of_nonneg (rnabs_nonneg f hx)]; exact not_lt.1 h1⟩
  · have hx' : x < 0 := not_le.1 hx
    rw [round_of_neg f hx'] at h
    split_ifs at h with h1
    cases h
    have hn := rnabs_nonneg f (neg_nonneg.2 hx'.le)
    exact ⟨grid_neg f (grid_rnabs f hp (neg_nonneg.2 hx'.le)),
      by rw [abs_neg, abs_of_nonneg hn]; exact not_lt.1 h1⟩

theorem round_idem (f : Format) (hp : 1 ≤ f.prec) {x r : ℚ} (h : f.round x = FVal.val r) :
    f.round r = FVal.val r := by
  obtain ⟨h1, h2⟩ := round_eq_val f hp h
  exact round_of_grid f h1 h2

theorem round_zero (f : Format) : f.round 0 = FVal.val 0 := by
  rw [round_of_nonneg f le_rfl, rnabs_zero, if_neg]
  unfold Format.maxval
  have h1 : (1 : ℚ) ≤ 2 ^ f.prec := one_le_pow₀ (by norm_num)
  exact not_lt.2 (mul_nonneg (by linarith) (two_zpow_pos _).le)

theorem round_one (f : Format) (hf : f.Valid) : f.round 1 = FVal.val 1 := by
  have hg : f.Grid ((1 : ℤ) : ℚ) := grid_intCast f hf 1 (by
    rw [abs_one]
    exact one_lt_pow₀ (by norm_num) (by have := hf.1; omega))
  rw [Int.cast_one] at hg
  exact round_of_grid f hg (by rw [abs_one]; linarith [maxval_ge_two f hf])

theorem rnabs_one (f : Format) (hf : f.Valid) : f.rnabs 1 = 1 := by
  have hg : f.Grid ((1 : ℤ) : ℚ) := grid_intCast f hf 1 (by
    rw [abs_one]
    exact one_lt_pow₀ (by norm_num) (by have := hf.1; omega))
  rw [Int.cast_one] at hg
  exact rnabs_of_grid f zero_le_one hg

/-- Rounding a nonnegative number gives a nonnegative value or `+inf`. -/
theorem round_nonneg (f : Format) {x : ℚ} (hx : 0 ≤ x) :
    f.round x = FVal.pinf ∨ ∃ r, f.round x = FVal.val r ∧ 0 ≤ r := by
  rw [round_of_nonneg f hx]
  split_ifs
  · exact Or.inl rfl
  · exact Or.inr ⟨_, rfl, rnabs_nonneg f hx⟩

/-- Rounding a number that is at least 1 gives a value that is at least 1, or `+inf`. -/
theorem round_ge_one (f : Format) (hf : f.Valid) {x : ℚ} (hx : 1 ≤ x) :
    f.round x = FVal.pinf ∨ ∃ r, f.round x = FVal.val r ∧ 1 ≤ r := by
  have h0 : (0 : ℚ) ≤ x := by linarith
  rw [round_of_nonneg f h0]
  split_ifs
  · exact Or.inl rfl
  · refine Or.inr ⟨_, rfl, ?_⟩
    have := rnabs_mono f hf.1 zero_le_one hx
    rwa [rnabs_one f hf] at this

/-- Rounding a number of `[0, 1]` gives a value of `[0, 1]`. -/
theorem round_unit (f : Format) (hf : f.Valid) {x : ℚ} (h0 : 0 ≤ x) (h1 : x ≤ 1) :
    ∃ r, f.round x = FVal.val r ∧ 0 ≤ r ∧ r ≤ 1 := by
  have hm := rnabs_mono f hf.1 h0 h1
  rw [rnabs_one f hf] at hm
  rw [round_of_nonneg f h0, if_neg (not_lt.2 (by linarith [maxval_ge_two f hf]))]
  exact ⟨_, rfl, rnabs_nonneg f h0, hm⟩

/-! ## The loops of the kernel in IEEE arithmetic -/

theorem areas_ieee_getElem? (f : Format) (dets : List Box) (j : Nat) (bj : Box) (h : dets[j]? = some bj) :
    (dets.map (area_ieee f))[j]? = some (area_ieee f bj) := by
  simp [List.getElem?_map, h]

/-- The inner loop stays inside its buffers and raises exactly the flags of the later-ranked
indices that pass the overlap test against box `i`. -/
theorem nms_inner_ieee_spec (f : Format) (dets : List Box) (order : List Nat) (threshold : ℚ) (i : Nat) (bi : Box)
    (hi : dets[i]? = some bi) (hord : ∀ o ∈ order, o < dets.length) :
    ∀ (n _j : Nat) (s : List Bool), _j + n = order.length → s.length = dets.length →
      ∃ s', nms_inner_ieee f dets (dets.map (area_ieee f)) order threshold bi (area_ieee f bi) n _j s = some s' ∧
        s'.length = dets.length ∧
        ∀ k, s'[k]? = some true ↔
          (s[k]? = some true ∨ (k ∈ order.drop _j ∧ suppresses_ieee f dets threshold i k = true)) := by
  intro n
  induction n with
  | zero =>
    intro _j s hj hs
    refine ⟨s, rfl, hs, fun k => ?_⟩
    have : order.drop _j = [] := List.drop_eq_nil_of_le (by omega)
    simp [this]
  | succ n ih =>
    intro _j s hj hs
    have hlt : _j < order.length := by omega
    have hdrop := List.drop_eq_getElem_cons hlt
    have hjN : order[_j] < dets.length := hord _ (List.getElem_mem hlt)
    have hjs : order[_j] < s.length := by omega
    obtain ⟨bj, hbj⟩ : ∃ bj, dets[order[_j]]? = some bj := ⟨_, List.getElem?_eq_getElem hjN⟩
    have hsupp : suppresses_ieee f dets threshold i order[_j] = fge (ovr_ieee f bi (area_ieee f bi) bj (area_ieee f bj)) threshold := by
      simp [suppresses_ieee, hi, hbj]
    rw [nms_inner_ieee, List.getElem?_eq_getElem hlt]
    simp only []
    rw [List.getElem?_eq_getElem hjs]
    cases hb : s[order[_j]] with
    | true =>
      simp only []
      obtain ⟨s', h1, h2, h3⟩ := ih (_j + 1) s (by omega) hs
      refine ⟨s', h1, h2, fun k => ?_⟩
      rw [h3 k, hdrop, List.mem_cons]
      constructor
      · rintro (h | ⟨h, h'⟩)
        · exact Or.inl h
        · exact Or.inr ⟨Or.inr h, h'⟩
      · rintro (h | ⟨h | h, h'⟩)
        · exact Or.inl h
        · left; rw [h, List.getElem?_eq_getElem hjs, hb]
        · exact Or.inr ⟨h, h'⟩
    | false =>
      simp only [hbj, areas_ieee_getElem? f dets _ bj hbj]
      by_cases hg : fge (ovr_ieee f bi (area_ieee f bi) bj (area_ieee f bj)) threshold = true
      · rw [if_pos hg]
        obtain ⟨s', h1, h2, h3⟩ := ih (_j + 1) (s.set order[_j] true) (by omega) (by simpa using hs)
        refine ⟨s', h1, h2, fun k => ?_⟩
        rw [h3 k, hdrop, List.mem_cons, List.getElem?_set]
        by_cases hk : order[_j] = k
        · subst hk
          simp [hjs, hsupp, hg]
        · simp [hk, Ne.symm hk]
      · rw [if_neg hg]
        obtain ⟨s', h1, h2, h3⟩ := ih (_j + 1) s (by omega) hs
        refine ⟨s', h1, h2, fun k => ?_⟩
        rw [h3 k, hdrop, List.mem_cons]
        by_cases hk : k = order[_j]
        · subst hk
          simp [hsupp, hg]
        · simp [hk]


/-- The outer loop stays inside its buffers; with `kept` the indices kept among the ranks
already visited, the final flags are raised exactly off the greedy selection. -/
theorem nms_outer_ieee_spec (f : Format) (dets : List Box) (order : List Nat) (threshold : ℚ)
    (hord : ∀ o ∈ order, o < dets.length) (hnd : order.Nodup)
    (hlen : order.length = dets.length) :
    ∀ (n _i : Nat) (s : List Bool) (kept : List Nat), _i + n = order.length →
      s.length = dets.length →
      (∀ k ∈ kept, k ∈ order.take _i) →
      (∀ k ∈ order.take _i, (s[k]? = some true ↔ k ∉ kept)) →
      (∀ k ∈ order.drop _i,
        (s[k]? = some true ↔ ∃ i ∈ kept, suppresses_ieee f dets threshold i k = true)) →
      ∃ s', nms_outer_ieee f dets (dets.map (area_ieee f)) order threshold dets.length n _i s = some s' ∧
        s'.length = dets.length ∧
        ∀ k ∈ order, (s'[k]? = some true ↔
          k ∉ greedy_keep (suppresses_ieee f dets threshold) kept (order.drop _i)) := by
  intro n
  induction n with
  | zero =>
    intro _i s kept hi hs hk ht _
    have h1 : order.drop _i = [] := List.drop_eq_nil_of_le (by omega)
    have h2 : order.take _i = order := List.take_of_length_le (by omega)
    rw [h2] at ht
    refine ⟨s, rfl, hs, fun k hk => ?_⟩
    rw [h1]
    exact ht k hk
  | succ n ih =>
    intro _i s kept hi hs hk ht hd
    have hlt : _i < order.length := by omega
    obtain ⟨hdrop, htake, ho1, ho2, hdisj⟩ := order_split order _i hlt hnd
    have hoN : order[_i] < dets.length := hord _ (List.getElem_mem hlt)
    have hos : order[_i] < s.length := by omega
    obtain ⟨bi, hbi⟩ : ∃ bi, dets[order[_i]]? = some bi := ⟨_, List.getElem?_eq_getElem hoN⟩
    have hokept : order[_i] ∉ kept := fun h => ho1 (hk _ h)
    have hdo := hd order[_i] (by rw [hdrop]; exact List.mem_cons_self _ _)
    rw [nms_outer_ieee, List.getElem?_eq_getElem hlt]
    simp only []
    rw [List.getElem?_eq_getElem hos] at hdo ⊢
    cases hb : s[order[_i]] with
    | true =>
      simp only []
      rw [hb] at hdo
      have hany : kept.any (fun i => suppresses_ieee f dets threshold i order[_i]) = true := by
        rw [List.any_eq_true]; exact hdo.1 rfl
      obtain ⟨s', h1, h2, h3⟩ := ih (_i + 1) s kept (by omega) hs
        (fun k h => (htake k).2 (Or.inl (hk k h)))
        (fun k h => by
          rcases (htake k).1 h with h | h
          · exact ht k h
          · subst h
            rw [List.getElem?_eq_getElem hos, hb]
            simp [hokept])
        (fun k h => hd k (by rw [hdrop]; exact List.mem_cons_of_mem _ h))
      refine ⟨s', h1, h2, fun k hk' => ?_⟩
      rw [h3 k hk', hdrop, greedy_keep, if_pos hany]
    | false =>
      rw [hb] at hdo
      have hany : ¬ kept.any (fun i => suppresses_ieee f dets threshold i order[_i]) = true := by
        rw [List.any_eq_true]; intro h; simpa using hdo.2 h
      simp only [hbi, areas_ieee_getElem? f dets _ bi hbi]
      obtain ⟨s1, e1, l1, p1⟩ := nms_inner_ieee_spec f dets order threshold order[_i] bi hbi hord
        (dets.length - (_i + 1)) (_i + 1) s (by omega) hs
      rw [e1]
      simp only []
      obtain ⟨s', h1, h2, h3⟩ := ih (_i + 1) s1 (kept ++ [order[_i]]) (by omega) l1
        (fun k h => by
          rw [List.mem_append, List.mem_singleton] at h
          exact (htake k).2 (h.imp (hk k) id))
        (fun k h => by
          rw [p1 k, List.mem_append, List.mem_singleton]
          rcases (htake k).1 h with h | h
          · have := hdisj k h
            have hne : k ≠ order[_i] := fun e => ho1 (e ▸ h)
            simp [this, ht k h, hne]
          · subst h
            rw [List.getElem?_eq_getElem hos, hb]
            simp [ho2])
        (fun k h => by
          rw [p1 k, hd k (by rw [hdrop]; exact List.mem_cons_of_mem _ h)]
          simp [h, or_and_right, exists_or])
      refine ⟨s', h1, h2, fun k hk' => ?_⟩
      rw [h3 k hk', hdrop, greedy_keep, if_neg hany]


/-- With as many scores as boxes the greedy loop terminates inside its buffers, and the flag
of an index is raised exactly when the greedy selection over the rank order drops it. -/
theorem nms_flags_ieee_spec (f : Format) (dets : List Box) (scores : List ℚ) (threshold : ℚ)
    (hlen : dets.length = scores.length) :
    ∃ s, nms_flags_ieee f dets scores threshold = some s ∧ s.length = dets.length ∧
      ∀ k, k < dets.length → (s[k]? = some true ↔
        k ∉ greedy_keep (suppresses_ieee f dets threshold) [] (sort_descending scores)) := by
  have hmem := mem_sort_descending scores
  obtain ⟨s, h1, h2, h3⟩ := nms_outer_ieee_spec f dets (sort_descending scores) threshold
    (fun o ho => by rw [hlen]; exact (hmem o).1 ho) (sort_descending_nodup scores)
    (by rw [sort_descending_length, hlen]) dets.length 0 (List.replicate dets.length false) []
    (by rw [sort_descending_length, hlen]; simp) (by simp) (by simp) (by simp)
    (fun k _ => by simp [List.getElem?_replicate])
  refine ⟨s, h1, h2, fun k hk => ?_⟩
  have := h3 k ((hmem k).2 (hlen ▸ hk))
  simpa using this


/-- With as many scores as boxes, `nms_cpu_kernel_ieee` returns, in ascending order, the indices
that the greedy selection over the rank order keeps. -/
theorem nms_cpu_kernel_ieee_eq (f : Format) (dets : List Box) (scores : List ℚ) (threshold : ℚ)
    (hlen : dets.length = scores.length) :
    nms_cpu_kernel_ieee f dets scores threshold =
      some ((List.range dets.length).filter (fun k =>
        decide (k ∈ greedy_keep (suppresses_ieee f dets threshold) [] (sort_descending scores)))) := by
  unfold nms_cpu_kernel_ieee
  split
  · next h0 => simp [h0]
  · obtain ⟨s, h1, h2, h3⟩ := nms_flags_ieee_spec f dets scores threshold hlen
    rw [h1]
    simp only []
    rw [nonzero_eq_zero_eq s (fun k =>
      decide (k ∈ greedy_keep (suppresses_ieee f dets threshold) [] (sort_descending scores)))
      (fun k hk => by rw [h3 k (h2 ▸ hk), decide_eq_false_iff_not]), h2]


/-- The kernel on two boxes: the second-ranked box is dropped exactly when the overlap test
of the first-ranked box against it succeeds. -/
theorem nms_cpu_kernel_ieee_two (f : Format) (b0 b1 : Box) (s0 s1 threshold : ℚ) :
    nms_cpu_kernel_ieee f [b0, b1] [s0, s1] threshold =
      some (if s1 ≤ s0 then
          (if fge (ovr_ieee f b0 (area_ieee f b0) b1 (area_ieee f b1)) threshold then [0] else [0, 1])
        else (if fge (ovr_ieee f b1 (area_ieee f b1) b0 (area_ieee f b0)) threshold then [1] else [0, 1])) := by
  rw [nms_cpu_kernel_ieee_eq f _ _ _ rfl, sort_descending_two]
  by_cases h : s1 ≤ s0
  · rw [if_pos h, if_pos h]
    by_cases g : fge (ovr_ieee f b0 (area_ieee f b0) b1 (area_ieee f b1)) threshold = true
    · simp [greedy_keep, suppresses_ieee, g, List.range, List.range.loop]
    · simp [greedy_keep, suppresses_ieee, g, List.range, List.range.loop]
  · rw [if_neg h, if_neg h]
    by_cases g : fge (ovr_ieee f b1 (area_ieee f b1) b0 (area_ieee f b0)) threshold = true
    · simp [greedy_keep, suppresses_ieee, g, List.range, List.range.loop]
    · simp [greedy_keep, suppresses_ieee, g, List.range, List.range.loop]


/-- When no test between different valid indices succeeds, the kernel returns every index. -/
theorem nms_cpu_kernel_ieee_all_kept (f : Format) (dets : List Box) (scores : List ℚ) (threshold : ℚ)
    (hlen : dets.length = scores.length)
    (h : ∀ a b, a < dets.length → b < dets.length → a ≠ b →
      suppresses_ieee f dets threshold a b = false) :
    nms_cpu_kernel_ieee f dets scores threshold = some (List.range dets.length) := by
  have hall := greedy_keep_all (suppresses_ieee f dets threshold) (sort_descending scores) []
    (by rw [List.nil_append]; exact sort_descending_nodup scores)
    (fun a ha b hb hne => by
      have ha' : a < dets.length := by
        rcases ha with ha | ha
        · cases ha
        · rw [mem_sort_descending] at ha; omega
      have hb' : b < dets.length := by
        rw [mem_sort_descending] at hb; omega
      exact h a b ha' hb' hne)
  rw [nms_cpu_kernel_ieee_eq f dets scores threshold hlen, hall, List.nil_append]
  congr 1
  rw [List.filter_eq_self]
  intro k hk
  rw [List.mem_range] at hk
  rw [decide_eq_true_iff, mem_sort_descending]
  omega

/-! ## Widths, areas and intersections in IEEE arithmetic -/

theorem fmax_val (a b : ℚ) : fmax (FVal.val a) (FVal.val b) = FVal.val (max a b) := by
  unfold fmax flt
  by_cases h : a < b
  · simp [h, max_eq_right h.le]
  · simp [h, max_eq_left (not_lt.1 h)]

theorem fmin_val (a b : ℚ) : fmin (FVal.val a) (FVal.val b) = FVal.val (min a b) := by
  unfold fmin flt
  by_cases h : b < a
  · simp [h, min_eq_right h.le]
  · simp [h, min_eq_left (not_lt.1 h)]

theorem fle_pinf (v : FVal) (h : v ≠ FVal.nan) : fle v FVal.pinf = true := by
  cases v <;> simp [fle, flt, feq] at h ⊢

theorem fle_pinf_left (v : FVal) (h : fle FVal.pinf v = true) : v = FVal.pinf := by
  cases v <;> simp [fle, flt, feq] at h ⊢

theorem geOne_nonneg {v : FVal} (h : v.GeOne) : v.Nonneg := by
  rcases h with h | ⟨r, h, hr⟩
  · exact Or.inl h
  · exact Or.inr ⟨r, h, by linarith⟩

theorem sub_val (f : Format) (a b : ℚ) : f.sub (FVal.val a) (FVal.val b) = f.round (a - b) := rfl

theorem add_val (f : Format) (a b : ℚ) : f.add (FVal.val a) (FVal.val b) = f.round (a + b) := rfl

theorem mul_val (f : Format) (a b : ℚ) : f.mul (FVal.val a) (FVal.val b) = f.round (a * b) := rfl

/-- The width `x2 - x1 + 1` of a box with `x1 <= x2` is at least 1 or `+inf`. -/
theorem width_geOne (f : Format) (hf : f.Valid) {a b : ℚ} (h : a ≤ b) :
    (f.add (f.sub (FVal.val b) (FVal.val a)) (FVal.val 1)).GeOne := by
  rw [sub_val]
  rcases round_nonneg f (sub_nonneg.2 h) with e | ⟨d, e, hd⟩
  · rw [e]
    exact Or.inl rfl
  · rw [e, add_val]
    exact round_ge_one f hf (by linarith)

theorem mul_geOne (f : Format) (hf : f.Valid) {u v : FVal} (hu : u.GeOne) (hv : v.GeOne) :
    (f.mul u v).GeOne := by
  rcases hu with rfl | ⟨p, rfl, hp⟩ <;> rcases hv with rfl | ⟨q, rfl, hq⟩
  · exact Or.inl rfl
  · have h0 : q ≠ 0 := by linarith
    have h1 : (0 : ℚ) < q := by linarith
    exact Or.inl (by simp [Format.mul, h0, h1])
  · have h0 : p ≠ 0 := by linarith
    have h1 : (0 : ℚ) < p := by linarith
    exact Or.inl (by simp [Format.mul, h0, h1])
  · rw [mul_val]
    exact round_ge_one f hf (one_le_mul_of_one_le_of_one_le hp hq)

/-- A finite product of two values that are at least 1 is the rounded product of two
numbers. -/
theorem mul_eq_val (f : Format) {u v : FVal} (hu : u.GeOne) (hv : v.GeOne) {a : ℚ}
    (h : f.mul u v = FVal.val a) :
    ∃ p q, u = FVal.val p ∧ v = FVal.val q ∧ 1 ≤ p ∧ 1 ≤ q ∧ f.round (p * q) = FVal.val a := by
  rcases hu with rfl | ⟨p, rfl, hp⟩ <;> rcases hv with rfl | ⟨q, rfl, hq⟩
  · simp [Format.mul] at h
  · have h0 : q ≠ 0 := by linarith
    have h1 : (0 : ℚ) < q := by linarith
    simp [Format.mul, h0, h1] at h
  · have h0 : p ≠ 0 := by linarith
    have h1 : (0 : ℚ) < p := by linarith
    simp [Format.mul, h0, h1] at h
  · exact ⟨p, q, rfl, rfl, hp, hq, h⟩

theorem area_geOne (f : Format) (hf : f.Valid) (b : Box) (hx : b.x1 ≤ b.x2) (hy : b.y1 ≤ b.y2) :
    (area_ieee f b).GeOne :=
  mul_geOne f hf (width_geOne f hf hx) (width_geOne f hf hy)

theorem fmax_zero_geOne {v : FVal} (h : v.GeOne) : fmax (FVal.val 0) v = v := by
  rcases h with rfl | ⟨r, rfl, hr⟩
  · rfl
  · have : (0 : ℚ) < r := by linarith
    simp [fmax, flt, this]

/-- For a box with `x1 <= x2` and `y1 <= y2` the intersection with itself is its area. -/
theorem inter_ieee_self (f : Format) (hf : f.Valid) (b : Box) (hx : b.x1 ≤ b.x2)
    (hy : b.y1 ≤ b.y2) : inter_ieee f b b = area_ieee f b := by
  unfold inter_ieee area_ieee
  simp only [fmax_val, fmin_val, max_self, min_self]
  rw [fmax_zero_geOne (width_geOne f hf hx), fmax_zero_geOne (width_geOne f hf hy)]

theorem round_grid_cases (f : Format) {r : ℚ} (h : f.Grid r) :
    f.round r = FVal.val r ∨ f.round r = FVal.pinf ∨ f.round r = FVal.ninf := by
  by_cases hr : 0 ≤ r
  · rw [round_of_nonneg f hr, rnabs_of_grid f hr h]
    split_ifs
    · exact Or.inr (Or.inl rfl)
    · exact Or.inl rfl
  · have hr' : r < 0 := not_le.1 hr
    rw [round_of_neg f hr', rnabs_of_grid f (neg_nonneg.2 hr'.le) (grid_neg f h), neg_neg]
    split_ifs
    · exact Or.inr (Or.inr rfl)
    · exact Or.inl rfl

/-- Doubling a finite value of the format is exact when the result is finite. -/
theorem add_self_eq (f : Format) (hp : 1 ≤ f.prec) {x a s : ℚ} (ha : f.round x = FVal.val a)
    (hs : f.add (FVal.val a) (FVal.val a) = FVal.val s) : s = 2 * a := by
  have hg := grid_double f (round_eq_val f hp ha).1
  rw [add_val, ← two_mul] at hs
  rcases round_grid_cases f hg with e | e | e
  · rw [e] at hs
    cases hs
    rfl
  · rw [e] at hs
    cases hs
  · rw [e] at hs
    cases hs

/-- For a box with `x1 <= x2` and `y1 <= y2` whose area and doubled area are finite, the
ratio of the box with itself is exactly 1. -/
theorem ovr_ieee_self (f : Format) (hf : f.Valid) (b : Box) (hx : b.x1 ≤ b.x2)
    (hy : b.y1 ≤ b.y2) {a s : ℚ} (ha : area_ieee f b = FVal.val a)
    (hs : f.add (FVal.val a) (FVal.val a) = FVal.val s) :
    ovr_ieee f b (area_ieee f b) b (area_ieee f b) = FVal.val 1 := by
  have hge := area_geOne f hf b hx hy
  have ha1 : 1 ≤ a := by
    rcases hge with e | ⟨r, e, hr⟩
    · rw [ha] at e
      cases e
    · rw [ha] at e
      cases e
      exact hr
  obtain ⟨p, q, -, -, -, -, hpq⟩ :=
    mul_eq_val f (width_geOne f hf hx) (width_geOne f hf hy) ha
  have hs2 := add_self_eq f hf.1 hpq hs
  have hida := round_idem f hf.1 hpq
  unfold ovr_ieee
  rw [inter_ieee_self f hf b hx hy, ha, hs, sub_val, hs2,
    show 2 * a - a = a by ring, hida]
  have h0 : a ≠ 0 := by linarith
  simp only [Format.div, if_neg h0]
  rw [div_self h0, round_one f hf]

/-! ## Claims on identical and well-formed boxes, in IEEE arithmetic -/

theorem binary32_valid : binary32.Valid := by
  constructor <;> decide

theorem binary32_maxval : binary32.maxval = (2 ^ 24 - 1) * 2 ^ 104 := by
  unfold Format.maxval binary32
  norm_num

theorem binary32_round_int (n : ℤ) (h : |n| < 2 ^ 24) : binary32.round n = FVal.val n := by
  apply round_of_grid binary32 (grid_intCast binary32 binary32_valid n h)
  rw [binary32_maxval]
  have h1 : |(n : ℚ)| < 2 ^ 24 := by exact_mod_cast h
  linarith [show (2 : ℚ) ^ 24 ≤ (2 ^ 24 - 1) * 2 ^ 104 by norm_num]

theorem binary32_round_overflow {x : ℚ} (h : 2 ^ 128 ≤ x) : binary32.round x = FVal.pinf := by
  have hg : binary32.Grid (2 ^ 128) :=
    ⟨1, 128, by decide, by norm_num [binary32], by norm_num⟩
  have h1 : binary32.round (2 ^ 128) = FVal.pinf := by
    rw [round_of_nonneg binary32 (by norm_num), rnabs_of_grid binary32 (by norm_num) hg,
      binary32_maxval, if_pos (by norm_num)]
  have h2 := round_mono binary32 binary32_valid.1 h
  rw [h1] at h2
  exact fle_pinf_left _ h2

theorem binary32_round_eq (x : ℚ) (n : ℤ) (hx : x = n) (h : |n| < 2 ^ 24) :
    binary32.round x = FVal.val x := by
  rw [hx]
  exact binary32_round_int n h

/-- In `binary32` the area of the box `(0, 0, 2^70, 2^70)` overflows. -/
theorem area_ieee_overflow : area_ieee binary32 ⟨0, 0, 2 ^ 70, 2 ^ 70⟩ = FVal.pinf := by
  have hg : binary32.Grid (2 ^ 70) := ⟨1, 70, by decide, by norm_num [binary32], by norm_num⟩
  have h1 : binary32.round (2 ^ 70 - 0) = FVal.val (2 ^ 70) := by
    rw [sub_zero]
    apply round_of_grid binary32 hg
    rw [binary32_maxval]
    norm_num
  have h2 := round_mono binary32 binary32_valid.1
    (show (2 : ℚ) ^ 70 ≤ 2 ^ 70 + 1 by norm_num)
  rw [round_of_grid binary32 hg (by rw [binary32_maxval]; norm_num)] at h2
  have hw : binary32.add (binary32.sub (FVal.val (2 ^ 70)) (FVal.val 0)) (FVal.val 1)
      = FVal.pinf ∨ ∃ r, binary32.add (binary32.sub (FVal.val (2 ^ 70)) (FVal.val 0))
        (FVal.val 1) = FVal.val r ∧ 2 ^ 70 ≤ r := by
    rw [sub_val, h1, add_val]
    cases hr : binary32.round (2 ^ 70 + 1) with
    | val r =>
      rw [hr] at h2
      exact Or.inr ⟨r, rfl, (fle_val_val _ _).1 h2⟩
    | pinf => exact Or.inl rfl
    | ninf => rw [hr] at h2; simp [fle, flt, feq] at h2
    | nan => exact absurd hr (round_ne_nan _ _)
  unfold area_ieee
  rcases hw with e | ⟨r, e, hr⟩
  · rw [e]
    rfl
  · rw [e, mul_val]
    apply binary32_round_overflow
    have h0 : (0 : ℚ) ≤ 2 ^ 70 := by norm_num
    calc (2 : ℚ) ^ 128 ≤ 2 ^ 70 * 2 ^ 70 := by norm_num
      _ ≤ r * r := mul_le_mul hr hr h0 (h0.trans hr)

/-- In `binary32` the ratio of the box `(0, 0, 2^70, 2^70)` with itself is
`inf / (inf + inf - inf)`, which is `NaN`. -/
theorem ovr_ieee_huge :
    ovr_ieee binary32 ⟨0, 0, 2 ^ 70, 2 ^ 70⟩ (area_ieee binary32 ⟨0, 0, 2 ^ 70, 2 ^ 70⟩)
      ⟨0, 0, 2 ^ 70, 2 ^ 70⟩ (area_ieee binary32 ⟨0, 0, 2 ^ 70, 2 ^ 70⟩) = FVal.nan := by
  unfold ovr_ieee
  rw [inter_ieee_self binary32 binary32_valid _ (by norm_num) (by norm_num),
    area_ieee_overflow]
  rfl

/-- C3, as the claim states it, fails when the area overflows: in `binary32` the two
identical boxes `(0, 0, 2^70, 2^70)` have area `+inf`, the ratio is `inf / (inf + inf - inf)`,
which is `NaN`, and the kernel keeps both indices at scores 0.9 and 0.5 and threshold 0.5. -/
theorem nms_cpu_kernel_identical_boxes_overflow :
    ((0 : ℚ) ≤ 2 ^ 70 ∧ (9 / 10 : ℚ) ≠ 1 / 2 ∧ (1 / 2 : ℚ) ≤ 1) ∧
    area_ieee binary32 ⟨0, 0, 2 ^ 70, 2 ^ 70⟩ = FVal.pinf ∧
    ovr_ieee binary32 ⟨0, 0, 2 ^ 70, 2 ^ 70⟩ (area_ieee binary32 ⟨0, 0, 2 ^ 70, 2 ^ 70⟩)
      ⟨0, 0, 2 ^ 70, 2 ^ 70⟩ (area_ieee binary32 ⟨0, 0, 2 ^ 70, 2 ^ 70⟩) = FVal.nan ∧
    nms_cpu_kernel_ieee binary32 [⟨0, 0, 2 ^ 70, 2 ^ 70⟩, ⟨0, 0, 2 ^ 70, 2 ^ 70⟩] [9 / 10, 1 / 2]
      (1 / 2) = some [0, 1] := by
  refine ⟨by norm_num, area_ieee_overflow, ovr_ieee_huge, ?_⟩
  rw [nms_cpu_kernel_ieee_two, ovr_ieee_huge]
  norm_num [fge]

/-- C3 (amended): for two boxes with identical coordinates (`x1 <= x2`, `y1 <= y2`) whose
area and doubled area are finite in the floating-point format, different scores and a
threshold `<= 1`, the kernel returns exactly one index, that of the box with the higher
score. -/
theorem nms_cpu_kernel_ieee_identical_boxes (f : Format) (b : Box) (s0 s1 threshold a s : ℚ)
    (hf : f.Valid) (hx : b.x1 ≤ b.x2) (hy : b.y1 ≤ b.y2) (hs : s0 ≠ s1) (ht : threshold ≤ 1)
    (ha : area_ieee f b = FVal.val a)
    (hsum : f.add (FVal.val a) (FVal.val a) = FVal.val s) :
    nms_cpu_kernel_ieee f [b, b] [s0, s1] threshold = some [if s1 < s0 then 0 else 1] := by
  have hg : fge (ovr_ieee f b (area_ieee f b) b (area_ieee f b)) threshold = true := by
    rw [ovr_ieee_self f hf b hx hy ha hsum]
    simpa [fge] using ht
  rw [nms_cpu_kernel_ieee_two, hg]
  by_cases h : s1 ≤ s0
  · have h' : s1 < s0 := lt_of_le_of_ne h (Ne.symm hs)
    simp [h, h']
  · have h' : ¬ s1 < s0 := fun h' => h h'.le
    simp [h, h']

theorem area_ieee_ten : area_ieee binary32 ⟨0, 0, 10, 10⟩ = FVal.val 121 := by
  unfold area_ieee
  simp only [sub_val, add_val, mul_val]
  rw [binary32_round_eq (10 - 0) 10 (by norm_num) (by norm_num)]
  simp only [add_val, mul_val]
  rw [binary32_round_eq (10 - 0 + 1) 11 (by norm_num) (by norm_num)]
  simp only [mul_val]
  rw [binary32_round_eq ((10 - 0 + 1) * (10 - 0 + 1)) 121 (by norm_num) (by norm_num)]
  norm_num

theorem nms_cpu_kernel_ieee_identical_boxes_witness :
    (binary32.Valid ∧ (0 : ℚ) ≤ 10 ∧ (0 : ℚ) ≤ 10 ∧ (9 / 10 : ℚ) ≠ 1 / 2 ∧ (1 / 2 : ℚ) ≤ 1 ∧
      area_ieee binary32 ⟨0, 0, 10, 10⟩ = FVal.val 121 ∧
      binary32.add (FVal.val 121) (FVal.val 121) = FVal.val 242) ∧
    nms_cpu_kernel_ieee binary32 [⟨0, 0, 10, 10⟩, ⟨0, 0, 10, 10⟩] [9 / 10, 1 / 2] (1 / 2)
      = some [if (1 / 2 : ℚ) < 9 / 10 then 0 else 1] :=
  have hsum : binary32.add (FVal.val 121) (FVal.val 121) = FVal.val 242 := by
    rw [add_val, binary32_round_eq (121 + 121) 242 (by norm_num) (by norm_num)]
    norm_num
  ⟨⟨binary32_valid, by norm_num, by norm_num, by norm_num, by norm_num, area_ieee_ten, hsum⟩,
    nms_cpu_kernel_ieee_identical_boxes binary32 ⟨0, 0, 10, 10⟩ (9 / 10) (1 / 2) (1 / 2) 121 242
      binary32_valid (by norm_num) (by norm_num) (by norm_num) (by norm_num)
      area_ieee_ten hsum⟩

/-! ## Symmetry of the test and kept pairs, in IEEE arithmetic -/

theorem inter_ieee_comm (f : Format) (a b : Box) : inter_ieee f a b = inter_ieee f b a := by
  unfold inter_ieee
  simp only [fmax_val, fmin_val, max_comm a.x1, max_comm a.y1, min_comm a.x2, min_comm a.y2]

theorem add_comm_ieee (f : Format) (a b : FVal) : f.add a b = f.add b a := by
  cases a <;> cases b <;> simp [Format.add, add_comm]

theorem ovr_ieee_comm (f : Format) (a b : Box) :
    ovr_ieee f a (area_ieee f a) b (area_ieee f b)
      = ovr_ieee f b (area_ieee f b) a (area_ieee f a) := by
  unfold ovr_ieee
  rw [inter_ieee_comm f a b, add_comm_ieee f (area_ieee f a)]

theorem suppresses_ieee_comm (f : Format) (dets : List Box) (threshold : ℚ) (i j : Nat) :
    suppresses_ieee f dets threshold i j = suppresses_ieee f dets threshold j i := by
  unfold suppresses_ieee
  cases hi : dets[i]? <;> cases hj : dets[j]? <;> simp only []
  rw [ovr_ieee_comm]

/-- Membership in the result of the kernel, for as many scores as boxes. -/
theorem nms_cpu_kernel_ieee_mem (f : Format) (dets : List Box) (scores : List ℚ)
    (threshold : ℚ) (hlen : dets.length = scores.length) :
    ∃ res, nms_cpu_kernel_ieee f dets scores threshold = some res ∧
      ∀ k, k ∈ res ↔ (k < dets.length ∧
        k ∈ greedy_keep (suppresses_ieee f dets threshold) [] (sort_descending scores)) := by
  refine ⟨_, nms_cpu_kernel_ieee_eq f dets scores threshold hlen, fun k => ?_⟩
  rw [List.mem_filter, List.mem_range, decide_eq_true_iff]

/-- Two different indices that the greedy selection keeps do not pass the overlap test. -/
theorem kept_pair_not_suppressed_ieee (f : Format) (dets : List Box) (scores : List ℚ)
    (threshold : ℚ) (i j : Nat)
    (hi : i ∈ greedy_keep (suppresses_ieee f dets threshold) [] (sort_descending scores))
    (hj : j ∈ greedy_keep (suppresses_ieee f dets threshold) [] (sort_descending scores))
    (hne : i ≠ j) : suppresses_ieee f dets threshold i j = false := by
  have hp := greedy_keep_pairwise (suppresses_ieee f dets threshold) (sort_descending scores) []
    List.Pairwise.nil
  have hsymm : Symmetric (fun a b => suppresses_ieee f dets threshold a b = false) := by
    intro a b h
    rw [suppresses_ieee_comm]
    exact h
  exact hp.forall hsymm hi hj hne

/-! ## The range of the overlap ratio, in IEEE arithmetic -/

/-- A rounded value lies between the rounded bounds of its argument. -/
theorem round_between (f : Format) (hp : 1 ≤ f.prec) {x lo hi l h : ℚ}
    (hl : f.round lo = FVal.val l) (hh : f.round hi = FVal.val h) (h1 : lo ≤ x) (h2 : x ≤ hi) :
    ∃ r, f.round x = FVal.val r ∧ l ≤ r ∧ r ≤ h := by
  have m1 := round_mono f hp h1
  have m2 := round_mono f hp h2
  rw [hl] at m1
  rw [hh] at m2
  cases hx : f.round x with
  | nan => exact absurd hx (round_ne_nan _ _)
  | pinf => rw [hx] at m2; simp [fle, flt, feq] at m2
  | ninf => rw [hx] at m1; simp [fle, flt, feq] at m1
  | val r =>
    rw [hx] at m1 m2
    exact ⟨r, rfl, (fle_val_val _ _).1 m1, (fle_val_val _ _).1 m2⟩

/-- The clipped extent `max(0, c + 1)` of an intersection, where `c <= d` and `d >= 0` is the
extent of one of the two boxes whose width `d + 1` is finite: a number between 0 and that
width. -/
theorem clip_le (f : Format) (hf : f.Valid) {c d W : ℚ} (hcd : c ≤ d) (hd : 0 ≤ d)
    (hW : f.add (f.round d) (FVal.val 1) = FVal.val W) :
    ∃ w, fmax (FVal.val 0) (f.add (f.round c) (FVal.val 1)) = FVal.val w ∧ 0 ≤ w ∧ w ≤ W := by
  have hm := round_mono f hf.1 hcd
  rcases round_nonneg f hd with e | ⟨d', e, hd'⟩
  · rw [e] at hW
    cases hW
  · rw [e] at hW hm
    rw [add_val] at hW
    have hW1 : 1 ≤ W := by
      rcases round_ge_one f hf (show (1 : ℚ) ≤ d' + 1 by linarith) with e' | ⟨r, e', hr⟩
      · rw [e'] at hW
        cases hW
      · rw [e'] at hW
        cases hW
        exact hr
    cases hc : f.round c with
    | nan => exact absurd hc (round_ne_nan _ _)
    | pinf => rw [hc] at hm; simp [fle, flt, feq] at hm
    | ninf => exact ⟨0, by simp [Format.add, fmax, flt], le_rfl, by linarith⟩
    | val c' =>
      rw [hc] at hm
      have hc' : c' ≤ d' := (fle_val_val _ _).1 hm
      have hm2 := round_mono f hf.1 (show c' + 1 ≤ d' + 1 by linarith)
      rw [hW] at hm2
      rw [add_val]
      cases hu : f.round (c' + 1) with
      | nan => exact absurd hu (round_ne_nan _ _)
      | pinf => rw [hu] at hm2; simp [fle, flt, feq] at hm2
      | ninf => exact ⟨0, by simp [fmax, flt], le_rfl, by linarith⟩
      | val u =>
        rw [hu] at hm2
        have hu' : u ≤ W := (fle_val_val _ _).1 hm2
        exact ⟨max 0 u, fmax_val _ _, le_max_left _ _, max_le (by linarith) hu'⟩

/-- The two widths of a box with `x1 <= x2` and `y1 <= y2` whose area is finite. -/
theorem area_eq_val (f : Format) (hf : f.Valid) (b : Box) (hx : b.x1 ≤ b.x2) (hy : b.y1 ≤ b.y2)
    {a : ℚ} (ha : area_ieee f b = FVal.val a) :
    ∃ p q, f.add (f.round (b.x2 - b.x1)) (FVal.val 1) = FVal.val p ∧
      f.add (f.round (b.y2 - b.y1)) (FVal.val 1) = FVal.val q ∧
      1 ≤ p ∧ 1 ≤ q ∧ f.round (p * q) = FVal.val a ∧ 1 ≤ a := by
  obtain ⟨p, q, h1, h2, hp, hq, hpq⟩ :=
    mul_eq_val f (width_geOne f hf hx) (width_geOne f hf hy) ha
  refine ⟨p, q, h1, h2, hp, hq, hpq, ?_⟩
  rcases round_ge_one f hf (one_le_mul_of_one_le_of_one_le hp hq) with e | ⟨r, e, hr⟩
  · rw [e] at hpq
    cases hpq
  · rw [e] at hpq
    cases hpq
    exact hr

/-- The intersection with a box with `x1 <= x2` and `y1 <= y2` whose area is finite is a
value of the format between 0 and that area. -/
theorem inter_ieee_le (f : Format) (hf : f.Valid) (bi bj : Box) (hx : bi.x1 ≤ bi.x2)
    (hy : bi.y1 ≤ bi.y2) {a : ℚ} (ha : area_ieee f bi = FVal.val a) :
    ∃ i, inter_ieee f bi bj = FVal.val i ∧ 0 ≤ i ∧ i ≤ a ∧ f.round i = FVal.val i := by
  obtain ⟨p, q, h1, h2, hp, hq, hpq, -⟩ := area_eq_val f hf bi hx hy ha
  obtain ⟨w, hw, hw0, hwp⟩ := clip_le f hf
    (show min bi.x2 bj.x2 - max bi.x1 bj.x1 ≤ bi.x2 - bi.x1 by
      linarith [min_le_left bi.x2 bj.x2, le_max_left bi.x1 bj.x1])
    (sub_nonneg.2 hx) h1
  obtain ⟨h, hh, hh0, hhq⟩ := clip_le f hf
    (show min bi.y2 bj.y2 - max bi.y1 bj.y1 ≤ bi.y2 - bi.y1 by
      linarith [min_le_left bi.y2 bj.y2, le_max_left bi.y1 bj.y1])
    (sub_nonneg.2 hy) h2
  obtain ⟨i, hi, hi0, hia⟩ := round_between f hf.1 (round_zero f) hpq
    (mul_nonneg hw0 hh0) (mul_le_mul hwp hhq hh0 (hw0.trans hwp))
  refine ⟨i, ?_, hi0, hia, round_idem f hf.1 hi⟩
  unfold inter_ieee
  simp only [fmax_val, fmin_val, sub_val]
  rw [hw, hh, mul_val, hi]

/-- For two boxes with `x1 <= x2` and `y1 <= y2` whose areas and the sum of the areas are
finite, the denominator is a positive number and the ratio is a number in `[0, 1]`. -/
theorem ovr_ieee_finite (f : Format) (hf : f.Valid) (bi bj : Box) (hix : bi.x1 ≤ bi.x2)
    (hiy : bi.y1 ≤ bi.y2) (hjx : bj.x1 ≤ bj.x2) (hjy : bj.y1 ≤ bj.y2) {a b s : ℚ}
    (ha : area_ieee f bi = FVal.val a) (hb : area_ieee f bj = FVal.val b)
    (hs : f.add (FVal.val a) (FVal.val b) = FVal.val s) :
    ∃ d q, f.sub (f.add (area_ieee f bi) (area_ieee f bj)) (inter_ieee f bi bj) = FVal.val d ∧
      0 < d ∧ ovr_ieee f bi (area_ieee f bi) bj (area_ieee f bj) = FVal.val q ∧
      0 ≤ q ∧ q ≤ 1 := by
  obtain ⟨i, hi, hi0, hia, hri⟩ := inter_ieee_le f hf bi bj hix hiy ha
  obtain ⟨i', hi', -, hib, -⟩ := inter_ieee_le f hf bj bi hjx hjy hb
  rw [inter_ieee_comm, hi] at hi'
  cases hi'
  obtain ⟨-, -, -, -, -, -, -, ha1⟩ := area_eq_val f hf bi hix hiy ha
  rw [add_val] at hs
  have hs1 : 1 ≤ s := by
    rcases round_ge_one f hf (show (1 : ℚ) ≤ a + b by linarith) with e | ⟨r, e, hr⟩
    · rw [e] at hs
      cases hs
    · rw [e] at hs
      cases hs
      exact hr
  have h2i : 2 * i ≤ s := by
    have hm := round_mono f hf.1 (show 2 * i ≤ a + b by linarith)
    rw [hs] at hm
    rcases round_grid_cases f (grid_double f (round_eq_val f hf.1 hri).1) with e | e | e
    · rw [e] at hm
      exact (fle_val_val _ _).1 hm
    · rw [e] at hm
      simp [fle, flt, feq] at hm
    · rcases round_nonneg f (show (0 : ℚ) ≤ 2 * i by linarith) with e' | ⟨r, e', -⟩
      · rw [e] at e'
        cases e'
      · rw [e] at e'
        cases e'
  obtain ⟨d, hd, hid, -⟩ := round_between f hf.1 hri (round_idem f hf.1 hs)
    (show i ≤ s - i by linarith) (show s - i ≤ s by linarith)
  have hd0 : 0 < d := by
    rcases hi0.eq_or_lt with e | e
    · rw [← e, sub_zero, round_idem f hf.1 hs] at hd
      cases hd
      linarith
    · linarith
  obtain ⟨q, hq, hq0, hq1⟩ := round_unit f hf (div_nonneg hi0 hd0.le)
    ((div_le_one hd0).2 hid)
  refine ⟨d, q, ?_, hd0, ?_, hq0, hq1⟩
  · rw [ha, hb, add_val, hs, hi, sub_val, hd]
  · unfold ovr_ieee
    rw [ha, hb, add_val, hs, hi, sub_val, hd]
    simp only [Format.div, if_neg hd0.ne']
    exact hq

theorem fmax_zero_nonneg (v : FVal) : (fmax (FVal.val 0) v).Nonneg := by
  cases v with
  | val x =>
    rw [fmax_val]
    exact Or.inr ⟨_, rfl, le_max_left _ _⟩
  | pinf => exact Or.inl rfl
  | ninf => exact Or.inr ⟨0, rfl, le_rfl⟩
  | nan => exact Or.inr ⟨0, rfl, le_rfl⟩

theorem mul_nonneg_cases (f : Format) {u v : FVal} (hu : u.Nonneg) (hv : v.Nonneg) :
    f.mul u v = FVal.nan ∨ (f.mul u v).Nonneg := by
  rcases hu with rfl | ⟨p, rfl, hp⟩ <;> rcases hv with rfl | ⟨q, rfl, hq⟩
  · exact Or.inr (Or.inl rfl)
  · rcases hq.eq_or_lt with e | e
    · exact Or.inl (by simp [Format.mul, ← e])
    · exact Or.inr (Or.inl (by simp [Format.mul, e.ne', e]))
  · rcases hp.eq_or_lt with e | e
    · exact Or.inl (by simp [Format.mul, ← e])
    · exact Or.inr (Or.inl (by simp [Format.mul, e.ne', e]))
  · rw [mul_val]
    exact Or.inr (round_nonneg f (mul_nonneg hp hq))

/-- The intersection of any two boxes is `NaN`, `+inf` or a nonnegative number. -/
theorem inter_ieee_cases (f : Format) (bi bj : Box) :
    inter_ieee f bi bj = FVal.nan ∨ (inter_ieee f bi bj).Nonneg := by
  unfold inter_ieee
  exact mul_nonneg_cases f (fmax_zero_nonneg _) (fmax_zero_nonneg _)

/-- When one of the areas is `+inf` the ratio is `NaN` or 0. -/
theorem ovr_ieee_overflow (f : Format) (bi bj : Box) {u v : FVal} (hu : u.GeOne) (hv : v.GeOne)
    (h : u = FVal.pinf ∨ v = FVal.pinf) :
    ovr_ieee f bi u bj v = FVal.nan ∨ ovr_ieee f bi u bj v = FVal.val 0 := by
  have hS : f.add u v = FVal.pinf := by
    rcases hu with rfl | ⟨p, rfl, -⟩ <;> rcases hv with rfl | ⟨q, rfl, -⟩
    · rfl
    · rfl
    · rfl
    · rcases h with h | h <;> cases h
  unfold ovr_ieee
  rw [hS]
  rcases inter_ieee_cases f bi bj with e | e | ⟨r, e, -⟩
  · rw [e]
    exact Or.inl rfl
  · rw [e]
    exact Or.inl rfl
  · rw [e]
    exact Or.inr rfl

/-- For two boxes with `x1 <= x2` and `y1 <= y2` the ratio is `NaN` or a number in
`[0, 1]`. -/
theorem ovr_ieee_wellformed (f : Format) (hf : f.Valid) (bi bj : Box) (hix : bi.x1 ≤ bi.x2)
    (hiy : bi.y1 ≤ bi.y2) (hjx : bj.x1 ≤ bj.x2) (hjy : bj.y1 ≤ bj.y2) :
    ovr_ieee f bi (area_ieee f bi) bj (area_ieee f bj) = FVal.nan ∨
      ∃ q, ovr_ieee f bi (area_ieee f bi) bj (area_ieee f bj) = FVal.val q ∧ 0 ≤ q ∧ q ≤ 1 := by
  have hu := area_geOne f hf bi hix hiy
  have hv := area_geOne f hf bj hjx hjy
  have hover : area_ieee f bi = FVal.pinf ∨ area_ieee f bj = FVal.pinf →
      ovr_ieee f bi (area_ieee f bi) bj (area_ieee f bj) = FVal.nan ∨
      ∃ q, ovr_ieee f bi (area_ieee f bi) bj (area_ieee f bj) = FVal.val q ∧
        0 ≤ q ∧ q ≤ 1 := by
    intro h
    rcases ovr_ieee_overflow f bi bj hu hv h with e | e
    · exact Or.inl e
    · exact Or.inr ⟨0, e, le_rfl, zero_le_one⟩
  rcases hu with ea | ⟨a, ea, ha1⟩
  · exact hover (Or.inl ea)
  rcases hv with eb | ⟨b, eb, hb1⟩
  · exact hover (Or.inr eb)
  rcases round_nonneg f (show (0 : ℚ) ≤ a + b by linarith) with es | ⟨s, es, -⟩
  · obtain ⟨i, hi, -, -, -⟩ := inter_ieee_le f hf bi bj hix hiy ea
    right
    refine ⟨0, ?_, le_rfl, zero_le_one⟩
    unfold ovr_ieee
    rw [ea, eb, add_val, es, hi]
    rfl
  · obtain ⟨d, q, -, -, hq, hq0, hq1⟩ :=
      ovr_ieee_finite f hf bi bj hix hiy hjx hjy ea eb es
    exact Or.inr ⟨q, hq, hq0, hq1⟩

/-! ## Claims on the overlap ratio of kept and of well-formed boxes, in IEEE arithmetic -/

theorem area_ieee_nine : area_ieee binary32 ⟨1, 1, 10, 10⟩ = FVal.val 100 := by
  unfold area_ieee
  simp only [sub_val]
  rw [binary32_round_eq (10 - 1) 9 (by norm_num) (by norm_num)]
  simp only [add_val]
  rw [binary32_round_eq (10 - 1 + 1) 10 (by norm_num) (by norm_num)]
  simp only [mul_val]
  rw [binary32_round_eq ((10 - 1 + 1) * (10 - 1 + 1)) 100 (by norm_num) (by norm_num)]
  norm_num

theorem round_half_le (x : ℚ) (h : 1 / 2 ≤ x) : fge (binary32.round x) (1 / 2) = true := by
  have hg : binary32.Grid (1 / 2) := ⟨1, -1, by decide, by norm_num [binary32], by norm_num⟩
  have hm := round_mono binary32 binary32_valid.1 h
  rw [round_of_grid binary32 hg
    (by rw [binary32_maxval, abs_of_pos (by norm_num)]; norm_num)] at hm
  cases hx : binary32.round x with
  | nan => exact absurd hx (round_ne_nan _ _)
  | pinf => rfl
  | ninf => rw [hx] at hm; simp [fle, flt, feq] at hm
  | val r =>
    rw [hx] at hm
    simpa [fge] using (fle_val_val _ _).1 hm

theorem area_ieee_far : area_ieee binary32 ⟨100, 100, 110, 110⟩ = FVal.val 121 := by
  unfold area_ieee
  simp only [sub_val]
  rw [binary32_round_eq (110 - 100) 10 (by norm_num) (by norm_num)]
  simp only [add_val]
  rw [binary32_round_eq (110 - 100 + 1) 11 (by norm_num) (by norm_num)]
  simp only [mul_val]
  rw [binary32_round_eq ((110 - 100 + 1) * (110 - 100 + 1)) 121 (by norm_num) (by norm_num)]
  norm_num

theorem inter_ieee_near : inter_ieee binary32 ⟨1, 1, 10, 10⟩ ⟨0, 0, 10, 10⟩ = FVal.val 100 := by
  unfold inter_ieee
  simp only [fmax_val, fmin_val, sub_val]
  norm_num
  rw [binary32_round_eq 9 9 (by norm_num) (by norm_num)]
  simp only [add_val]
  rw [binary32_round_eq (9 + 1) 10 (by norm_num) (by norm_num)]
  simp only [fmax_val, mul_val]
  rw [binary32_round_eq (max 0 (9 + 1) * max 0 (9 + 1)) 100 (by norm_num) (by norm_num)]
  norm_num

theorem inter_ieee_far : inter_ieee binary32 ⟨1, 1, 10, 10⟩ ⟨100, 100, 110, 110⟩ = FVal.val 0 := by
  unfold inter_ieee
  simp only [fmax_val, fmin_val, sub_val]
  norm_num
  rw [binary32_round_eq (-90) (-90) (by norm_num) (by norm_num)]
  simp only [add_val]
  rw [binary32_round_eq (-90 + 1) (-89) (by norm_num) (by norm_num)]
  simp only [fmax_val, mul_val]
  rw [binary32_round_eq (max 0 (-90 + 1) * max 0 (-90 + 1)) 0 (by norm_num) (by norm_num)]
  norm_num

/-- The kernel in `binary32` on three boxes: the box ranked first suppresses the box that
overlaps it with ratio `100/121` and keeps the disjoint one. -/
theorem nms_cpu_kernel_ieee_three :
    nms_cpu_kernel_ieee binary32 [⟨0, 0, 10, 10⟩, ⟨1, 1, 10, 10⟩, ⟨100, 100, 110, 110⟩]
      [1, 3, 2] (1 / 2) = some [1, 2] := by
  have h10 : suppresses_ieee binary32
      [⟨0, 0, 10, 10⟩, ⟨1, 1, 10, 10⟩, ⟨100, 100, 110, 110⟩] (1 / 2) 1 0 = true := by
    simp only [suppresses_ieee, List.getElem?_cons_succ, List.getElem?_cons_zero, ovr_ieee]
    rw [area_ieee_nine, area_ieee_ten, inter_ieee_near, add_val,
      binary32_round_eq (100 + 121) 221 (by norm_num) (by norm_num), sub_val,
      binary32_round_eq (100 + 121 - 100) 121 (by norm_num) (by norm_num)]
    simp only [Format.div]
    rw [if_neg (by norm_num)]
    exact round_half_le _ (by norm_num)
  have h12 : suppresses_ieee binary32
      [⟨0, 0, 10, 10⟩, ⟨1, 1, 10, 10⟩, ⟨100, 100, 110, 110⟩] (1 / 2) 1 2 = false := by
    simp only [suppresses_ieee, List.getElem?_cons_succ, List.getElem?_cons_zero, ovr_ieee]
    rw [area_ieee_nine, area_ieee_far, inter_ieee_far, add_val,
      binary32_round_eq (100 + 121) 221 (by norm_num) (by norm_num), sub_val,
      binary32_round_eq (100 + 121 - 0) 221 (by norm_num) (by norm_num)]
    simp only [Format.div]
    rw [if_neg (by norm_num), zero_div, round_zero]
    norm_num [fge]
  have hs : sort_descending [1, 3, 2] = [1, 2, 0] := by
    simp [sort_descending, List.enum, List.enumFrom, List.insertionSort, List.orderedInsert]
  rw [nms_cpu_kernel_ieee_eq _ _ _ _ rfl, hs]
  simp only [one_div] at h10 h12
  simp [greedy_keep, h10, h12, List.range, List.range.loop]

theorem area_ieee_degenerate : area_ieee binary32 ⟨0, 0, -1, -1⟩ = FVal.val 0 := by
  unfold area_ieee
  simp only [sub_val]
  rw [binary32_round_eq (-1 - 0) (-1) (by norm_num) (by norm_num)]
  simp only [add_val]
  rw [binary32_round_eq (-1 - 0 + 1) 0 (by norm_num) (by norm_num)]
  simp only [mul_val]
  rw [binary32_round_eq ((-1 - 0 + 1) * (-1 - 0 + 1)) 0 (by norm_num) (by norm_num)]
  norm_num

theorem inter_ieee_degenerate :
    inter_ieee binary32 ⟨0, 0, -1, -1⟩ ⟨0, 0, -1, -1⟩ = FVal.val 0 := by
  unfold inter_ieee
  simp only [fmax_val, fmin_val, max_self, min_self, sub_val]
  rw [binary32_round_eq (-1 - 0) (-1) (by norm_num) (by norm_num)]
  simp only [add_val]
  rw [binary32_round_eq (-1 - 0 + 1) 0 (by norm_num) (by norm_num)]
  simp only [fmax_val, mul_val]
  rw [binary32_round_eq (max 0 (-1 - 0 + 1) * max 0 (-1 - 0 + 1)) 0 (by norm_num)
    (by norm_num)]
  norm_num

/-- In `binary32` the ratio of the zero-area box `(0, 0, -1, -1)` with itself is `0/0`. -/
theorem ovr_ieee_degenerate :
    ovr_ieee binary32 ⟨0, 0, -1, -1⟩ (area_ieee binary32 ⟨0, 0, -1, -1⟩) ⟨0, 0, -1, -1⟩
      (area_ieee binary32 ⟨0, 0, -1, -1⟩) = FVal.nan := by
  unfold ovr_ieee
  rw [area_ieee_degenerate, inter_ieee_degenerate, add_val,
    binary32_round_eq (0 + 0) 0 (by norm_num) (by norm_num), sub_val,
    binary32_round_eq (0 + 0 - 0) 0 (by norm_num) (by norm_num)]
  norm_num [Format.div]

/-- C15, as the claim states it, fails on degenerate boxes: the two zero-area boxes
`(0, 0, -1, -1)` are both returned at threshold 1/2, and their ratio is the indeterminate
`0/0` (`NaN`), not a number below the threshold. -/
theorem nms_cpu_kernel_ieee_kept_pair_nan :
    nms_cpu_kernel_ieee binary32 [⟨0, 0, -1, -1⟩, ⟨0, 0, -1, -1⟩] [1, 1 / 2] (1 / 2)
      = some [0, 1] ∧
    ovr_ieee binary32 ⟨0, 0, -1, -1⟩ (area_ieee binary32 ⟨0, 0, -1, -1⟩) ⟨0, 0, -1, -1⟩
      (area_ieee binary32 ⟨0, 0, -1, -1⟩) = FVal.nan ∧
    ¬ ∃ q, ovr_ieee binary32 ⟨0, 0, -1, -1⟩ (area_ieee binary32 ⟨0, 0, -1, -1⟩)
      ⟨0, 0, -1, -1⟩ (area_ieee binary32 ⟨0, 0, -1, -1⟩) = FVal.val q ∧ q < 1 / 2 := by
  refine ⟨?_, ovr_ieee_degenerate, ?_⟩
  · rw [nms_cpu_kernel_ieee_two, ovr_ieee_degenerate]
    norm_num [fge]
  · rw [ovr_ieee_degenerate]
    rintro ⟨q, hq, -⟩
    cases hq

/-- C15 (amended): for two different indices `i`, `j` that `nms_cpu_kernel` returns, the
test `ovr >= threshold` on the floating-point ratio of the two boxes is false: the ratio is
not `+inf`, and if it is a number, it is strictly below the threshold (it can be `NaN`).
When moreover both boxes have `x1 <= x2`, `y1 <= y2` and their areas and the sum of the
areas are finite, the ratio is a number in `[0, 1]` strictly below the threshold. -/
theorem nms_cpu_kernel_ieee_kept_pairs (f : Format) (dets : List Box) (scores : List ℚ)
    (threshold : ℚ) (hf : f.Valid) (hlen : dets.length = scores.length) :
    ∃ res, nms_cpu_kernel_ieee f dets scores threshold = some res ∧
      ∀ i ∈ res, ∀ j ∈ res, i ≠ j →
        ∃ bi bj, dets[i]? = some bi ∧ dets[j]? = some bj ∧
          fge (ovr_ieee f bi (area_ieee f bi) bj (area_ieee f bj)) threshold = false ∧
          ovr_ieee f bi (area_ieee f bi) bj (area_ieee f bj) ≠ FVal.pinf ∧
          (∀ q, ovr_ieee f bi (area_ieee f bi) bj (area_ieee f bj) = FVal.val q →
            q < threshold) ∧
          (∀ a b s, bi.x1 ≤ bi.x2 → bi.y1 ≤ bi.y2 → bj.x1 ≤ bj.x2 → bj.y1 ≤ bj.y2 →
            area_ieee f bi = FVal.val a → area_ieee f bj = FVal.val b →
            f.add (FVal.val a) (FVal.val b) = FVal.val s →
            ∃ q, ovr_ieee f bi (area_ieee f bi) bj (area_ieee f bj) = FVal.val q ∧
              0 ≤ q ∧ q ≤ 1 ∧ q < threshold) := by
  obtain ⟨res, hres, hmem⟩ := nms_cpu_kernel_ieee_mem f dets scores threshold hlen
  refine ⟨res, hres, fun i hi j hj hne => ?_⟩
  obtain ⟨hiN, hiG⟩ := (hmem i).1 hi
  obtain ⟨hjN, hjG⟩ := (hmem j).1 hj
  have hs := kept_pair_not_suppressed_ieee f dets scores threshold i j hiG hjG hne
  unfold suppresses_ieee at hs
  rw [List.getElem?_eq_getElem hiN, List.getElem?_eq_getElem hjN] at hs
  simp only [] at hs
  have hval : ∀ q, ovr_ieee f dets[i] (area_ieee f dets[i]) dets[j] (area_ieee f dets[j])
      = FVal.val q → q < threshold := by
    intro q hq
    rw [hq] at hs
    simpa [fge] using hs
  refine ⟨dets[i], dets[j], List.getElem?_eq_getElem hiN, List.getElem?_eq_getElem hjN,
    hs, fun hq => ?_, hval, fun a b s hix hiy hjx hjy ha hb hsum => ?_⟩
  · rw [hq] at hs
    cases hs
  · obtain ⟨d, q, -, -, hq, hq0, hq1⟩ :=
      ovr_ieee_finite f hf dets[i] dets[j] hix hiy hjx hjy ha hb hsum
    exact ⟨q, hq, hq0, hq1, hval q hq⟩

theorem nms_cpu_kernel_ieee_kept_pairs_witness :
    (binary32.Valid ∧
      [(⟨0, 0, 10, 10⟩ : Box), ⟨1, 1, 10, 10⟩, ⟨100, 100, 110, 110⟩].length
        = [(1 : ℚ), 3, 2].length) ∧
    nms_cpu_kernel_ieee binary32 [⟨0, 0, 10, 10⟩, ⟨1, 1, 10, 10⟩, ⟨100, 100, 110, 110⟩]
      [1, 3, 2] (1 / 2) = some [1, 2] ∧
    ∃ res,
      nms_cpu_kernel_ieee binary32 [⟨0, 0, 10, 10⟩, ⟨1, 1, 10, 10⟩, ⟨100, 100, 110, 110⟩]
        [1, 3, 2] (1 / 2) = some res ∧
      ∀ i ∈ res, ∀ j ∈ res, i ≠ j →
        ∃ bi bj,
          [(⟨0, 0, 10, 10⟩ : Box), ⟨1, 1, 10, 10⟩, ⟨100, 100, 110, 110⟩][i]? = some bi ∧
          [(⟨0, 0, 10, 10⟩ : Box), ⟨1, 1, 10, 10⟩, ⟨100, 100, 110, 110⟩][j]? = some bj ∧
          fge (ovr_ieee binary32 bi (area_ieee binary32 bi) bj (area_ieee binary32 bj)) (1 / 2)
            = false ∧
          ovr_ieee binary32 bi (area_ieee binary32 bi) bj (area_ieee binary32 bj)
            ≠ FVal.pinf ∧
          (∀ q, ovr_ieee binary32 bi (area_ieee binary32 bi) bj (area_ieee binary32 bj)
            = FVal.val q → q < 1 / 2) ∧
          (∀ a b s, bi.x1 ≤ bi.x2 → bi.y1 ≤ bi.y2 → bj.x1 ≤ bj.x2 → bj.y1 ≤ bj.y2 →
            area_ieee binary32 bi = FVal.val a → area_ieee binary32 bj = FVal.val b →
            binary32.add (FVal.val a) (FVal.val b) = FVal.val s →
            ∃ q, ovr_ieee binary32 bi (area_ieee binary32 bi) bj (area_ieee binary32 bj)
              = FVal.val q ∧ 0 ≤ q ∧ q ≤ 1 ∧ q < 1 / 2) :=
  ⟨⟨binary32_valid, rfl⟩, nms_cpu_kernel_ieee_three,
    nms_cpu_kernel_ieee_kept_pairs binary32 _ _ _ binary32_valid rfl⟩

/-- C18, as the claim states it, fails when the areas overflow: in `binary32` the box
`(0, 0, 2^70, 2^70)` has `x1 <= x2` and `y1 <= y2`, yet its ratio with itself and the
denominator of that ratio are `NaN`: the ratio is no number of `[0, 1]`. -/
theorem ovr_ieee_wellformed_overflow :
    ((0 : ℚ) ≤ 2 ^ 70) ∧
    binary32.sub
      (binary32.add (area_ieee binary32 ⟨0, 0, 2 ^ 70, 2 ^ 70⟩)
        (area_ieee binary32 ⟨0, 0, 2 ^ 70, 2 ^ 70⟩))
      (inter_ieee binary32 ⟨0, 0, 2 ^ 70, 2 ^ 70⟩ ⟨0, 0, 2 ^ 70, 2 ^ 70⟩) = FVal.nan ∧
    ovr_ieee binary32 ⟨0, 0, 2 ^ 70, 2 ^ 70⟩ (area_ieee binary32 ⟨0, 0, 2 ^ 70, 2 ^ 70⟩)
      ⟨0, 0, 2 ^ 70, 2 ^ 70⟩ (area_ieee binary32 ⟨0, 0, 2 ^ 70, 2 ^ 70⟩) = FVal.nan ∧
    ¬ ∃ q, ovr_ieee binary32 ⟨0, 0, 2 ^ 70, 2 ^ 70⟩
      (area_ieee binary32 ⟨0, 0, 2 ^ 70, 2 ^ 70⟩) ⟨0, 0, 2 ^ 70, 2 ^ 70⟩
      (area_ieee binary32 ⟨0, 0, 2 ^ 70, 2 ^ 70⟩) = FVal.val q ∧ 0 ≤ q ∧ q ≤ 1 := by
  refine ⟨by norm_num, ?_, ovr_ieee_huge, ?_⟩
  · rw [inter_ieee_self binary32 binary32_valid _ (by norm_num) (by norm_num),
      area_ieee_overflow]
    rfl
  · rw [ovr_ieee_huge]
    rintro ⟨q, hq, -⟩
    cases hq

/-- C18 (amended): for two boxes with `x1 <= x2` and `y1 <= y2` whose areas and the sum of
the areas are finite in the floating-point format, the denominator of the ratio computed by
the kernel is a positive number and the ratio is a number in `[0, 1]`; and for every input
of N boxes with `x1 <= x2` and `y1 <= y2` (overflowing areas included, where the ratio is
`NaN` or in `[0, 1]`) and every threshold above 1 nothing is suppressed: `nms_cpu_kernel`
returns `[0, 1, ..., N-1]`. -/
theorem nms_cpu_kernel_ieee_threshold_above_one (f : Format) (bi bj : Box) (dets : List Box)
    (scores : List ℚ) (threshold a b s : ℚ) (hf : f.Valid)
    (hi : bi.x1 ≤ bi.x2 ∧ bi.y1 ≤ bi.y2) (hj : bj.x1 ≤ bj.x2 ∧ bj.y1 ≤ bj.y2)
    (ha : area_ieee f bi = FVal.val a) (hb : area_ieee f bj = FVal.val b)
    (hs : f.add (FVal.val a) (FVal.val b) = FVal.val s)
    (hlen : dets.length = scores.length) (hwf : ∀ b ∈ dets, b.x1 ≤ b.x2 ∧ b.y1 ≤ b.y2)
    (ht : 1 < threshold) :
    (∃ d q, f.sub (f.add (area_ieee f bi) (area_ieee f bj)) (inter_ieee f bi bj) = FVal.val d ∧
      0 < d ∧ ovr_ieee f bi (area_ieee f bi) bj (area_ieee f bj) = FVal.val q ∧
      0 ≤ q ∧ q ≤ 1) ∧
    (∀ b1 ∈ dets, ∀ b2 ∈ dets,
      ovr_ieee f b1 (area_ieee f b1) b2 (area_ieee f b2) = FVal.nan ∨
      ∃ q, ovr_ieee f b1 (area_ieee f b1) b2 (area_ieee f b2) = FVal.val q ∧ 0 ≤ q ∧ q ≤ 1) ∧
    nms_cpu_kernel_ieee f dets scores threshold = some (List.range dets.length) := by
  refine ⟨ovr_ieee_finite f hf bi bj hi.1 hi.2 hj.1 hj.2 ha hb hs,
    fun b1 h1 b2 h2 => ovr_ieee_wellformed f hf b1 b2 (hwf b1 h1).1 (hwf b1 h1).2
      (hwf b2 h2).1 (hwf b2 h2).2, ?_⟩
  apply nms_cpu_kernel_ieee_all_kept f dets scores threshold hlen
  intro m n hm hn _
  unfold suppresses_ieee
  rw [List.getElem?_eq_getElem hm, List.getElem?_eq_getElem hn]
  simp only []
  have wm := hwf _ (List.getElem_mem hm)
  have wn := hwf _ (List.getElem_mem hn)
  rcases ovr_ieee_wellformed f hf dets[m] dets[n] wm.1 wm.2 wn.1 wn.2 with e | ⟨q, e, -, hq1⟩
  · rw [e]
    rfl
  · rw [e]
    simp only [fge, decide_eq_false_iff_not, not_le]
    linarith

theorem nms_cpu_kernel_ieee_threshold_above_one_witness :
    (binary32.Valid ∧ ((0 : ℚ) ≤ 10 ∧ (0 : ℚ) ≤ 10) ∧ ((1 : ℚ) ≤ 10 ∧ (1 : ℚ) ≤ 10) ∧
      area_ieee binary32 ⟨0, 0, 10, 10⟩ = FVal.val 121 ∧
      area_ieee binary32 ⟨1, 1, 10, 10⟩ = FVal.val 100 ∧
      binary32.add (FVal.val 121) (FVal.val 100) = FVal.val 221 ∧
      [(⟨0, 0, 10, 10⟩ : Box), ⟨0, 0, 2 ^ 70, 2 ^ 70⟩].length = [(1 : ℚ), 3].length ∧
      (∀ b ∈ [(⟨0, 0, 10, 10⟩ : Box), ⟨0, 0, 2 ^ 70, 2 ^ 70⟩], b.x1 ≤ b.x2 ∧ b.y1 ≤ b.y2) ∧
      (1 : ℚ) < 3 / 2) ∧
    (∃ d q, binary32.sub
        (binary32.add (area_ieee binary32 ⟨0, 0, 10, 10⟩) (area_ieee binary32 ⟨1, 1, 10, 10⟩))
        (inter_ieee binary32 ⟨0, 0, 10, 10⟩ ⟨1, 1, 10, 10⟩) = FVal.val d ∧
      0 < d ∧ ovr_ieee binary32 ⟨0, 0, 10, 10⟩ (area_ieee binary32 ⟨0, 0, 10, 10⟩)
        ⟨1, 1, 10, 10⟩ (area_ieee binary32 ⟨1, 1, 10, 10⟩) = FVal.val q ∧ 0 ≤ q ∧ q ≤ 1) ∧
    (∀ b1 ∈ [(⟨0, 0, 10, 10⟩ : Box), ⟨0, 0, 2 ^ 70, 2 ^ 70⟩],
      ∀ b2 ∈ [(⟨0, 0, 10, 10⟩ : Box), ⟨0, 0, 2 ^ 70, 2 ^ 70⟩],
      ovr_ieee binary32 b1 (area_ieee binary32 b1) b2 (area_ieee binary32 b2) = FVal.nan ∨
      ∃ q, ovr_ieee binary32 b1 (area_ieee binary32 b1) b2 (area_ieee binary32 b2)
        = FVal.val q ∧ 0 ≤ q ∧ q ≤ 1) ∧
    nms_cpu_kernel_ieee binary32 [⟨0, 0, 10, 10⟩, ⟨0, 0, 2 ^ 70, 2 ^ 70⟩] [1, 3] (3 / 2)
      = some (List.range [(⟨0, 0, 10, 10⟩ : Box), ⟨0, 0, 2 ^ 70, 2 ^ 70⟩].length) :=
  have hsum : binary32.add (FVal.val 121) (FVal.val 100) = FVal.val 221 := by
    rw [add_val, binary32_round_eq (121 + 100) 221 (by norm_num) (by norm_num)]
    norm_num
  have hwf : ∀ b ∈ [(⟨0, 0, 10, 10⟩ : Box), ⟨0, 0, 2 ^ 70, 2 ^ 70⟩],
      b.x1 ≤ b.x2 ∧ b.y1 ≤ b.y2 := by
    intro b hb
    simp only [List.mem_cons, List.mem_singleton, List.not_mem_nil, or_false] at hb
    rcases hb with rfl | rfl <;> norm_num
  ⟨⟨binary32_valid, by norm_num, by norm_num, area_ieee_ten, area_ieee_nine, hsum, rfl, hwf,
      by norm_num⟩,
    nms_cpu_kernel_ieee_threshold_above_one binary32 ⟨0, 0, 10, 10⟩ ⟨1, 1, 10, 10⟩
      [⟨0, 0, 10, 10⟩, ⟨0, 0, 2 ^ 70, 2 ^ 70⟩] [1, 3] (3 / 2) 121 100 221 binary32_valid
      (by norm_num) (by norm_num) area_ieee_ten area_ieee_nine hsum rfl hwf (by norm_num)⟩

end HNMS
